import Mathlib

/-!
# go-vacationd: rate limiter, loop-prevention checks and LMTP session

Shallow embedding of `pkg/ratelimiter`, `pkg/backend` and `pkg/interfaces`.

Conventions of the embedding

* Go strings are Lean `String`s; regular expressions work on their characters.
* `time.Time` and `time.Duration` are integers (nanoseconds on one monotonic
  clock); `t.Add(d)` is `t + d` and `a.Before(b)` is `a < b`.
* A pointer `*expireelem` is an index into the arena `heap` of all elements
  ever allocated; `nil` is `none`.  Allocation appends to the arena.
* `map[string]bool` holding only `true` is the list of its keys.
* Library code outside the repository (`crypto/sha256`, `net/mail` address
  parsing, the reply generator plugged in by `main`) is a parameter.
-/

namespace Vacationd

/-! ## pkg/ratelimiter/ratelimiter.go -/

/-- Outcome of running a piece of Go code: a value, a nil-pointer dereference
panic, a loop that was cut off by the fuel of the model, or an event that the
`select` the program is blocked in does not offer. -/
inductive Result (α : Type) where
  | ok (a : α)
  | nilDeref
  | outOfFuel
  | notEnabled
deriving DecidableEq

/-- Go `type expireelem struct`.  The field `next` is a pointer. -/
structure expireelem where
  when : Int
  key : String
  next : Option Nat
deriving DecidableEq

/-- Go `type ratelimiter struct`, without the channel `inch` and the mutex
`lock`, which a sequential execution does not observe. -/
structure ratelimiter where
  d : Int
  track : List String
  heap : List expireelem
  expirehead : Option Nat
  expiretail : Option Nat
deriving DecidableEq

/-- Go `New(d)`: empty throttle set, both queue pointers nil. -/
def New (d : Int) : ratelimiter :=
  { d := d, track := [], heap := [], expirehead := none, expiretail := none }

/-- Go `mapKey`: the digest `sum256` of `fmt.Sprintf("%s@@%s", from, to)`. -/
def mapKey (sum256 : String → String) (frm tgt : String) : String :=
  sum256 (frm ++ "@@" ++ tgt)

/-- Map store `m[key] = true`. -/
def trackSet (track : List String) (key : String) : List String :=
  if key ∈ track then track else key :: track

/-- Map removal `delete(m, key)`. -/
def trackDelete (track : List String) (key : String) : List String :=
  track.filter (fun k => k ≠ key)

/-- Pointer store `p.next = e` in the arena. -/
def setNext : List expireelem → Nat → Option Nat → List expireelem
  | [], _, _ => []
  | x :: xs, 0, e => { x with next := e } :: xs
  | x :: xs, p + 1, e => x :: setNext xs p e

/-- Go `(*ratelimiter).Ratelimit` up to the hand-off: the returned Boolean and
the key sent on `inch`, if one is sent. -/
def Ratelimit (sum256 : String → String) (r : ratelimiter) (frm tgt : String) :
    Bool × Option String :=
  let key := mapKey sum256 frm tgt
  if key ∈ r.track then (false, none) else (true, some key)

/-- Go `(*ratelimiter).add`; `now` is the value `time.Now()` returns. -/
def add (r : ratelimiter) (key : String) (now : Int) : ratelimiter :=
  if key ∈ r.track then r
  else
    let e : expireelem := { when := now + r.d, key := key, next := none }
    let p := r.heap.length
    match r.expiretail with
    | some t =>
      { r with track := trackSet r.track key,
               heap := setNext r.heap t (some p) ++ [e],
               expiretail := some p }
    | none =>
      { r with track := trackSet r.track key,
               heap := r.heap ++ [e],
               expirehead := some p,
               expiretail := some p }

/-- Go `(*ratelimiter).pop`; panics when `expirehead` is nil. -/
def pop (r : ratelimiter) : Result ratelimiter :=
  match r.expirehead with
  | none => .nilDeref
  | some h =>
    match r.heap[h]? with
    | none => .nilDeref
    | some e =>
      let head := e.next
      .ok { r with expirehead := head,
                   expiretail := if head = none then none else r.expiretail,
                   track := trackDelete r.track e.key }

/-- The loop of the timer case of `Run`:
`for e := r.expirehead; e != nil && e.when.Before(n); e = r.expirehead { r.pop() }`. -/
def expireLoop (n : Int) : Nat → ratelimiter → Result ratelimiter
  | 0, _ => .outOfFuel
  | fuel + 1, r =>
    match r.expirehead with
    | none => .ok r
    | some h =>
      match r.heap[h]? with
      | none => .nilDeref
      | some e =>
        if e.when < n then
          match pop r with
          | .ok r1 => expireLoop n fuel r1
          | x => x
        else .ok r

/-- Fuel that always suffices for `expireLoop`: one round per allocated element,
and one for the final test. -/
def expireFuel (r : ratelimiter) : Nat := r.heap.length + 1

/-- The state of `Run`: the limiter it owns and its local `tm`, a timer
(represented by the instant it was armed for) or nil. -/
structure RunState where
  r : ratelimiter
  tm : Option Int
deriving DecidableEq

/-- What `Run` can be woken by: a key received on `inch` (with the clock value
`add` then reads), or the timer channel (with the clock value read as `n`). -/
inductive Event where
  | recv (key : String) (now : Int)
  | timer (n : Int)
deriving DecidableEq

/-- The expression `time.NewTimer(time.Until(r.expirehead.when))`. -/
def armTimer (r : ratelimiter) : Result (Option Int) :=
  match r.expirehead with
  | none => .nilDeref
  | some h =>
    match r.heap[h]? with
    | none => .nilDeref
    | some e => .ok (some e.when)

/-- One iteration of the `for` loop of `Run` (cancellation apart). -/
def Run.step (s : RunState) : Event → Result RunState
  | .recv key now =>
    match s.tm with
    | none =>
      let r := add s.r key now
      match armTimer r with
      | .ok tm => .ok { r := r, tm := tm }
      | .nilDeref => .nilDeref
      | .outOfFuel => .outOfFuel
      | .notEnabled => .notEnabled
    | some _ => .ok { s with r := add s.r key now }
  | .timer n =>
    match s.tm with
    | none => .notEnabled
    | some _ =>
      match expireLoop n (expireFuel s.r) s.r with
      | .ok r =>
        if r.expirehead ≠ none then
          match armTimer r with
          | .ok tm => .ok { r := r, tm := tm }
          | .nilDeref => .nilDeref
          | .outOfFuel => .outOfFuel
          | .notEnabled => .notEnabled
        else .ok { r := r, tm := none }
      | .nilDeref => .nilDeref
      | .outOfFuel => .outOfFuel
      | .notEnabled => .notEnabled

/-- The state in which `Run` starts on a fresh limiter. -/
def Run.init (d : Int) : RunState := { r := New d, tm := none }

/-- The elements reached from the pointer `p` by following `next`, each with
the pointer to it. -/
def walk (heap : List expireelem) : Nat → Option Nat → List (Nat × expireelem)
  | 0, _ => []
  | _ + 1, none => []
  | fuel + 1, some p =>
    match heap[p]? with
    | none => []
    | some e => (p, e) :: walk heap fuel e.next

/-- The expiry queue of a limiter, head first. -/
def queue (r : ratelimiter) : List expireelem :=
  (walk r.heap r.heap.length r.expirehead).map Prod.snd

/-- The pointers to the elements of the expiry queue, head first. -/
def queuePtrs (r : ratelimiter) : List Nat :=
  (walk r.heap r.heap.length r.expirehead).map Prod.fst

/-- An operation on the limiter, as `Run` performs them. -/
inductive Op where
  | add (key : String) (now : Int)
  | pop
deriving DecidableEq

/-- Performs one operation. -/
def Op.exec (r : ratelimiter) : Op → Result ratelimiter
  | .add key now => .ok (Vacationd.add r key now)
  | .pop => Vacationd.pop r

/-- Performs a sequence of operations, stopping at the first panic. -/
def execOps : ratelimiter → List Op → Result ratelimiter
  | r, [] => .ok r
  | r, o :: os =>
    match o.exec r with
    | .ok r1 => execOps r1 os
    | x => x

/-- The clock values read by the `add`s of a sequence of operations, in order. -/
def clockReadings : List Op → List Int
  | [] => []
  | .add _ now :: os => now :: clockReadings os
  | .pop :: os => clockReadings os

/-- The invariant of the limiter state: the throttle set is the set of the keys
in the queue, no key is queued twice, expirations do not decrease from head to
tail, and `expirehead`, `expiretail` point at the first and the last queue
element (both nil when the queue is empty). -/
def QueueInv (r : ratelimiter) : Prop :=
  (∀ k, k ∈ r.track ↔ k ∈ (queue r).map expireelem.key) ∧
  ((queue r).map expireelem.key).Nodup ∧
  ((queue r).map expireelem.when).Pairwise (fun a b => a ≤ b) ∧
  (r.expiretail = none ↔ r.expirehead = none) ∧
  r.expirehead = (queuePtrs r).head? ∧
  r.expiretail = (queuePtrs r).getLast?

/-- Index of the first live element of the arena: the head, or the end of the
arena when the queue is empty. -/
def live (r : ratelimiter) : Nat :=
  match r.expirehead with
  | some h => h
  | none => r.heap.length

/-- Shape of the arena: the queue is the part of the arena from the head on,
linked in allocation order. -/
structure Rep (r : ratelimiter) : Prop where
  head_lt : ∀ h, r.expirehead = some h → h < r.heap.length
  tail_none : r.expirehead = none → r.expiretail = none
  tail_some : ∀ h, r.expirehead = some h → r.expiretail = some (r.heap.length - 1)
  link : ∀ i e, live r ≤ i → r.heap[i]? = some e →
    e.next = if i + 1 < r.heap.length then some (i + 1) else none

/-- The inductive invariant: the shape of the arena, and the throttle set,
the keys and the expirations of the live part; `c` is a clock value that every
queued expiration is within one window of. -/
structure Good (r : ratelimiter) (c : Int) : Prop where
  rep : Rep r
  track_iff : ∀ k, k ∈ r.track ↔ k ∈ (r.heap.drop (live r)).map expireelem.key
  nodup : ((r.heap.drop (live r)).map expireelem.key).Nodup
  sorted : ((r.heap.drop (live r)).map expireelem.when).Pairwise (fun a b => a ≤ b)
  bound : ∀ w ∈ (r.heap.drop (live r)).map expireelem.when, w ≤ c + r.d

/-- A step of the sequential system: either a caller runs `Ratelimit` and the
owner handles the key it hands off (reading the clock as `now`) before anything
else happens, or the timer of the owner fires (reading the clock as `n`). -/
inductive Call where
  | ratelimit (frm tgt : String) (now : Int)
  | tick (n : Int)
deriving DecidableEq

/-- The clock value attached to a step. -/
def Call.time : Call → Int
  | .ratelimit _ _ now => now
  | .tick n => n

/-- One step of the sequential system; the output is what `Ratelimit` returned. -/
def seqStep (sum256 : String → String) (s : RunState) : Call → Result (RunState × Option Bool)
  | .ratelimit frm tgt now =>
    match Ratelimit sum256 s.r frm tgt with
    | (b, none) => .ok (s, some b)
    | (b, some key) =>
      match Run.step s (.recv key now) with
      | .ok s1 => .ok (s1, some b)
      | .nilDeref => .nilDeref
      | .outOfFuel => .outOfFuel
      | .notEnabled => .notEnabled
  | .tick n =>
    match Run.step s (.timer n) with
    | .ok s1 => .ok (s1, none)
    | .nilDeref => .nilDeref
    | .outOfFuel => .outOfFuel
    | .notEnabled => .notEnabled

/-- A sequence of steps of the sequential system, with the outputs in order. -/
def seqRun (sum256 : String → String) : RunState → List Call → Result (RunState × List (Option Bool))
  | s, [] => .ok (s, [])
  | s, c :: cs =>
    match seqStep sum256 s c with
    | .ok (s1, o) =>
      match seqRun sum256 s1 cs with
      | .ok (s2, os) => .ok (s2, o :: os)
      | x => x
    | .nilDeref => .nilDeref
    | .outOfFuel => .outOfFuel
    | .notEnabled => .notEnabled

/-- The key a step of the sequential system asks about, if it is a `Ratelimit`. -/
def Call.key (sum256 : String → String) : Call → Option String
  | .ratelimit frm tgt _ => some (mapKey sum256 frm tgt)
  | .tick _ => none

/-- The clock values of a sequence of steps never go backwards. -/
def clockMonotone (cs : List Call) : Prop :=
  (cs.map Call.time).Pairwise (fun a b => a ≤ b)

/-- The live part of the arena as (key, expiration) pairs, head first. -/
def entries (r : ratelimiter) : List (String × Int) :=
  (r.heap.drop (live r)).map (fun e => (e.key, e.when))

/-- The invariant of the owner loop: the limiter invariant, and the timer is
armed exactly when the queue is not empty. -/
structure RunInv (s : RunState) (c : Int) : Prop where
  good : Good s.r c
  timer : s.tm = none ↔ s.r.expirehead = none

/-! ## Regular expressions (the fragment of Go `regexp` syntax the repository uses) -/

/-- Syntax of the regular expressions of the repository: literal characters,
negated one-character classes `[^c]`, the anchors `^` and `$`, concatenation,
alternation, `+` and numbered capture groups. -/
inductive Regexp where
  | eps
  | lit (c : Char)
  | notChar (c : Char)
  | bol
  | eol
  | cat (a b : Regexp)
  | alt (a b : Regexp)
  | plus (a : Regexp)
  | group (i : Nat) (a : Regexp)
deriving DecidableEq

/-- A literal string as a regular expression. -/
def Regexp.str : List Char → Regexp
  | [] => .eps
  | c :: cs => .cat (.lit c) (Regexp.str cs)

/-- A position of the matcher in a text: the number of characters before it,
the characters after it, and the text of the groups captured so far (latest
first). -/
structure MState where
  pos : Nat
  rest : List Char
  caps : List (Nat × List Char)
deriving DecidableEq

/-- Repetition `f+` of a matcher: after each round either go on (preferred,
`+` is greedy) or stop.  A round that consumes nothing is not repeated. -/
def Regexp.iterate (f : MState → List MState) : Nat → MState → List MState
  | 0, s => f s
  | n + 1, s =>
    (f s).flatMap (fun s1 =>
      (if s1.rest.length < s.rest.length then Regexp.iterate f n s1 else []) ++ [s1])

/-- All the ways in which a regular expression matches at a position, the one a
backtracking (leftmost-first) matcher prefers first: each result is the position
after the match. -/
def Regexp.run : Regexp → MState → List MState
  | .eps, s => [s]
  | .lit c, s =>
    match s.rest with
    | x :: xs => if x = c then [{ pos := s.pos + 1, rest := xs, caps := s.caps }] else []
    | [] => []
  | .notChar c, s =>
    match s.rest with
    | x :: xs => if x ≠ c then [{ pos := s.pos + 1, rest := xs, caps := s.caps }] else []
    | [] => []
  | .bol, s => if s.pos = 0 then [s] else []
  | .eol, s => if s.rest = [] then [s] else []
  | .cat a b, s => (Regexp.run a s).flatMap (fun s1 => Regexp.run b s1)
  | .alt a b, s => Regexp.run a s ++ Regexp.run b s
  | .plus a, s => Regexp.iterate (fun s1 => Regexp.run a s1) s.rest.length s
  | .group i a, s =>
    (Regexp.run a s).map (fun s1 =>
      { s1 with caps := (i, s.rest.take (s1.pos - s.pos)) :: s1.caps })

/-- The preferred match that starts at position `i` of the text, if there is one. -/
def Regexp.matchAt (re : Regexp) (text : List Char) (i : Nat) : Option MState :=
  (re.run { pos := i, rest := text.drop i, caps := [] }).head?

/-- Go `(*Regexp).MatchString`: is there a match starting anywhere in `s`. -/
def Regexp.MatchString (re : Regexp) (s : String) : Bool :=
  (List.range (s.data.length + 1)).any (fun i => (re.matchAt s.data i).isSome)

/-- The text of capture group `i` of a match (empty when the group took no part). -/
def MState.capture (m : MState) (i : Nat) : String :=
  match m.caps.lookup i with
  | some cs => String.mk cs
  | none => ""

/-- Go `(*Regexp).FindStringSubmatch` for an expression with `n` groups: the
leftmost match, as the list of the whole matched text and the text of the groups
`1..n`; `none` is Go's nil slice. -/
def Regexp.FindStringSubmatch (re : Regexp) (n : Nat) (s : String) : Option (List String) :=
  match (List.range (s.data.length + 1)).findSome?
      (fun i => (re.matchAt s.data i).map (fun m => (i, m))) with
  | none => none
  | some (i, m) =>
    some (String.mk ((s.data.drop i).take (m.pos - i)) ::
      (List.range n).map (fun k => m.capture (k + 1)))

/-! ## Library types the backend works with: `net/textproto`, `net/mail`, `go-mail` -/

/-- Go `textproto.validHeaderFieldByte`: the token characters of a header name. -/
def validHeaderFieldByte (c : Char) : Bool :=
  c.isAlphanum || "!#$%&*+-.^_|~".data.contains c || c = Char.ofNat 39 || c = Char.ofNat 96

/-- The loop of Go `textproto.canonicalMIMEHeaderKey`: upper case at the start
and after each dash, lower case elsewhere. -/
def canonicalLoop : Bool → List Char → List Char
  | _, [] => []
  | upper, c :: cs =>
    let c1 := if upper then c.toUpper else c.toLower
    c1 :: canonicalLoop (c1 = '-') cs

/-- Go `textproto.CanonicalMIMEHeaderKey`: a key with a character that is not a
token character is left as it is. -/
def CanonicalMIMEHeaderKey (s : String) : String :=
  if s.data.all validHeaderFieldByte then String.mk (canonicalLoop true s.data) else s

/-- Go `mail.Header`, a `map[string][]string` from canonical keys to the values
of the fields with that key, in the order they appear in the message. -/
structure Header where
  fields : List (String × List String)
deriving DecidableEq

/-- Go `mail.Header.Get`: the first value of the key, `""` when there is none. -/
def Header.Get (h : Header) (key : String) : String :=
  match h.fields.lookup (CanonicalMIMEHeaderKey key) with
  | some (v :: _) => v
  | _ => ""

set_option linter.dupNamespace false in
/-- Go `mail.Address`. -/
structure Address where
  Name : String
  Address : String
deriving DecidableEq

/-- Functions of `net/mail` that the repository calls and does not define. -/
structure MailLib where
  ParseAddressList : String → Option (List Address)
  ParseAddress : String → Option Address
  addressString : Address → String

/-- Go `mail.Header.AddressList`; `none` is a non-nil error. -/
def Header.AddressList (lib : MailLib) (h : Header) (key : String) : Option (List Address) :=
  let hdr := h.Get key
  if hdr = "" then none else lib.ParseAddressList hdr

/-- Go `mail.Message`, of which only the header is ever looked at. -/
structure Message where
  Header : Header
deriving DecidableEq

/-- Store `m[k] = v` in a map kept as a list of its entries. -/
def assocSet {β : Type} (m : List (String × β)) (k : String) (v : β) : List (String × β) :=
  if (m.lookup k).isSome then m.map (fun p => if p.1 = k then (k, v) else p)
  else m ++ [(k, v)]

/-- Go `gomail.Msg`: general headers, address headers and body parts. -/
structure Msg where
  genHeader : List (String × List String)
  addrHeader : List (String × List Address)
  parts : List (String × String)
deriving DecidableEq

/-- Go `gomail.NewMsg`. -/
def NewMsg : Msg := { genHeader := [], addrHeader := [], parts := [] }

/-- Go `(*Msg).SetGenHeader`. -/
def Msg.SetGenHeader (m : Msg) (header : String) (values : List String) : Msg :=
  { m with genHeader := assocSet m.genHeader header values }

/-- Go `(*Msg).GetGenHeader`. -/
def Msg.GetGenHeader (m : Msg) (header : String) : List String :=
  match m.genHeader.lookup header with
  | some vs => vs
  | none => []

/-- Go `(*Msg).Subject`. -/
def Msg.Subject (m : Msg) (subj : String) : Msg := m.SetGenHeader "Subject" [subj]

/-- Go `(*Msg).SetBodyString`: the body becomes the one part given. -/
def Msg.SetBodyString (m : Msg) (contentType content : String) : Msg :=
  { m with parts := [(contentType, content)] }

/-- Errors of the backend. -/
inductive Error where
  | errInvalidFrom
  | errInvalidRcpt
  | errInvalidRcptDomain
  | unimplemented
  | other (text : String)
deriving DecidableEq

/-- Parsing of the values of Go `(*Msg).SetAddrHeader`, stopping at the first
that is not an address. -/
def parseAddresses (lib : MailLib) : List String → Except Error (List Address)
  | [] => .ok []
  | v :: vs =>
    match lib.ParseAddress v with
    | none => .error (.other ("failed to parse mail address " ++ v))
    | some a =>
      match parseAddresses lib vs with
      | .ok as => .ok (a :: as)
      | .error e => .error e

/-- Go `(*Msg).From`. -/
def Msg.From (m : Msg) (lib : MailLib) (frm : String) : Msg × Option Error :=
  match parseAddresses lib [frm] with
  | .error e => (m, some e)
  | .ok as => ({ m with addrHeader := assocSet m.addrHeader "From" (as.take 1) }, none)

/-- Go `(*Msg).To`. -/
def Msg.To (m : Msg) (lib : MailLib) (rcpts : List String) : Msg × Option Error :=
  match parseAddresses lib rcpts with
  | .error e => (m, some e)
  | .ok as => ({ m with addrHeader := assocSet m.addrHeader "To" as }, none)

/-- The header of a reply as a mail server that receives it reads it: every
general header is one field under its canonical key, its values joined by
commas. -/
def Msg.asInbound (m : Msg) : Message :=
  Message.mk (Header.mk (m.genHeader.map
    (fun p => (CanonicalMIMEHeaderKey p.1, [", ".intercalate p.2]))))

/-! ## pkg/interfaces -/

/-- Go `interfaces.RateLimiter`, with the state of the implementation made
explicit (`Run` is started by `main`, not by the backend). -/
structure RateLimiter (σ : Type) where
  Ratelimit : σ → String → String → Bool × σ

/-- Go `interfaces.ReplyGenerator`: `GenerateReplyBody(ctx, msg, mailfrom, rcptto, reply)`. -/
abbrev ReplyGenerator := Message → String → String → Msg → Option Msg × Option Error

/-! ## pkg/postfixadminvacation/replygenerator.go -/

/-- Outcome of the query for the active vacation record of a mailbox. -/
inductive QueryResult where
  | row (subject body : String)
  | errNoRows
  | failure (err : Error)
deriving DecidableEq

/-- Go `(*replygenerator).GenerateReplyBody`; `query` is the database lookup. -/
def postfixadminvacation.GenerateReplyBody (query : String → QueryResult) : ReplyGenerator :=
  fun _ _ rcptto reply =>
    match query rcptto with
    | .errNoRows => (none, none)
    | .failure err => (none, some err)
    | .row subject body =>
      let reply := if subject ≠ "" then reply.Subject subject else reply
      let reply := if body ≠ "" then reply.SetBodyString "text/plain" body else reply
      (some reply, none)

/-! ## pkg/backend/backend.go and checks.go -/

def referencesHeader : String := "References"
def autoSubmittedHeader : String := "Auto-Submitted"
def autoSubmittedHeaderNo : String := "no"
def autoSubmittedHeaderAutoReplied : String := "auto-replied"
def xAutoResponseSuppressHeader : String := "X-Auto-Response-Suppress"
def xAutoResponseSuppressHeaderAllValue : String := "All"
def xAutoResponseSuppressHeaderOOFValue : String := "OOF"
def headerResentTo : String := "Resent-To"
def headerResentCC : String := "Resent-Cc"
def headerResentBCC : String := "Resent-Bcc"

/-- Go `nonPermittedSenderRe`, `(^owner-|-service|^MAILER-DAEMON)@`. -/
def nonPermittedSenderRe : Regexp :=
  .cat (.group 1 (.alt (.cat .bol (Regexp.str "owner-".data))
    (.alt (Regexp.str "-service".data) (.cat .bol (Regexp.str "MAILER-DAEMON".data)))))
    (.lit '@')

/-- Go `listHeaders`. -/
def listHeaders : List String :=
  ["List-Help", "List-Unsubscribe", "List-Subscribe", "List-Post", "List-Owner", "List-Archive"]

/-- Go `recipientAddressHeaders`. -/
def recipientAddressHeaders : List String :=
  ["To", "Cc", "Bcc", headerResentTo, headerResentCC, headerResentBCC]

/-- Go `isAutoSubmitted`. -/
def isAutoSubmitted (msg : Message) : Bool :=
  let autosubmitted := msg.Header.Get autoSubmittedHeader
  if autosubmitted ≠ "" ∧ autosubmitted ≠ autoSubmittedHeaderNo then true
  else
    let xAutoResponseSuppress := msg.Header.Get xAutoResponseSuppressHeader
    if xAutoResponseSuppress = xAutoResponseSuppressHeaderAllValue ∨
        xAutoResponseSuppress = xAutoResponseSuppressHeaderOOFValue then true
    else false

/-- Go `isMessageAddressedTo`. -/
def isMessageAddressedTo (lib : MailLib) (msg : Message) (rcpt : String) : Bool :=
  let addrs := recipientAddressHeaders.flatMap (fun field =>
    match msg.Header.AddressList lib field with
    | some list => list
    | none => [])
  addrs.any (fun addr => addr.Address = rcpt)

/-- Go `isPermittedSender`. -/
def isPermittedSender (frm : String) : Bool :=
  frm ≠ "" && !nonPermittedSenderRe.MatchString frm

/-- Go `isResponseAppropriate`. -/
def isResponseAppropriate (msg : Message) : Bool :=
  !listHeaders.any (fun header => msg.Header.Get header ≠ "")

/-- Go `extractAddress`. -/
def extractAddress (lib : MailLib) (msg : Message) (address : String) :
    List String → String
  | [] => address
  | f :: fields =>
    match msg.Header.AddressList lib f with
    | some (a :: _) =>
      if a.Address = address then lib.addressString a
      else extractAddress lib msg address fields
    | _ => extractAddress lib msg address fields

/-- What the backend does to the world outside it, in the order it does it. -/
inductive Effect where
  | ratelimit (frm tgt : String) (permitted : Bool)
  | generate (sender recipient : String)
  | send (reply : Msg)
  | status (rcpt : String) (err : Option Error)
  | printf (line : String)
deriving DecidableEq

/-- The world the backend acts on: the state of the rate limiter and the log of
the effects so far. -/
structure World (σ : Type) where
  rl : σ
  log : List Effect

/-- Appends an effect to the log. -/
def World.emit {σ : Type} (w : World σ) (e : Effect) : World σ :=
  { w with log := w.log ++ [e] }

/-- The surroundings of one delivery: the mail library, the values `SetDate` and
`SetMessageID` produce, the outcome of `gomail.NewClient` and of
`DialAndSendWithContext`, and the order in which `range` yields the entries of
a map (Go leaves it unspecified). -/
structure Env where
  lib : MailLib
  date : String
  messageID : String
  newClient : Option Error
  dialAndSend : Msg → Option Error
  rangeOrder : List (String × String) → List (String × String)

/-- Go `type backend struct`. -/
structure backend (σ : Type) where
  domain : String
  server : String
  port : Int
  ratelimiter : RateLimiter σ
  replygenerator : Option ReplyGenerator

/-- The reply as `GenerateReply` has built it when it turns to the generator. -/
def replySkeleton (env : Env) (msg : Message) (m : Msg) : Msg :=
  let m := m.SetGenHeader "Date" [env.date]
  let m := m.Subject ("Auto: " ++ msg.Header.Get "Subject")
  let m := m.SetGenHeader "Message-ID" [env.messageID]
  let msgid := msg.Header.Get "Message-ID"
  let m := if msgid ≠ "" then m.SetGenHeader "In-Reply-To" [msgid] else m
  let references :=
    if msg.Header.Get referencesHeader = "" then msg.Header.Get "In-Reply-To"
    else msg.Header.Get referencesHeader
  let newrefs : List String :=
    (if references ≠ "" then [references] else []) ++ (if msgid ≠ "" then [msgid] else [])
  let m := if newrefs.length > 0 then m.SetGenHeader referencesHeader [" ".intercalate newrefs]
    else m
  let m := m.SetGenHeader autoSubmittedHeader [autoSubmittedHeaderAutoReplied]
  m.SetGenHeader xAutoResponseSuppressHeader [xAutoResponseSuppressHeaderAllValue]

/-- Go `(*backend).GenerateReply`: the pair `(m, err)` it returns. -/
def GenerateReply {σ : Type} (b : backend σ) (env : Env)
    (originalEnvelopeSender originalEnvelopeRecipient : String) (msg : Message) :
    Option Msg × Option Error :=
  match NewMsg.From env.lib
      (extractAddress env.lib msg originalEnvelopeRecipient recipientAddressHeaders) with
  | (m, some err) => (some m, some err)
  | (m, none) =>
    match m.To env.lib [extractAddress env.lib msg originalEnvelopeSender ["From"]] with
    | (m, some err) => (some m, some err)
    | (m, none) =>
      let m := replySkeleton env msg m
      match b.replygenerator with
      | some g => g msg originalEnvelopeSender originalEnvelopeRecipient m
      | none =>
        (some (m.SetBodyString "text/plain" "Reader of mailbox is out-of-office / on vacation"),
          none)

/-- Go `(*backend).handleMailSingle`. -/
def handleMailSingle {σ : Type} (b : backend σ) (env : Env) (msg : Message)
    (sender recipient : String) (w : World σ) : Option Error × World σ :=
  if !isMessageAddressedTo env.lib msg recipient then
    (none, w.emit (.printf ("Not generating reply for message <" ++ sender ++ "> -> <" ++
      recipient ++ ">: not addressed to us")))
  else
    let res := b.ratelimiter.Ratelimit w.rl recipient sender
    let w : World σ := { rl := res.2, log := w.log ++ [.ratelimit recipient sender res.1] }
    if !res.1 then
      (none, w.emit (.printf ("Not generating reply for message <" ++ sender ++ "> -> <" ++
        recipient ++ ">: rate-limited")))
    else
      let w := w.emit (.generate sender recipient)
      match GenerateReply b env sender recipient msg with
      | (_, some err) => (some err, w)
      | (none, none) =>
        (none, w.emit (.printf ("Not sending reply for message <" ++ sender ++ "> -> <" ++
          recipient ++ ">: empty response from replygenerator")))
      | (some reply, none) =>
        let w := w.emit (.printf ("Sending reply for message <" ++ sender ++ "> -> <" ++
          recipient ++ ">"))
        match env.newClient with
        | some err => (some err, w)
        | none => (env.dialAndSend reply, w.emit (.send reply))

/-- The loop `for rcpt, rcptreal := range recipient` of `handleMail`, over the
entries in the order `range` yields them. -/
def handleMailLoop {σ : Type} (b : backend σ) (env : Env) (msg : Message) (sender : String) :
    List (String × String) → World σ → World σ
  | [], w => w
  | (rcpt, rcptreal) :: rest, w =>
    let res := handleMailSingle b env msg sender rcptreal w
    handleMailLoop b env msg sender rest (res.2.emit (.status rcpt res.1))

/-- Go `(*backend).handleMail`. -/
def handleMail {σ : Type} (b : backend σ) (env : Env) (msg : Message) (sender : String)
    (recipient : List (String × String)) (w : World σ) : Option Error × World σ :=
  if isAutoSubmitted msg then (none, w)
  else if !isPermittedSender sender then (none, w)
  else if !isResponseAppropriate msg then (none, w)
  else (none, handleMailLoop b env msg sender (env.rangeOrder recipient) w)

/-! ## pkg/backend/session.go -/

/-- Go `fromRe`, `^[^@]+@[^@]+$`. -/
def fromRe : Regexp :=
  .cat .bol (.cat (.plus (.notChar '@')) (.cat (.lit '@') (.cat (.plus (.notChar '@')) .eol)))

/-- Go `rcptRe`, `^([^#]+)#([^@]+)@([^@]+)$`. -/
def rcptRe : Regexp :=
  .cat .bol (.cat (.group 1 (.plus (.notChar '#'))) (.cat (.lit '#')
    (.cat (.group 2 (.plus (.notChar '@'))) (.cat (.lit '@')
      (.cat (.group 3 (.plus (.notChar '@'))) .eol)))))

/-- Go `type session struct`; the backend it points to is passed to the methods,
the connection `c` is not used. -/
structure session where
  frm : String
  rcptreal : List (String × String)
  msg : Option Message
deriving DecidableEq

/-- The session `NewSession` creates. -/
def NewSession : session := { frm := "", rcptreal := [], msg := none }

/-- Go `(*session).Reset`, whose body is empty. -/
def session.Reset (s : session) : session := s

/-- Go `(*session).Mail`: the session afterwards and the error returned. -/
def session.Mail (s : session) (frm : String) : session × Option Error :=
  if frm ≠ "" ∧ !fromRe.MatchString frm then (s, some .errInvalidFrom)
  else ({ s with frm := frm }, none)

/-- Go `(*session).Rcpt`: the session afterwards and the error returned. -/
def session.Rcpt {σ : Type} (s : session) (b : backend σ) (to_ : String) :
    session × Option Error :=
  match rcptRe.FindStringSubmatch 3 to_ with
  | some [_, m1, m2, m3] =>
    if m3 ≠ b.domain then (s, some .errInvalidRcptDomain)
    else ({ s with rcptreal := assocSet s.rcptreal to_ (m1 ++ "@" ++ m2) }, none)
  | _ => (s, some .errInvalidRcpt)

/-- What `LMTPData` reads from the connection: the outcome of `mail.ReadMessage`
and of discarding the body. -/
structure Reader where
  ReadMessage : Except Error Message
  discardBody : Option Error

/-- Go `(*session).LMTPData`. -/
def session.LMTPData {σ : Type} (s : session) (b : backend σ) (env : Env) (r : Reader)
    (w : World σ) : session × Option Error × World σ :=
  match r.ReadMessage with
  | .error err => ({ s with msg := none }, some err, w)
  | .ok msg =>
    let s := { s with msg := some msg }
    match r.discardBody with
    | some err => (s, some err, w)
    | none =>
      let res := handleMail b env msg s.frm s.rcptreal w
      (s, res.1, res.2)

/-! ## Concrete surroundings used in examples -/

/-- A mail library that reads a header value as one bare address. -/
def demoLib : MailLib :=
  { ParseAddressList := fun v => some [{ Name := "", Address := v }],
    ParseAddress := fun v => some { Name := "", Address := v },
    addressString := fun a => a.Address }

/-- Surroundings in which delivery succeeds and `range` yields the entries in
the order of insertion. -/
def demoEnv : Env :=
  { lib := demoLib,
    date := "Wed, 04 Nov 2026 12:00:00 +0000",
    messageID := "<1@autoreply.example>",
    newClient := none,
    dialAndSend := fun _ => none,
    rangeOrder := fun m => m }

/-- A rate limiter that permits everything and has no state. -/
def demoLimiter : RateLimiter Unit := { Ratelimit := fun _ _ _ => (true, ()) }

/-- A backend for the domain `autoreply.example` without a reply generator. -/
def demoBackend : backend Unit :=
  { domain := "autoreply.example",
    server := "localhost",
    port := 25,
    ratelimiter := demoLimiter,
    replygenerator := none }

/-- A backend for the domain `autoreply.example` with the given reply generator. -/
def demoBackendWith (g : ReplyGenerator) : backend Unit :=
  { demoBackend with replygenerator := some g }

/-- A session with the sender `alice@x.com` and the accepted recipient
`bob#y.com@autoreply.example`. -/
def demoSession : session :=
  { frm := "alice@x.com",
    rcptreal := [("bob#y.com@autoreply.example", "bob@y.com")],
    msg := none }

/-- A message addressed to `bob@y.com`, with a subject and a message id. -/
def demoMessage : Message :=
  { Header := { fields := [("To", ["bob@y.com"]), ("From", ["alice@x.com"]),
                           ("Subject", ["hello"]), ("Message-Id", ["<m1@x.com>"])] } }

/-- The reply `GenerateReply` builds for `demoMessage`, sent by `alice@x.com` to
`bob@y.com`, when no generator is configured. -/
def demoReply : Msg :=
  { genHeader := [("Date", ["Wed, 04 Nov 2026 12:00:00 +0000"]),
                  ("Subject", ["Auto: hello"]),
                  ("Message-ID", ["<1@autoreply.example>"]),
                  ("In-Reply-To", ["<m1@x.com>"]),
                  ("References", ["<m1@x.com>"]),
                  ("Auto-Submitted", ["auto-replied"]),
                  ("X-Auto-Response-Suppress", ["All"])],
    addrHeader := [("From", [{ Name := "", Address := "bob@y.com" }]),
                   ("To", [{ Name := "", Address := "alice@x.com" }])],
    parts := [("text/plain", "Reader of mailbox is out-of-office / on vacation")] }

/-- The reply for the same message when the postfixadmin generator finds the
vacation record with subject `Away` and body `I am away`. -/
def demoVacationReply : Msg :=
  { demoReply with
    genHeader := [("Date", ["Wed, 04 Nov 2026 12:00:00 +0000"]),
                  ("Subject", ["Away"]),
                  ("Message-ID", ["<1@autoreply.example>"]),
                  ("In-Reply-To", ["<m1@x.com>"]),
                  ("References", ["<m1@x.com>"]),
                  ("Auto-Submitted", ["auto-replied"]),
                  ("X-Auto-Response-Suppress", ["All"])],
    parts := [("text/plain", "I am away")] }

/-! ## Further definitions: keys, the owner loop as a machine, the recipient loop -/

/-- The string `mapKey` digests: `fmt.Sprintf("%s@@%s", from, to)`. -/
def keyString (frm tgt : String) : String := frm ++ "@@" ++ tgt

/-- The spec's "prior References header if present, else prior In-Reply-To
header": the value `P` of the threading rule. -/
def specPriorReferences (msg : Message) : String :=
  if msg.Header.Get "References" ≠ "" then msg.Header.Get "References"
  else msg.Header.Get "In-Reply-To"

/-- The spec's In-Reply-To of the reply: the Message-ID of the original, if it
has one. -/
def specInReplyTo (msg : Message) : Option String :=
  if msg.Header.Get "Message-ID" ≠ "" then some (msg.Header.Get "Message-ID") else none

/-- The spec's References of the reply: the non-empty items of `[P, M]` joined by
a space, and no header when both are empty. -/
def specReferences (msg : Message) : Option String :=
  if specPriorReferences msg = "" ∧ msg.Header.Get "Message-ID" = "" then none
  else some (" ".intercalate
    ([specPriorReferences msg, msg.Header.Get "Message-ID"].filter (fun v => v ≠ "")))

/-- The statuses reported in a log, in the order they were set. -/
def statusesOf : List Effect → List (String × Option Error)
  | [] => []
  | .status rcpt err :: es => (rcpt, err) :: statusesOf es
  | .ratelimit _ _ _ :: es => statusesOf es
  | .generate _ _ :: es => statusesOf es
  | .send _ :: es => statusesOf es
  | .printf _ :: es => statusesOf es

/-- Processing the entries one after the other, each as `handleMailSingle` does
for the real address followed by the status of the tag: the effects, starting
with the rate limiter in the state `rl`. -/
def loopTrace {σ : Type} (b : backend σ) (env : Env) (msg : Message) (sender : String) :
    List (String × String) → σ → List Effect
  | [], _ => []
  | (rcpt, rcptreal) :: rest, rl =>
    let res := handleMailSingle b env msg sender rcptreal { rl := rl, log := [] }
    res.2.log ++ [.status rcpt res.1] ++ loopTrace b env msg sender rest res.2.rl

/-- The outcome of `handleMailSingle` for each entry in turn, with the tag of the
entry, starting with the rate limiter in the state `rl`. -/
def loopOutcomes {σ : Type} (b : backend σ) (env : Env) (msg : Message) (sender : String) :
    List (String × String) → σ → List (String × Option Error)
  | [], _ => []
  | (rcpt, rcptreal) :: rest, rl =>
    let res := handleMailSingle b env msg sender rcptreal { rl := rl, log := [] }
    (rcpt, res.1) :: loopOutcomes b env msg sender rest res.2.rl

/-- The state of the limiter of `pkg/ratelimiter` as the backend sees it in a
sequential execution: the state of the owner loop and the clock. -/
structure SeqState where
  run : RunState
  now : Int
deriving DecidableEq

/-- The limiter of `pkg/ratelimiter` behind the interface `RateLimiter`, in a
sequential execution only: `Ratelimit` is one step of the sequential system at
the current clock value, that is, the owner has run `add` for the key handed
off before the state is looked at again.  In the program `Ratelimit` returns
before the owner can take the lock, so the key is tracked only some time after
the call; the interleaving model (`cstep`) has the two apart.  The step
succeeds in every state that satisfies the invariant of the owner loop; the
last case stands for a crash of the owner. -/
def seqLimiter (sum256 : String → String) : RateLimiter SeqState :=
  { Ratelimit := fun st frm tgt =>
      match seqStep sum256 st.run (.ratelimit frm tgt st.now) with
      | .ok (s1, some permitted) => (permitted, { st with run := s1 })
      | _ => (false, st) }


/-- Surroundings like `demoEnv` in which `range` yields the entries of a map in
the reverse of the order of insertion. -/
def demoEnvReversed : Env := { demoEnv with rangeOrder := List.reverse }

/-- Surroundings like `demoEnv` in which sending the reply of `bob@y.com` fails. -/
def demoEnvFailing : Env :=
  { demoEnv with
    dialAndSend := fun m =>
      if m.addrHeader.lookup "From" = some [{ Name := "", Address := "bob@y.com" }] then
        some (.other "connection refused")
      else none }

/-- A message addressed to `bob@y.com` and, in copy, to `carol@z.org`. -/
def demoMessageTwo : Message :=
  { Header := { fields := [("To", ["bob@y.com"]), ("Cc", ["carol@z.org"]),
                           ("From", ["alice@x.com"]), ("Subject", ["hello"]),
                           ("Message-Id", ["<m1@x.com>"])] } }

/-- The recipient map of a session that accepted `bob#y.com@autoreply.example`
and then `carol#z.org@autoreply.example`. -/
def demoRecipients : List (String × String) :=
  [("bob#y.com@autoreply.example", "bob@y.com"),
   ("carol#z.org@autoreply.example", "carol@z.org")]

/-- A backend for the domain `autoreply.example` with the limiter of
`pkg/ratelimiter` (digest left as the identity) and the postfixadmin generator
over a database without vacation records. -/
def demoSeqBackend : backend SeqState :=
  { domain := "autoreply.example",
    server := "localhost",
    port := 25,
    ratelimiter := seqLimiter (fun x => x),
    replygenerator := some (postfixadminvacation.GenerateReplyBody (fun _ => .errNoRows)) }

/-- The owner loop with window 86400 after it registered `bob@y.com@@alice@x.com`
at time 0 and `carol@z.org@@dave@w.net` at time 5. -/
def demoRunLater : RunState :=
  { r := { d := 86400,
           track := ["carol@z.org@@dave@w.net", "bob@y.com@@alice@x.com"],
           heap := [⟨86400, "bob@y.com@@alice@x.com", some 1⟩,
                    ⟨86405, "carol@z.org@@dave@w.net", none⟩],
           expirehead := some 0,
           expiretail := some 1 },
    tm := some 86400 }

/-- The chain of `next` pointers from `p` reaches nil within `fuel` elements,
through allocated elements only: the list is a proper nil-terminated list. -/
def chainEnds (heap : List expireelem) : Nat → Option Nat → Bool
  | _, none => true
  | 0, some _ => false
  | fuel + 1, some p =>
    match heap[p]? with
    | none => false
    | some e => chainEnds heap fuel e.next

/-- A limiter whose queue `a`, `b` (expiring at 10 and 20) lies in the arena in
the reverse of the queue order, with the timer armed for the head. -/
def demoRunArmed : RunState :=
  { r := { d := 10,
           track := ["a", "b"],
           heap := [⟨20, "b", none⟩, ⟨10, "a", some 0⟩],
           expirehead := some 1,
           expiretail := some 0 },
    tm := some 10 }

/-- The part of the invariant `Good` that does not speak of the clock: the shape
of the arena, and the throttle set as the set of the queued keys, each queued
once. -/
structure Shape (r : ratelimiter) : Prop where
  rep : Rep r
  track_iff : ∀ k, k ∈ r.track ↔ k ∈ (r.heap.drop (live r)).map expireelem.key
  nodup : ((r.heap.drop (live r)).map expireelem.key).Nodup

/-- The invariant of the owner loop that does not speak of the clock. -/
structure RunShape (s : RunState) : Prop where
  shape : Shape s.r
  timer : s.tm = none ↔ s.r.expirehead = none

/-- The iterations of the loop of `Run` for a sequence of events, stopping at the
first that does not end normally. -/
def runEvents : RunState → List Event → Result RunState
  | s, [] => .ok s
  | s, ev :: evs =>
    match Run.step s ev with
    | .ok s1 => runEvents s1 evs
    | x => x

/-! ## `Ratelimit` and `Run` as goroutines that interleave

The mutex `lock` and the unbuffered channel `inch`, which the sequential model
leaves out, are what this part is about.  Every goroutine is a program counter;
a move of the scheduler lets one goroutine execute its next statement, or lets
a send on `inch` meet the receive of a `select`. -/

/-- A goroutine: the one running `Run`, or a caller of `Ratelimit` by number. -/
inductive Tid where
  | owner
  | caller (i : Nat)
deriving DecidableEq

/-- Where a goroutine running `Ratelimit` stands, after `key := mapKey(from, to)`. -/
inductive CallerPc where
  /-- At `r.lock.Lock()`. -/
  | wantLock (key : String)
  /-- Holding the lock, at `if r.track[key]`. -/
  | check (key : String)
  /-- Holding the lock, at `r.inch <- key`. -/
  | sending (key : String)
  /-- Holding the lock, at the deferred `r.lock.Unlock()` of `return ret`. -/
  | unlock (ret : Bool)
  /-- Returned `ret`. -/
  | done (ret : Bool)
deriving DecidableEq

/-- Where the goroutine running `Run` stands. -/
inductive OwnerPc where
  /-- In the `select` (the first when `tm` is nil, the second otherwise). -/
  | select
  /-- Received `key`; in `add` at `r.lock.Lock()`. -/
  | addWantLock (key : String)
  /-- In `add`, holding the lock. -/
  | addBody (key : String)
  /-- At the test of the expiry loop, with `n` read from the clock. -/
  | loopTest (n : Int)
  /-- In `pop` at `r.lock.Lock()`, after unlinking the head with key `key`. -/
  | popWantLock (n : Int) (key : String)
  /-- In `pop`, holding the lock, at `delete(r.track, e.key)`. -/
  | popBody (n : Int) (key : String)
  /-- Stopped by a nil dereference. -/
  | crashed
deriving DecidableEq

/-- The state of the program: the limiter, the local `tm` of `Run`, the holder
of `r.lock`, and the program counters. -/
structure CState where
  r : ratelimiter
  tm : Option Int
  lock : Option Tid
  owner : OwnerPc
  callers : List CallerPc
deriving DecidableEq

/-- A move of the scheduler. -/
inductive Move where
  /-- Caller `i` executes its next statement. -/
  | caller (i : Nat)
  /-- The send of caller `i` on `inch` meets the receive of the owner. -/
  | hand (i : Nat)
  /-- The timer channel delivers; the owner reads the clock as `n`. -/
  | fire (n : Int)
  /-- The owner executes its next statement; `time.Now()`, if read, is `now`. -/
  | owner (now : Int)
deriving DecidableEq

/-- The first part of Go `pop`, before the lock is taken: `e := r.expirehead`,
`r.expirehead = e.next`, and `r.expiretail = nil` when the head became nil.
Returns the key of `e` as well. -/
def popUnlink (r : ratelimiter) : Result (ratelimiter × String) :=
  match r.expirehead with
  | none => .nilDeref
  | some h =>
    match r.heap[h]? with
    | none => .nilDeref
    | some e =>
      .ok ({ r with expirehead := e.next,
                    expiretail := if e.next = none then none else r.expiretail }, e.key)

/-- The second part of Go `pop`, under the lock: `delete(r.track, e.key)`. -/
def popDelete (r : ratelimiter) (key : String) : ratelimiter :=
  { r with track := trackDelete r.track key }

/-- One move; `none` when the move is not possible in the state (the goroutine
is blocked, has returned, or does not exist). -/
def cstep (st : CState) : Move → Option CState
  | .caller i =>
    match st.callers[i]? with
    | some (.wantLock key) =>
      if st.lock = none then
        some { st with lock := some (.caller i), callers := st.callers.set i (.check key) }
      else none
    | some (.check key) =>
      let pc : CallerPc := if key ∈ st.r.track then .unlock false else .sending key
      some { st with callers := st.callers.set i pc }
    | some (.unlock ret) =>
      some { st with lock := none, callers := st.callers.set i (.done ret) }
    | some (.sending _) => none
    | some (.done _) => none
    | none => none
  | .hand i =>
    match st.callers[i]?, st.owner with
    | some (.sending key), .select =>
      some { st with owner := .addWantLock key, callers := st.callers.set i (.unlock true) }
    | _, _ => none
  | .fire n =>
    match st.owner, st.tm with
    | .select, some t => if t ≤ n then some { st with owner := .loopTest n } else none
    | _, _ => none
  | .owner now =>
    match st.owner with
    | .select => none
    | .addWantLock key =>
      if st.lock = none then some { st with lock := some .owner, owner := .addBody key }
      else none
    | .addBody key =>
      let r := add st.r key now
      match st.tm with
      | none =>
        match armTimer r with
        | .ok tm => some { st with r := r, lock := none, tm := tm, owner := .select }
        | _ => some { st with r := r, lock := none, owner := .crashed }
      | some _ => some { st with r := r, lock := none, owner := .select }
    | .loopTest n =>
      match st.r.expirehead with
      | none => some { st with tm := none, owner := .select }
      | some h =>
        match st.r.heap[h]? with
        | none => some { st with owner := .crashed }
        | some e =>
          if e.when < n then
            match popUnlink st.r with
            | .ok (r, key) => some { st with r := r, owner := .popWantLock n key }
            | _ => some { st with owner := .crashed }
          else some { st with tm := some e.when, owner := .select }
    | .popWantLock n key =>
      if st.lock = none then some { st with lock := some .owner, owner := .popBody n key }
      else none
    | .popBody n key =>
      some { st with r := popDelete st.r key, lock := none, owner := .loopTest n }
    | .crashed => none

/-- A schedule: the moves in order; `none` when one of them is not possible. -/
def crun : CState → List Move → Option CState
  | st, [] => some st
  | st, m :: ms =>
    match cstep st m with
    | some st1 => crun st1 ms
    | none => none

/-- The program after `New(d)`, with `Run` started and one goroutine in
`Ratelimit` for each of the pairs `(from, to)`. -/
def cinit (sum256 : String → String) (d : Int) (calls : List (String × String)) : CState :=
  { r := New d,
    tm := none,
    lock := none,
    owner := .select,
    callers := calls.map (fun p => .wantLock (mapKey sum256 p.1 p.2)) }

/-! ## Lemmas on the arena -/

theorem setNext_length (heap : List expireelem) (p : Nat) (x : Option Nat) :
    (setNext heap p x).length = heap.length := by
  induction heap generalizing p with
  | nil => rfl
  | cons a as ih => cases p <;> simp [setNext, ih]

theorem setNext_map_key (heap : List expireelem) (p : Nat) (x : Option Nat) :
    (setNext heap p x).map expireelem.key = heap.map expireelem.key := by
  induction heap generalizing p with
  | nil => rfl
  | cons a as ih => cases p <;> simp [setNext, ih]

theorem setNext_map_when (heap : List expireelem) (p : Nat) (x : Option Nat) :
    (setNext heap p x).map expireelem.when = heap.map expireelem.when := by
  induction heap generalizing p with
  | nil => rfl
  | cons a as ih => cases p <;> simp [setNext, ih]

theorem setNext_getElem? (heap : List expireelem) (p : Nat) (x : Option Nat) (i : Nat) :
    (setNext heap p x)[i]? =
      if i = p then (heap[i]?).map (fun e => { e with next := x }) else heap[i]? := by
  induction heap generalizing p i with
  | nil => simp [setNext]
  | cons a as ih =>
    cases p with
    | zero => cases i <;> simp [setNext]
    | succ p => cases i <;> simp [setNext, ih]

theorem walk_none (heap : List expireelem) (fuel : Nat) : walk heap fuel none = [] := by
  cases fuel <;> rfl

theorem walk_drop (heap : List expireelem) :
    ∀ (fuel i : Nat), heap.length - i ≤ fuel → i ≤ heap.length →
      (∀ j e, i ≤ j → heap[j]? = some e →
        e.next = if j + 1 < heap.length then some (j + 1) else none) →
      walk heap fuel (if i < heap.length then some i else none) = (heap.drop i).enumFrom i := by
  intro fuel
  induction fuel with
  | zero =>
    intro i hf hi _
    have : i = heap.length := by omega
    subst this
    simp [walk]
  | succ fuel ih =>
    intro i hf hi hl
    by_cases hlt : i < heap.length
    · have hget : heap[i]? = some heap[i] := List.getElem?_eq_getElem hlt
      have hnext := hl i heap[i] (Nat.le_refl i) hget
      rw [if_pos hlt, List.drop_eq_getElem_cons hlt, List.enumFrom_cons]
      simp only [walk, hget, hnext]
      rw [ih (i + 1) (by omega) (by omega) (fun j e hj => hl j e (by omega))]
    · have : i = heap.length := by omega
      subst this
      simp [walk]

theorem walk_of_rep (r : ratelimiter) (h : Rep r) :
    walk r.heap r.heap.length r.expirehead = (r.heap.drop (live r)).enumFrom (live r) := by
  cases hh : r.expirehead with
  | none => simp [live, hh, walk_none]
  | some p =>
    have hp := h.head_lt p hh
    have hl := h.link
    simp only [live, hh] at hl ⊢
    have := walk_drop r.heap r.heap.length p (by omega) (by omega) hl
    rwa [if_pos hp] at this

theorem queue_of_rep (r : ratelimiter) (h : Rep r) : queue r = r.heap.drop (live r) := by
  simp [queue, walk_of_rep r h, List.enumFrom_map_snd]

theorem queuePtrs_of_rep (r : ratelimiter) (h : Rep r) :
    queuePtrs r = List.range' (live r) (r.heap.length - live r) := by
  simp [queuePtrs, walk_of_rep r h, List.enumFrom_map_fst]

/-! ## The invariant is inductive -/

theorem add_d (r : ratelimiter) (key : String) (now : Int) : (add r key now).d = r.d := by
  unfold add
  split
  · rfl
  · cases r.expiretail <;> rfl

theorem Good.mono {r : ratelimiter} {c c1 : Int} (h : Good r c) (hc : c ≤ c1) : Good r c1 :=
  { h with bound := fun w hw => by have := h.bound w hw; omega }

theorem add_tracked (r : ratelimiter) (key : String) (now : Int) (h : key ∈ r.track) :
    add r key now = r := by
  simp [add, h]

theorem good_add (r : ratelimiter) (c : Int) (key : String) (now : Int)
    (h : Good r c) (hc : c ≤ now) : Good (add r key now) now := by
  by_cases hk : key ∈ r.track
  · rw [add_tracked r key now hk]; exact h.mono hc
  · have hkq : key ∉ (r.heap.drop (live r)).map expireelem.key :=
      fun hm => hk ((h.track_iff key).2 hm)
    cases ht : r.expiretail with
    | none =>
      have hh : r.expirehead = none := by
        cases hh : r.expirehead with
        | none => rfl
        | some p => have := h.rep.tail_some p hh; simp [ht] at this
      have hlive : live r = r.heap.length := by simp [live, hh]
      have htr : ∀ k, k ∉ r.track := by
        intro k hkt
        have := (h.track_iff k).1 hkt
        simp [hlive] at this
      have hadd : add r key now =
          { r with track := trackSet r.track key,
                   heap := r.heap ++ [{ when := now + r.d, key := key, next := none }],
                   expirehead := some r.heap.length,
                   expiretail := some r.heap.length } := by
        simp [add, hk, ht]
      rw [hadd]
      refine ⟨⟨?_, ?_, ?_, ?_⟩, ?_, ?_, ?_, ?_⟩
      · intro p hp; simp at hp; simp; omega
      · intro hp; simp at hp
      · intro p _; simp
      · intro i e hi hget
        simp only [live] at hi
        simp only [List.length_append, List.length_singleton] at hget ⊢
        rw [List.getElem?_append_right hi] at hget
        have hi0 : i - r.heap.length = 0 := by
          by_contra hne
          rw [List.getElem?_eq_none (by simp; omega)] at hget
          simp at hget
        rw [hi0] at hget
        simp at hget
        subst hget
        have : ¬ (i + 1 < r.heap.length + 1) := by omega
        simp [this]
      · intro k
        simp [live, trackSet, hk, htr k]
      · simp [live]
      · simp [live]
      · simp [live]
    | some t =>
      obtain ⟨p, hh⟩ : ∃ p, r.expirehead = some p := by
        cases hh : r.expirehead with
        | none => have := h.rep.tail_none hh; simp [ht] at this
        | some p => exact ⟨p, rfl⟩
      have hp := h.rep.head_lt p hh
      have ht1 : t = r.heap.length - 1 := by
        have := h.rep.tail_some p hh; rw [ht] at this; exact Option.some.inj this
      have hlive : live r = p := by simp [live, hh]
      rw [hlive] at hkq
      have hadd : add r key now =
          { r with track := trackSet r.track key,
                   heap := setNext r.heap t (some r.heap.length) ++
                     [{ when := now + r.d, key := key, next := none }],
                   expiretail := some r.heap.length } := by
        simp [add, hk, ht]
      have hdropk : ∀ x, ((setNext r.heap t x ++
            [(⟨now + r.d, key, none⟩ : expireelem)]).drop p).map expireelem.key =
          (r.heap.drop p).map expireelem.key ++ [key] := by
        intro x
        rw [List.drop_append_of_le_length (by rw [setNext_length]; omega)]
        simp only [List.map_append, List.map_drop, setNext_map_key, List.drop_nil,
          List.drop_zero, List.map_cons, List.map_nil]
      have hdropw : ∀ x, ((setNext r.heap t x ++
            [(⟨now + r.d, key, none⟩ : expireelem)]).drop p).map expireelem.when =
          (r.heap.drop p).map expireelem.when ++ [now + r.d] := by
        intro x
        rw [List.drop_append_of_le_length (by rw [setNext_length]; omega)]
        simp only [List.map_append, List.map_drop, setNext_map_when, List.map_cons,
          List.map_nil]
      have hb := h.bound
      have hs := h.sorted
      have hn := h.nodup
      have hti := h.track_iff
      rw [hlive] at hb hs hn hti
      rw [hadd]
      refine ⟨⟨?_, ?_, ?_, ?_⟩, ?_, ?_, ?_, ?_⟩
      · intro q hq
        simp only [hh] at hq
        simp only [List.length_append, setNext_length, List.length_singleton]
        have := Option.some.inj hq; omega
      · intro hq; simp [hh] at hq
      · intro q _; simp [setNext_length]
      · intro i e hi hget
        simp only [live, hh] at hi
        simp only [List.length_append, setNext_length, List.length_singleton] at hget ⊢
        by_cases hil : i < r.heap.length
        · rw [List.getElem?_append_left (by rw [setNext_length]; exact hil),
            setNext_getElem?] at hget
          by_cases hit : i = t
          · rw [if_pos hit] at hget
            rw [List.getElem?_eq_getElem hil] at hget
            simp at hget
            subst hget
            have : i + 1 < r.heap.length + 1 := by omega
            simp [this]; omega
          · rw [if_neg hit] at hget
            have := h.rep.link i e (by rw [hlive]; exact hi) hget
            have h1 : i + 1 < r.heap.length := by omega
            have h2 : i + 1 < r.heap.length + 1 := by omega
            rw [this, if_pos h1, if_pos h2]
        · rw [List.getElem?_append_right (by rw [setNext_length]; omega), setNext_length] at hget
          have hi0 : i - r.heap.length = 0 := by
            by_contra hne
            rw [List.getElem?_eq_none (by simp; omega)] at hget
            simp at hget
          rw [hi0] at hget
          simp at hget
          subst hget
          have : ¬ (i + 1 < r.heap.length + 1) := by omega
          simp [this]
      · intro k
        simp only [live, hh, hdropk, trackSet, if_neg hk, List.mem_cons, List.mem_append,
          List.mem_singleton]
        rw [hti k]
        simp only [List.mem_nil_iff, or_false]
        constructor
        · rintro (rfl | hkt)
          · exact Or.inr rfl
          · exact Or.inl hkt
        · rintro (hkt | rfl)
          · exact Or.inr hkt
          · exact Or.inl rfl
      · simp only [live, hh, hdropk]
        rw [List.nodup_append]
        refine ⟨hn, by simp, ?_⟩
        intro a ha hb1
        simp at hb1
        subst hb1
        exact hkq ha
      · simp only [live, hh, hdropw]
        rw [List.pairwise_append]
        refine ⟨hs, by simp, ?_⟩
        intro a ha b hb1
        simp at hb1
        subst hb1
        have := hb a ha
        omega
      · intro w hw
        simp only [live, hh, hdropw, List.mem_append, List.mem_singleton] at hw
        show w ≤ now + r.d
        rcases hw with hw | rfl
        · have := hb w hw; omega
        · omega

theorem mem_trackDelete (track : List String) (key k : String) :
    k ∈ trackDelete track key ↔ k ∈ track ∧ k ≠ key := by
  simp [trackDelete]

theorem pop_of_head (r : ratelimiter) (h : Rep r) (p : Nat) (hh : r.expirehead = some p) :
    ∃ e, r.heap[p]? = some e ∧ r.heap.drop p = e :: r.heap.drop (p + 1) ∧
      pop r = .ok { r with
        expirehead := if p + 1 < r.heap.length then some (p + 1) else none,
        expiretail := if p + 1 < r.heap.length then r.expiretail else none,
        track := trackDelete r.track e.key } := by
  have hp := h.head_lt p hh
  have hget : r.heap[p]? = some r.heap[p] := List.getElem?_eq_getElem hp
  have hnext := h.link p r.heap[p] (by simp [live, hh]) hget
  refine ⟨r.heap[p], hget, List.drop_eq_getElem_cons hp, ?_⟩
  simp only [pop, hh, hget, hnext]
  by_cases hlt : p + 1 < r.heap.length <;> simp [hlt]

theorem good_pop (r r1 : ratelimiter) (c : Int) (h : Good r c) (hpop : pop r = .ok r1) :
    Good r1 c := by
  cases hh : r.expirehead with
  | none => simp [pop, hh] at hpop
  | some p =>
    obtain ⟨e, hget, hdrop, hpop1⟩ := pop_of_head r h.rep p hh
    have hp := h.rep.head_lt p hh
    rw [hpop1] at hpop
    have hr1 := Result.ok.inj hpop
    have hlive : live r = p := by simp [live, hh]
    have hb := h.bound
    have hs := h.sorted
    have hn := h.nodup
    have hti := h.track_iff
    rw [hlive, hdrop] at hb hs hn hti
    simp only [List.map_cons, List.nodup_cons, List.pairwise_cons, List.mem_cons] at hb hs hn hti
    have hlive1 : live r1 = p + 1 := by
      rw [← hr1]
      by_cases hlt : p + 1 < r.heap.length
      · simp [live, hlt]
      · simp [live, hlt]; omega
    have hheap : r1.heap = r.heap := by rw [← hr1]
    have hd : r1.d = r.d := by rw [← hr1]
    have htrack : r1.track = trackDelete r.track e.key := by rw [← hr1]
    refine ⟨⟨?_, ?_, ?_, ?_⟩, ?_, ?_, ?_, ?_⟩
    · intro q hq
      rw [← hr1] at hq ⊢
      by_cases hlt : p + 1 < r.heap.length
      · simp [hlt] at hq; simp; omega
      · simp [hlt] at hq
    · intro hq
      rw [← hr1] at hq ⊢
      by_cases hlt : p + 1 < r.heap.length
      · simp [hlt] at hq
      · simp [hlt]
    · intro q hq
      rw [← hr1] at hq ⊢
      by_cases hlt : p + 1 < r.heap.length
      · simp [hlt]; exact h.rep.tail_some p hh
      · simp [hlt] at hq
    · intro i x hi hx
      rw [hlive1] at hi
      rw [hheap] at hx ⊢
      exact h.rep.link i x (by rw [hlive]; omega) hx
    · intro k
      rw [hlive1, hheap, htrack, mem_trackDelete, hti k]
      constructor
      · rintro ⟨hk | hk, hne⟩
        · exact absurd hk hne
        · exact hk
      · intro hk
        refine ⟨Or.inr hk, ?_⟩
        rintro rfl
        exact hn.1 hk
    · rw [hlive1, hheap]; exact hn.2
    · rw [hlive1, hheap]; exact hs.2
    · intro w hw
      rw [hlive1, hheap] at hw
      rw [hd]
      exact hb w (Or.inr hw)

theorem good_New (d c : Int) : Good (New d) c := by
  refine ⟨⟨?_, ?_, ?_, ?_⟩, ?_, ?_, ?_, ?_⟩ <;> simp [New, live]

theorem good_execOps (ops : List Op) :
    ∀ (r r1 : ratelimiter) (c : Int), Good r c →
      (c :: clockReadings ops).Pairwise (fun a b => a ≤ b) →
      execOps r ops = .ok r1 → ∃ c1, Good r1 c1 := by
  induction ops with
  | nil =>
    intro r r1 c h _ he
    simp only [execOps] at he
    exact ⟨c, Result.ok.inj he ▸ h⟩
  | cons o os ih =>
    intro r r1 c h hc he
    cases o with
    | add key now =>
      simp only [execOps, Op.exec] at he
      simp only [clockReadings, List.pairwise_cons] at hc
      have hcn : c ≤ now := hc.1 now (List.mem_cons_self _ _)
      exact ih (add r key now) r1 now (good_add r c key now h hcn)
        (List.pairwise_cons.2 hc.2) he
    | pop =>
      simp only [execOps, Op.exec] at he
      cases hp : pop r with
      | ok r2 =>
        rw [hp] at he
        exact ih r2 r1 c (good_pop r r2 c h hp) hc he
      | nilDeref => rw [hp] at he; simp at he
      | outOfFuel => rw [hp] at he; simp at he
      | notEnabled => rw [hp] at he; simp at he

theorem queueInv_of_good (r : ratelimiter) (c : Int) (h : Good r c) : QueueInv r := by
  have hq := queue_of_rep r h.rep
  have hp := queuePtrs_of_rep r h.rep
  refine ⟨?_, ?_, ?_, ?_, ?_, ?_⟩
  · rw [hq]; exact h.track_iff
  · rw [hq]; exact h.nodup
  · rw [hq]; exact h.sorted
  · constructor
    · intro ht
      cases hh : r.expirehead with
      | none => rfl
      | some p => have := h.rep.tail_some p hh; rw [ht] at this; simp at this
    · exact h.rep.tail_none
  · rw [hp]
    cases hh : r.expirehead with
    | none => simp [live, hh]
    | some p =>
      have := h.rep.head_lt p hh
      simp only [live, hh]
      rw [List.head?_range']
      have : r.heap.length - p ≠ 0 := by omega
      simp [this]
  · rw [hp]
    cases hh : r.expirehead with
    | none => simp [live, hh, h.rep.tail_none hh]
    | some p =>
      have hlt := h.rep.head_lt p hh
      rw [h.rep.tail_some p hh]
      simp only [live, hh]
      rw [List.getLast?_range']
      have : r.heap.length - p ≠ 0 := by omega
      simp [this]
      omega

/-! ## Claims on the limiter state -/

/-- C9: re-registration is a no-op.  For every limiter state and every key already in the
throttle set, `add` returns the state unchanged (throttle set, arena, head and tail, hence the
expiry queue with its expirations), and a `Ratelimit` whose key is tracked returns false
without handing a key off, so the sequential system does not move. -/
theorem add_of_tracked_is_noop (sum256 : String → String) (s : RunState) (frm tgt : String)
    (now : Int) (h : mapKey sum256 frm tgt ∈ s.r.track) :
    add s.r (mapKey sum256 frm tgt) now = s.r ∧
    queue (add s.r (mapKey sum256 frm tgt) now) = queue s.r ∧
    Ratelimit sum256 s.r frm tgt = (false, none) ∧
    seqStep sum256 s (.ratelimit frm tgt now) = .ok (s, some false) := by
  have hadd := add_tracked s.r (mapKey sum256 frm tgt) now h
  refine ⟨hadd, by rw [hadd], ?_, ?_⟩
  · simp [Ratelimit, h]
  · simp [seqStep, Ratelimit, h]

/-- Witness for C9: the key registered by a first call is tracked; registering it again at a
later time changes nothing. -/
theorem add_of_tracked_is_noop_witness :
    mapKey (fun x => x) "bob@y.com" "alice@x.com" ∈
      (RunState.mk (add (New 10) "bob@y.com@@alice@x.com" 0) (some 10)).r.track ∧
    add (add (New 10) "bob@y.com@@alice@x.com" 0) "bob@y.com@@alice@x.com" 7 =
      add (New 10) "bob@y.com@@alice@x.com" 0 :=
  ⟨by decide,
   (add_of_tracked_is_noop (fun x => x) (RunState.mk (add (New 10) "bob@y.com@@alice@x.com" 0)
      (some 10)) "bob@y.com" "alice@x.com" 7 (by decide)).1⟩

/-- C10: starting from the limiter returned by `New`, with a clock that never goes backwards,
every state reached by a sequence of `add` and `pop` (a `pop` on an empty queue panics and
reaches no state) satisfies the invariant: the throttle set is the set of the queued keys,
no key is queued twice, expirations do not decrease from head to tail, `expiretail` is nil
exactly when `expirehead` is, and they point at the first and the last queue element. -/
theorem reachable_queueInv (d : Int) (ops : List Op) (r : ratelimiter)
    (hclock : (clockReadings ops).Pairwise (fun a b => a ≤ b))
    (hreach : execOps (New d) ops = .ok r) : QueueInv r := by
  have hex : ∃ c, (c :: clockReadings ops).Pairwise (fun a b => a ≤ b) := by
    cases hcr : clockReadings ops with
    | nil => exact ⟨0, by simp⟩
    | cons a as =>
      rw [hcr] at hclock
      refine ⟨a, List.pairwise_cons.2 ⟨?_, hclock⟩⟩
      intro b hb
      rcases List.mem_cons.1 hb with rfl | hb
      · exact le_refl _
      · exact (List.pairwise_cons.1 hclock).1 b hb
  obtain ⟨c, hc⟩ := hex
  obtain ⟨c1, hg⟩ := good_execOps ops (New d) r c (good_New d c) hc hreach
  exact queueInv_of_good r c1 hg

/-- Witness for C10: two keys are registered, the first is registered again, the head is
popped and a third key is registered. -/
theorem reachable_queueInv_witness :
    (clockReadings [.add "a" 0, .add "b" 1, .add "a" 2, .pop, .add "c" 5]).Pairwise
      (fun a b => a ≤ b) ∧
    execOps (New 10) [.add "a" 0, .add "b" 1, .add "a" 2, .pop, .add "c" 5] =
      .ok { d := 10, track := ["c", "b"],
            heap := [⟨10, "a", some 1⟩, ⟨11, "b", some 2⟩, ⟨15, "c", none⟩],
            expirehead := some 1, expiretail := some 2 } ∧
    QueueInv { d := 10, track := ["c", "b"],
               heap := [⟨10, "a", some 1⟩, ⟨11, "b", some 2⟩, ⟨15, "c", none⟩],
               expirehead := some 1, expiretail := some 2 } :=
  ⟨by decide, by decide,
   reachable_queueInv 10 [.add "a" 0, .add "b" 1, .add "a" 2, .pop, .add "c" 5] _
     (by decide) (by decide)⟩

/-! ## The sequential system -/

theorem entries_keys (r : ratelimiter) :
    (entries r).map Prod.fst = (r.heap.drop (live r)).map expireelem.key := by
  simp [entries, List.map_map, Function.comp_def]

theorem entries_whens (r : ratelimiter) :
    (entries r).map Prod.snd = (r.heap.drop (live r)).map expireelem.when := by
  simp [entries, List.map_map, Function.comp_def]

theorem setNext_map_entry (heap : List expireelem) (p : Nat) (x : Option Nat) :
    (setNext heap p x).map (fun e => (e.key, e.when)) = heap.map (fun e => (e.key, e.when)) := by
  induction heap generalizing p with
  | nil => rfl
  | cons a as ih => cases p <;> simp [setNext, ih]

theorem mem_track_iff {r : ratelimiter} {c : Int} (h : Good r c) (k : String) :
    k ∈ r.track ↔ ∃ w, (k, w) ∈ entries r := by
  rw [h.track_iff k, ← entries_keys]
  simp

theorem entries_add (r : ratelimiter) (c : Int) (key : String) (now : Int) (h : Good r c)
    (hk : key ∉ r.track) :
    entries (add r key now) = entries r ++ [(key, now + r.d)] ∧
      ∃ p, (add r key now).expirehead = some p := by
  cases ht : r.expiretail with
  | none =>
    have hh : r.expirehead = none := by
      cases hh : r.expirehead with
      | none => rfl
      | some p => have := h.rep.tail_some p hh; simp [ht] at this
    simp [entries, add, hk, ht, live, hh]
  | some t =>
    obtain ⟨p, hh⟩ : ∃ p, r.expirehead = some p := by
      cases hh : r.expirehead with
      | none => have := h.rep.tail_none hh; simp [ht] at this
      | some p => exact ⟨p, rfl⟩
    have hp := h.rep.head_lt p hh
    refine ⟨?_, p, by simp [add, hk, ht, hh]⟩
    simp only [entries, add, hk, ht, live, hh, if_false]
    rw [List.drop_append_of_le_length (by rw [setNext_length]; omega)]
    simp only [List.map_append, List.map_drop, setNext_map_entry, List.map_cons, List.map_nil]

theorem entries_pop (r r1 : ratelimiter) (c : Int) (h : Good r c) (hpop : pop r = .ok r1) :
    ∃ x, entries r = x :: entries r1 := by
  cases hh : r.expirehead with
  | none => simp [pop, hh] at hpop
  | some p =>
    obtain ⟨e, hget, hdrop, hpop1⟩ := pop_of_head r h.rep p hh
    rw [hpop1] at hpop
    have hr1 := Result.ok.inj hpop
    refine ⟨(e.key, e.when), ?_⟩
    have hlive : live r = p := by simp [live, hh]
    have hlive1 : live r1 = p + 1 := by
      have hp := h.rep.head_lt p hh
      rw [← hr1]
      by_cases hlt : p + 1 < r.heap.length
      · simp [live, hlt]
      · simp [live, hlt]; omega
    have hheap : r1.heap = r.heap := by rw [← hr1]
    simp only [entries, hlive, hlive1, hheap, hdrop, List.map_cons]

theorem entries_of_head_none (r : ratelimiter) (hh : r.expirehead = none) : entries r = [] := by
  simp [entries, live, hh]

theorem entries_head (r r1 : ratelimiter) (c : Int) (h : Good r c) (p : Nat) (e : expireelem)
    (hh : r.expirehead = some p) (hget : r.heap[p]? = some e) (hpop : pop r = .ok r1) :
    entries r = (e.key, e.when) :: entries r1 := by
  obtain ⟨e1, hget1, hdrop, hpop1⟩ := pop_of_head r h.rep p hh
  have he : e1 = e := by rw [hget] at hget1; exact (Option.some.inj hget1).symm
  subst he
  rw [hpop1] at hpop
  have hr1 := Result.ok.inj hpop
  have hp := h.rep.head_lt p hh
  have hlive : live r = p := by simp [live, hh]
  have hlive1 : live r1 = p + 1 := by
    rw [← hr1]
    by_cases hlt : p + 1 < r.heap.length
    · simp [live, hlt]
    · simp [live, hlt]; omega
  have hheap : r1.heap = r.heap := by rw [← hr1]
  simp only [entries, hlive, hlive1, hheap, hdrop, List.map_cons]

theorem pop_d_heap (r r1 : ratelimiter) (hpop : pop r = .ok r1) :
    r1.d = r.d ∧ r1.heap = r.heap := by
  unfold pop at hpop
  split at hpop
  · simp at hpop
  · split at hpop
    · simp at hpop
    · have := Result.ok.inj hpop
      rw [← this]
      exact ⟨rfl, rfl⟩

theorem expireLoop_spec (n : Int) :
    ∀ (fuel : Nat) (r : ratelimiter) (c : Int), Good r c → (entries r).length < fuel →
      ∃ r1, expireLoop n fuel r = .ok r1 ∧ Good r1 c ∧ r1.d = r.d ∧ r1.heap = r.heap ∧
        entries r1 = (entries r).dropWhile (fun x => decide (x.2 < n)) := by
  intro fuel
  induction fuel with
  | zero => intro r c _ hl; omega
  | succ fuel ih =>
    intro r c h hl
    cases hh : r.expirehead with
    | none =>
      refine ⟨r, by simp [expireLoop, hh], h, rfl, rfl, ?_⟩
      simp [entries_of_head_none r hh]
    | some p =>
      obtain ⟨e, hget, _, hpop1⟩ := pop_of_head r h.rep p hh
      by_cases hw : e.when < n
      · obtain ⟨r2, hpop⟩ : ∃ r2, pop r = .ok r2 := ⟨_, hpop1⟩
        have hent := entries_head r r2 c h p e hh hget hpop
        have hg2 := good_pop r r2 c h hpop
        have hdh := pop_d_heap r r2 hpop
        have hl2 : (entries r2).length < fuel := by
          rw [hent] at hl; simp at hl; omega
        obtain ⟨r1, hloop, hg1, hd1, hh1, he1⟩ := ih r2 c hg2 hl2
        refine ⟨r1, ?_, hg1, by rw [hd1, hdh.1], by rw [hh1, hdh.2], ?_⟩
        · simp only [expireLoop, hh, hget, hw, if_true, hpop]
          exact hloop
        · rw [he1, hent]
          simp [hw]
      · refine ⟨r, by simp [expireLoop, hh, hget, hw], h, rfl, rfl, ?_⟩
        obtain ⟨r2, hpop⟩ : ∃ r2, pop r = .ok r2 := ⟨_, hpop1⟩
        rw [entries_head r r2 c h p e hh hget hpop]
        simp [hw]

theorem entries_length_lt_fuel (r : ratelimiter) : (entries r).length < expireFuel r := by
  simp [entries, expireFuel]
  omega

theorem entries_eq_nil_iff {r : ratelimiter} {c : Int} (h : Good r c) :
    entries r = [] ↔ r.expirehead = none := by
  constructor
  · intro he
    cases hh : r.expirehead with
    | none => rfl
    | some p =>
      have hp := h.rep.head_lt p hh
      have : (entries r).length = r.heap.length - p := by simp [entries, live, hh]
      rw [he] at this
      simp at this
      omega
  · exact entries_of_head_none r

theorem armTimer_ok {r : ratelimiter} {c : Int} (h : Good r c) (p : Nat)
    (hh : r.expirehead = some p) : ∃ w, armTimer r = .ok (some w) := by
  have hp := h.rep.head_lt p hh
  exact ⟨r.heap[p].when, by simp [armTimer, hh, List.getElem?_eq_getElem hp]⟩

theorem mem_dropWhile_of_not {α : Type} (p : α → Bool) (x : α) :
    ∀ l : List α, x ∈ l → p x = false → x ∈ l.dropWhile p := by
  intro l
  induction l with
  | nil => intro h _; exact h
  | cons a as ih =>
    intro h hp
    rw [List.dropWhile_cons]
    by_cases ha : p a = true
    · rw [if_pos ha]
      rcases List.mem_cons.1 h with rfl | h
      · rw [hp] at ha; exact absurd ha (by simp)
      · exact ih h hp
    · rw [if_neg ha]; exact h

theorem mem_of_mem_dropWhile' {α : Type} (p : α → Bool) (x : α) :
    ∀ l : List α, x ∈ l.dropWhile p → x ∈ l := by
  intro l
  induction l with
  | nil => intro h; exact h
  | cons a as ih =>
    intro h
    rw [List.dropWhile_cons] at h
    by_cases ha : p a = true
    · rw [if_pos ha] at h; exact List.mem_cons_of_mem _ (ih h)
    · rw [if_neg ha] at h; exact h

theorem le_of_mem_dropWhile (n : Int) :
    ∀ l : List (String × Int), (l.map Prod.snd).Pairwise (fun a b => a ≤ b) →
      ∀ x ∈ l.dropWhile (fun x => decide (x.2 < n)), n ≤ x.2 := by
  intro l
  induction l with
  | nil => intro _ x hx; simp at hx
  | cons a as ih =>
    intro hs x hx
    simp only [List.map_cons, List.pairwise_cons] at hs
    rw [List.dropWhile_cons] at hx
    by_cases ha : a.2 < n
    · simp only [ha, decide_True, if_true] at hx
      exact ih hs.2 x hx
    · simp only [ha, decide_False] at hx
      rcases List.mem_cons.1 hx with rfl | hx
      · omega
      · have := hs.1 x.2 (List.mem_map_of_mem _ hx)
        omega

/-- What a step of the sequential system does to a state that satisfies the invariant. -/
theorem seqStep_cases (sum256 : String → String) (s s1 : RunState) (c : Int) (ev : Call)
    (o : Option Bool) (inv : RunInv s c) (hc : c ≤ ev.time)
    (hstep : seqStep sum256 s ev = .ok (s1, o)) :
    RunInv s1 ev.time ∧ s1.r.d = s.r.d ∧
      ((∃ k, ev.key sum256 = some k ∧ k ∈ s.r.track ∧ o = some false ∧ s1 = s) ∨
       (∃ k, ev.key sum256 = some k ∧ k ∉ s.r.track ∧ o = some true ∧
          entries s1.r = entries s.r ++ [(k, ev.time + s.r.d)]) ∨
       (ev.key sum256 = none ∧ o = none ∧
          entries s1.r = (entries s.r).dropWhile (fun x => decide (x.2 < ev.time)))) := by
  cases ev with
  | ratelimit frm tgt now =>
    simp only [Call.time] at hc ⊢
    by_cases hk : mapKey sum256 frm tgt ∈ s.r.track
    · simp only [seqStep, Ratelimit, hk, if_true] at hstep
      have := Result.ok.inj hstep
      simp only [Prod.mk.injEq] at this
      obtain ⟨rfl, rfl⟩ := this
      exact ⟨⟨inv.good.mono hc, inv.timer⟩, rfl, Or.inl ⟨_, rfl, hk, rfl, rfl⟩⟩
    · have hg := good_add s.r c (mapKey sum256 frm tgt) now inv.good hc
      obtain ⟨hent, p, hp⟩ := entries_add s.r c (mapKey sum256 frm tgt) now inv.good hk
      obtain ⟨w, hw⟩ := armTimer_ok hg p hp
      simp only [seqStep, Ratelimit, hk, if_false, Run.step] at hstep
      cases htm : s.tm with
      | none =>
        simp only [htm, hw] at hstep
        have := Result.ok.inj hstep
        simp only [Prod.mk.injEq] at this
        obtain ⟨rfl, rfl⟩ := this
        refine ⟨⟨hg, ?_⟩, add_d _ _ _, Or.inr (Or.inl ⟨_, rfl, hk, rfl, hent⟩)⟩
        simp [hp]
      | some tm =>
        simp only [htm] at hstep
        have := Result.ok.inj hstep
        simp only [Prod.mk.injEq] at this
        obtain ⟨rfl, rfl⟩ := this
        refine ⟨⟨hg, ?_⟩, add_d _ _ _, Or.inr (Or.inl ⟨_, rfl, hk, rfl, hent⟩)⟩
        simp [hp, htm]
  | tick n =>
    simp only [Call.time] at hc ⊢
    obtain ⟨r1, hloop, hg1, hd1, _, he1⟩ :=
      expireLoop_spec n (expireFuel s.r) s.r c inv.good (entries_length_lt_fuel s.r)
    simp only [seqStep, Run.step] at hstep
    cases htm : s.tm with
    | none => simp [htm] at hstep
    | some tm =>
      simp only [htm, hloop] at hstep
      cases hh : r1.expirehead with
      | none =>
        simp only [hh, ne_eq, not_true_eq_false, if_false] at hstep
        have := Result.ok.inj hstep
        simp only [Prod.mk.injEq] at this
        obtain ⟨rfl, rfl⟩ := this
        exact ⟨⟨hg1.mono hc, by simp [hh]⟩, hd1, Or.inr (Or.inr ⟨rfl, rfl, he1⟩)⟩
      | some p =>
        obtain ⟨w, hw⟩ := armTimer_ok hg1 p hh
        simp only [hh, ne_eq, reduceCtorEq, not_false_eq_true, if_true, hw] at hstep
        have := Result.ok.inj hstep
        simp only [Prod.mk.injEq] at this
        obtain ⟨rfl, rfl⟩ := this
        exact ⟨⟨hg1.mono hc, by simp [hh]⟩, hd1, Or.inr (Or.inr ⟨rfl, rfl, he1⟩)⟩

theorem seqStep_ratelimit_ok (sum256 : String → String) (s : RunState) (c : Int)
    (frm tgt : String) (now : Int) (inv : RunInv s c) (hc : c ≤ now) :
    ∃ s1, seqStep sum256 s (.ratelimit frm tgt now) =
      .ok (s1, some (decide (mapKey sum256 frm tgt ∉ s.r.track))) := by
  by_cases hk : mapKey sum256 frm tgt ∈ s.r.track
  · exact ⟨s, by simp [seqStep, Ratelimit, hk]⟩
  · have hg := good_add s.r c (mapKey sum256 frm tgt) now inv.good hc
    obtain ⟨_, p, hp⟩ := entries_add s.r c (mapKey sum256 frm tgt) now inv.good hk
    obtain ⟨w, hw⟩ := armTimer_ok hg p hp
    cases htm : s.tm with
    | none =>
      exact ⟨{ r := add s.r (mapKey sum256 frm tgt) now, tm := some w },
        by simp [seqStep, Ratelimit, hk, Run.step, htm, hw]⟩
    | some tm =>
      exact ⟨{ r := add s.r (mapKey sum256 frm tgt) now, tm := some tm },
        by simp [seqStep, Ratelimit, hk, Run.step, htm]⟩

theorem seqRun_cons (sum256 : String → String) (s s2 : RunState) (ev : Call) (es : List Call)
    (os : List (Option Bool)) (h : seqRun sum256 s (ev :: es) = .ok (s2, os)) :
    ∃ s1 o os1, seqStep sum256 s ev = .ok (s1, o) ∧ seqRun sum256 s1 es = .ok (s2, os1) ∧
      os = o :: os1 := by
  simp only [seqRun] at h
  cases hs : seqStep sum256 s ev with
  | ok a =>
    obtain ⟨s1, o⟩ := a
    rw [hs] at h
    simp only at h
    cases hr : seqRun sum256 s1 es with
    | ok b =>
      obtain ⟨s3, os1⟩ := b
      rw [hr] at h
      simp only at h
      have := Result.ok.inj h
      simp only [Prod.mk.injEq] at this
      exact ⟨s1, o, os1, rfl, by rw [hr, this.1], this.2.symm⟩
    | nilDeref => rw [hr] at h; simp at h
    | outOfFuel => rw [hr] at h; simp at h
    | notEnabled => rw [hr] at h; simp at h
  | nilDeref => rw [hs] at h; simp at h
  | outOfFuel => rw [hs] at h; simp at h
  | notEnabled => rw [hs] at h; simp at h

theorem seqRun_append (sum256 : String → String) (es1 es2 : List Call) :
    ∀ (s s2 : RunState) (os : List (Option Bool)),
      seqRun sum256 s (es1 ++ es2) = .ok (s2, os) →
      ∃ s1 o1 o2, seqRun sum256 s es1 = .ok (s1, o1) ∧ seqRun sum256 s1 es2 = .ok (s2, o2) := by
  induction es1 with
  | nil => intro s s2 os h; exact ⟨s, [], os, rfl, h⟩
  | cons ev es ih =>
    intro s s2 os h
    rw [List.cons_append] at h
    obtain ⟨s1, o, os1, hstep, hrun, _⟩ := seqRun_cons sum256 s s2 ev (es ++ es2) os h
    obtain ⟨s3, o1, o2, h1, h2⟩ := ih s1 s2 os1 hrun
    exact ⟨s3, o :: o1, o2, by simp [seqRun, hstep, h1], h2⟩

/-- A property of the state that every allowed step preserves holds after every run of
allowed steps with a monotone clock. -/
theorem seqRun_invariant (sum256 : String → String) (P : RunState → Int → Prop)
    (A : Call → Prop)
    (hP : ∀ s c ev s1 o, RunInv s c → P s c → c ≤ ev.time → A ev →
      seqStep sum256 s ev = .ok (s1, o) → P s1 ev.time) :
    ∀ (es : List Call) (s s1 : RunState) (c : Int) (os : List (Option Bool)),
      RunInv s c → P s c → (c :: es.map Call.time).Pairwise (fun a b => a ≤ b) →
      (∀ ev ∈ es, A ev) → seqRun sum256 s es = .ok (s1, os) →
      ∃ c1, RunInv s1 c1 ∧ P s1 c1 ∧ s1.r.d = s.r.d ∧ (c1 = c ∨ c1 ∈ es.map Call.time) := by
  intro es
  induction es with
  | nil =>
    intro s s1 c os inv hp _ _ h
    simp only [seqRun] at h
    have := Result.ok.inj h
    simp only [Prod.mk.injEq] at this
    rw [← this.1]
    exact ⟨c, inv, hp, rfl, Or.inl rfl⟩
  | cons ev es ih =>
    intro s s2 c os inv hp hc hA h
    obtain ⟨s1, o, os1, hstep, hrun, _⟩ := seqRun_cons sum256 s s2 ev es os h
    simp only [List.map_cons, List.pairwise_cons] at hc
    have hce : c ≤ ev.time := hc.1 _ (List.mem_cons_self _ _)
    have hcases := seqStep_cases sum256 s s1 c ev o inv hce hstep
    have hp1 := hP s c ev s1 o inv hp hce (hA ev (List.mem_cons_self _ _)) hstep
    obtain ⟨c1, inv2, hp2, hd2, hc1⟩ := ih s1 s2 ev.time os1 hcases.1 hp1
      (List.pairwise_cons.2 hc.2) (fun e he => hA e (List.mem_cons_of_mem _ he)) hrun
    refine ⟨c1, inv2, hp2, by rw [hd2, hcases.2.1], ?_⟩
    rcases hc1 with rfl | hc1
    · exact Or.inr (by simp)
    · exact Or.inr (by simp [hc1])

theorem step_untracked (sum256 : String → String) (K : String) (s s1 : RunState) (c : Int)
    (ev : Call) (o : Option Bool) (inv : RunInv s c) (hK : K ∉ s.r.track) (hc : c ≤ ev.time)
    (hA : ev.key sum256 ≠ some K) (hstep : seqStep sum256 s ev = .ok (s1, o)) :
    K ∉ s1.r.track := by
  obtain ⟨inv1, _, hcase⟩ := seqStep_cases sum256 s s1 c ev o inv hc hstep
  intro hK1
  obtain ⟨w, hw⟩ := (mem_track_iff inv1.good K).1 hK1
  rcases hcase with ⟨k, _, _, _, rfl⟩ | ⟨k, hk, _, _, hent⟩ | ⟨_, _, hent⟩
  · exact hK hK1
  · rw [hent] at hw
    rcases List.mem_append.1 hw with hw | hw
    · exact hK ((mem_track_iff inv.good K).2 ⟨w, hw⟩)
    · simp only [List.mem_singleton, Prod.mk.injEq] at hw
      exact hA (by rw [hk, hw.1])
  · rw [hent] at hw
    exact hK ((mem_track_iff inv.good K).2 ⟨w, mem_of_mem_dropWhile' _ _ _ hw⟩)

theorem step_window (sum256 : String → String) (K : String) (W : Int) (s s1 : RunState)
    (c : Int) (ev : Call) (o : Option Bool) (inv : RunInv s c) (hK : (K, W) ∈ entries s.r)
    (hc : c ≤ ev.time) (hA : ev.time ≤ W) (hstep : seqStep sum256 s ev = .ok (s1, o)) :
    (K, W) ∈ entries s1.r := by
  obtain ⟨_, _, hcase⟩ := seqStep_cases sum256 s s1 c ev o inv hc hstep
  rcases hcase with ⟨k, _, _, _, rfl⟩ | ⟨k, _, _, _, hent⟩ | ⟨_, _, hent⟩
  · exact hK
  · rw [hent]; exact List.mem_append_left _ hK
  · rw [hent]
    exact mem_dropWhile_of_not _ _ _ hK (by simp; omega)

theorem step_registered (sum256 : String → String) (K : String) (W : Int) (s s1 : RunState)
    (c : Int) (ev : Call) (o : Option Bool) (inv : RunInv s c)
    (hP : (∀ w, (K, w) ∈ entries s.r → w = W) ∧ (K ∉ s.r.track → W < c))
    (hc : c ≤ ev.time) (hA : ev.key sum256 = some K → ev.time ≤ W)
    (hstep : seqStep sum256 s ev = .ok (s1, o)) :
    (∀ w, (K, w) ∈ entries s1.r → w = W) ∧ (K ∉ s1.r.track → W < ev.time) := by
  obtain ⟨inv1, _, hcase⟩ := seqStep_cases sum256 s s1 c ev o inv hc hstep
  rcases hcase with ⟨k, _, _, _, rfl⟩ | ⟨k, hk, hkt, _, hent⟩ | ⟨_, _, hent⟩
  · exact ⟨hP.1, fun h => by have := hP.2 h; omega⟩
  · by_cases hkK : k = K
    · subst hkK
      have h1 := hP.2 hkt
      have h2 := hA hk
      omega
    · constructor
      · intro w hw
        rw [hent] at hw
        rcases List.mem_append.1 hw with hw | hw
        · exact hP.1 w hw
        · simp only [List.mem_singleton, Prod.mk.injEq] at hw
          exact absurd hw.1.symm hkK
      · intro hK1
        have hK0 : K ∉ s.r.track := by
          intro hK0
          obtain ⟨w, hw⟩ := (mem_track_iff inv.good K).1 hK0
          exact hK1 ((mem_track_iff inv1.good K).2 ⟨w, by rw [hent]; exact List.mem_append_left _ hw⟩)
        have := hP.2 hK0
        omega
  · constructor
    · intro w hw
      rw [hent] at hw
      exact hP.1 w (mem_of_mem_dropWhile' _ _ _ hw)
    · intro hK1
      by_cases hK0 : K ∈ s.r.track
      · obtain ⟨w, hw⟩ := (mem_track_iff inv.good K).1 hK0
        have hwW := hP.1 w hw
        subst hwW
        by_contra hlt
        apply hK1
        refine (mem_track_iff inv1.good K).2 ⟨w, ?_⟩
        rw [hent]
        exact mem_dropWhile_of_not _ _ _ hw (by simp; omega)
      · have := hP.2 hK0
        omega

theorem runInv_init (d c : Int) : RunInv (Run.init d) c :=
  ⟨good_New d c, by simp [Run.init, New]⟩

theorem exists_clock_start (l : List Int) (h : l.Pairwise (fun a b => a ≤ b)) :
    ∃ c, (c :: l).Pairwise (fun a b => a ≤ b) := by
  cases l with
  | nil => exact ⟨0, by simp⟩
  | cons a as =>
    refine ⟨a, List.pairwise_cons.2 ⟨?_, h⟩⟩
    intro b hb
    rcases List.mem_cons.1 hb with rfl | hb
    · exact le_refl _
    · exact (List.pairwise_cons.1 h).1 b hb

/-! ## The window contract of `Ratelimit` -/

theorem seqStep_fresh (sum256 : String → String) (s : RunState) (c : Int) (frm tgt : String)
    (now : Int) (inv : RunInv s c) (hc : c ≤ now) (hk : mapKey sum256 frm tgt ∉ s.r.track) :
    ∃ s1, seqStep sum256 s (.ratelimit frm tgt now) = .ok (s1, some true) ∧ RunInv s1 now ∧
      s1.r.d = s.r.d ∧
      entries s1.r = entries s.r ++ [(mapKey sum256 frm tgt, now + s.r.d)] := by
  obtain ⟨s1, hs1⟩ := seqStep_ratelimit_ok sum256 s c frm tgt now inv hc
  obtain ⟨inv1, hd, hcase⟩ := seqStep_cases sum256 s s1 c (.ratelimit frm tgt now) _ inv hc hs1
  refine ⟨s1, by rw [hs1]; simp [hk], inv1, hd, ?_⟩
  rcases hcase with ⟨k, hk1, hk2, _, _⟩ | ⟨k, hk1, _, _, hent⟩ | ⟨hk1, _, _⟩
  · simp only [Call.key, Option.some.injEq] at hk1
    rw [← hk1] at hk2
    exact absurd hk2 hk
  · simp only [Call.key, Option.some.injEq] at hk1
    rw [hk1]
    exact hent
  · simp [Call.key] at hk1

theorem seqStep_tick_entries (sum256 : String → String) (s s1 : RunState) (c n : Int)
    (o : Option Bool) (inv : RunInv s c) (hc : c ≤ n)
    (hstep : seqStep sum256 s (.tick n) = .ok (s1, o)) :
    RunInv s1 n ∧ s1.r.d = s.r.d ∧
      entries s1.r = (entries s.r).dropWhile (fun x => decide (x.2 < n)) := by
  obtain ⟨inv1, hd, hcase⟩ := seqStep_cases sum256 s s1 c (.tick n) _ inv hc hstep
  refine ⟨inv1, hd, ?_⟩
  rcases hcase with ⟨k, hk1, _⟩ | ⟨k, hk1, _⟩ | ⟨_, _, hent⟩
  · simp [Call.key] at hk1
  · simp [Call.key] at hk1
  · exact hent

/-- C1 (as amended): in a sequential execution with a clock that never goes backwards, in
which the owner handles every handed-off key and every timer firing before the next step, a
`Ratelimit(from, to)` whose key was asked for by no earlier call returns true and registers
the key at the time `t0`; after any steps made no later than `t0 + d` a `Ratelimit(from, to)`
returns false and changes nothing; and after steps in which calls with that key were made no
later than `t0 + d`, followed by an expiry step of the owner at a time `n` strictly after
`t0 + d` and by steps without a call with that key, `Ratelimit(from, to)` returns true again. -/
theorem ratelimit_window_contract (sum256 : String → String) (d : Int) (frm tgt : String)
    (pre mid es3 es4 : List Call) (t0 t1 t2 n : Int) (s0 s2 s3 : RunState)
    (o0 o2 o3 : List (Option Bool))
    (hpre : seqRun sum256 (Run.init d) pre = .ok (s0, o0))
    (hfresh : ∀ c ∈ pre, c.key sum256 ≠ some (mapKey sum256 frm tgt))
    (hmid : seqRun sum256 s0 (.ratelimit frm tgt t0 :: mid) = .ok (s2, o2))
    (hclock1 : clockMonotone (pre ++ .ratelimit frm tgt t0 :: mid))
    (hwin : ∀ c ∈ mid, c.time ≤ t0 + d)
    (hpost : seqRun sum256 s0 (.ratelimit frm tgt t0 :: (es3 ++ .tick n :: es4)) = .ok (s3, o3))
    (hclock2 : clockMonotone
      (pre ++ .ratelimit frm tgt t0 :: (es3 ++ .tick n :: (es4 ++ [.ratelimit frm tgt t2]))))
    (hes3 : ∀ c ∈ es3, c.key sum256 = some (mapKey sum256 frm tgt) → c.time ≤ t0 + d)
    (hn : t0 + d < n)
    (hes4 : ∀ c ∈ es4, c.key sum256 ≠ some (mapKey sum256 frm tgt)) :
    (∃ s1, seqStep sum256 s0 (.ratelimit frm tgt t0) = .ok (s1, some true)) ∧
    seqStep sum256 s2 (.ratelimit frm tgt t1) = .ok (s2, some false) ∧
    (∃ s4, seqStep sum256 s3 (.ratelimit frm tgt t2) = .ok (s4, some true)) := by
  obtain ⟨c, hc⟩ := exists_clock_start _ hclock1
  simp only [clockMonotone, List.map_append, List.map_cons, List.map_nil, Call.time]
    at hclock1 hclock2 hc
  rw [List.pairwise_cons, List.pairwise_append, List.pairwise_cons] at hc
  obtain ⟨hcall, hPpre, ⟨ht0mid, _⟩, hcross⟩ := hc
  rw [List.pairwise_append, List.pairwise_cons, List.pairwise_append, List.pairwise_cons,
    List.pairwise_append] at hclock2
  obtain ⟨_, ⟨ht0post, hPes3, ⟨hn4, hPes4, _, hcross4⟩, hcross3⟩, _⟩ := hclock2
  -- the prefix: the key is not tracked when the first call is made
  obtain ⟨c0, inv0, hK0, hd0, hc0⟩ := seqRun_invariant sum256
    (fun s _ => mapKey sum256 frm tgt ∉ s.r.track)
    (fun ev => ev.key sum256 ≠ some (mapKey sum256 frm tgt))
    (fun s c ev s1 o inv hP hc hA hstep => step_untracked sum256 _ s s1 c ev o inv hP hc hA hstep)
    pre (Run.init d) s0 c o0 (runInv_init d c) (by simp [Run.init, New])
    (List.pairwise_cons.2 ⟨fun a ha => hcall a (List.mem_append_left _ ha), hPpre⟩) hfresh hpre
  have hd0 : s0.r.d = d := by rw [hd0]; rfl
  have hc0t : c0 ≤ t0 := by
    rcases hc0 with rfl | hc0
    · exact hcall t0 (by simp)
    · exact hcross c0 hc0 t0 (by simp)
  obtain ⟨s1, hstep1, inv1, hd1, hent1⟩ := seqStep_fresh sum256 s0 c0 frm tgt t0 inv0 hc0t hK0
  rw [hd0] at hent1 hd1
  have hKW : (mapKey sum256 frm tgt, t0 + d) ∈ entries s1.r := by rw [hent1]; simp
  refine ⟨⟨s1, hstep1⟩, ?_, ?_⟩
  · -- within the window
    obtain ⟨s1', o, os1, hstep, hrun, _⟩ := seqRun_cons sum256 s0 s2 _ mid o2 hmid
    rw [hstep1] at hstep
    have hs := Result.ok.inj hstep
    simp only [Prod.mk.injEq] at hs
    rw [← hs.1] at hrun
    obtain ⟨c2, inv2, hK2, _, _⟩ := seqRun_invariant sum256
      (fun s _ => (mapKey sum256 frm tgt, t0 + d) ∈ entries s.r)
      (fun ev => ev.time ≤ t0 + d)
      (fun s c ev s1 o inv hP hc hA hstep =>
        step_window sum256 _ _ s s1 c ev o inv hP hc hA hstep)
      mid s1 s2 t0 os1 inv1 hKW (List.pairwise_cons.2 ⟨ht0mid, by assumption⟩) hwin hrun
    have hK : mapKey sum256 frm tgt ∈ s2.r.track := (mem_track_iff inv2.good _).2 ⟨_, hK2⟩
    simp [seqStep, Ratelimit, hK]
  · -- after the window
    obtain ⟨s1', o, os1, hstep, hrun, _⟩ := seqRun_cons sum256 s0 s3 _ _ o3 hpost
    rw [hstep1] at hstep
    have hs := Result.ok.inj hstep
    simp only [Prod.mk.injEq] at hs
    rw [← hs.1] at hrun
    obtain ⟨sa, oa, ob, hruna, hrunb⟩ := seqRun_append sum256 es3 _ s1 s3 os1 hrun
    obtain ⟨sb, o', os2, hstepb, hrunc, _⟩ := seqRun_cons sum256 sa s3 _ es4 ob hrunb
    have hPA1 : (∀ w, (mapKey sum256 frm tgt, w) ∈ entries s1.r → w = t0 + d) ∧
        (mapKey sum256 frm tgt ∉ s1.r.track → t0 + d < t0) := by
      constructor
      · intro w hw
        rw [hent1] at hw
        rcases List.mem_append.1 hw with hw | hw
        · exact absurd ((mem_track_iff inv0.good _).2 ⟨w, hw⟩) hK0
        · simp only [List.mem_singleton, Prod.mk.injEq] at hw
          exact hw.2
      · intro hnot
        exact absurd ((mem_track_iff inv1.good _).2 ⟨_, hKW⟩) hnot
    obtain ⟨ca, inva, hPa, _, hca⟩ := seqRun_invariant sum256
      (fun s c => (∀ w, (mapKey sum256 frm tgt, w) ∈ entries s.r → w = t0 + d) ∧
        (mapKey sum256 frm tgt ∉ s.r.track → t0 + d < c))
      (fun ev => ev.key sum256 = some (mapKey sum256 frm tgt) → ev.time ≤ t0 + d)
      (fun s c ev s1 o inv hP hc hA hstep =>
        step_registered sum256 _ _ s s1 c ev o inv hP hc hA hstep)
      es3 s1 sa t0 oa inv1 hPA1
      (List.pairwise_cons.2 ⟨fun a ha => ht0post a (List.mem_append_left _ ha), hPes3⟩)
      hes3 hruna
    have hcan : ca ≤ n := by
      rcases hca with rfl | hca
      · exact ht0post n (by simp)
      · exact hcross3 ca hca n (by simp)
    obtain ⟨invb, _, hentb⟩ := seqStep_tick_entries sum256 sa sb ca n o' inva hcan hstepb
    have hKb : mapKey sum256 frm tgt ∉ sb.r.track := by
      intro hKb
      obtain ⟨w, hw⟩ := (mem_track_iff invb.good _).1 hKb
      rw [hentb] at hw
      have hwW := hPa.1 w (mem_of_mem_dropWhile' _ _ _ hw)
      have hsorted := inva.good.sorted
      rw [← entries_whens] at hsorted
      have := le_of_mem_dropWhile n (entries sa.r) hsorted _ hw
      simp only at this
      omega
    obtain ⟨cb, invc, hKc, _, hcb⟩ := seqRun_invariant sum256
      (fun s _ => mapKey sum256 frm tgt ∉ s.r.track)
      (fun ev => ev.key sum256 ≠ some (mapKey sum256 frm tgt))
      (fun s c ev s1 o inv hP hc hA hstep => step_untracked sum256 _ s s1 c ev o inv hP hc hA hstep)
      es4 sb s3 n os2 invb hKb
      (List.pairwise_cons.2 ⟨fun a ha => hn4 a (List.mem_append_left _ ha), hPes4⟩) hes4 hrunc
    have hcbt : cb ≤ t2 := by
      rcases hcb with rfl | hcb
      · exact hn4 t2 (by simp)
      · exact hcross4 cb hcb t2 (by simp)
    obtain ⟨s4, hs4, _⟩ := seqStep_fresh sum256 s3 cb frm tgt t2 invc hcbt hKc
    exact ⟨s4, hs4⟩


/-- Witness for C1: window 10, one other pair registered at 0, the pair registered at 1, asked
for again at 6, 7 and 8, expiry steps at 5, 11 and 12, and the pair asked for again at 13. -/
theorem ratelimit_window_contract_witness :
    seqRun (fun x => x) (Run.init 10) [.ratelimit "carol@z.org" "dave@w.net" 0] =
      .ok ({ r := { d := 10, track := ["carol@z.org@@dave@w.net"],
                    heap := [⟨10, "carol@z.org@@dave@w.net", none⟩],
                    expirehead := some 0, expiretail := some 0 },
             tm := some 10 }, [some true]) ∧
    (∃ s1, seqStep (fun x => x)
        { r := { d := 10, track := ["carol@z.org@@dave@w.net"],
                 heap := [⟨10, "carol@z.org@@dave@w.net", none⟩],
                 expirehead := some 0, expiretail := some 0 },
          tm := some 10 } (.ratelimit "bob@y.com" "alice@x.com" 1) = .ok (s1, some true)) ∧
    seqStep (fun x => x)
        { r := { d := 10,
                 track := ["erin@v.io@@alice@x.com", "bob@y.com@@alice@x.com",
                           "carol@z.org@@dave@w.net"],
                 heap := [⟨10, "carol@z.org@@dave@w.net", some 1⟩,
                          ⟨11, "bob@y.com@@alice@x.com", some 2⟩,
                          ⟨12, "erin@v.io@@alice@x.com", none⟩],
                 expirehead := some 0, expiretail := some 2 },
          tm := some 10 } (.ratelimit "bob@y.com" "alice@x.com" 7) =
      .ok ({ r := { d := 10,
                    track := ["erin@v.io@@alice@x.com", "bob@y.com@@alice@x.com",
                              "carol@z.org@@dave@w.net"],
                    heap := [⟨10, "carol@z.org@@dave@w.net", some 1⟩,
                             ⟨11, "bob@y.com@@alice@x.com", some 2⟩,
                             ⟨12, "erin@v.io@@alice@x.com", none⟩],
                    expirehead := some 0, expiretail := some 2 },
             tm := some 10 }, some false) ∧
    (∃ s4, seqStep (fun x => x)
        { r := { d := 10, track := ["erin@v.io@@alice@x.com"],
                 heap := [⟨10, "carol@z.org@@dave@w.net", some 1⟩,
                          ⟨11, "bob@y.com@@alice@x.com", none⟩,
                          ⟨22, "erin@v.io@@alice@x.com", none⟩],
                 expirehead := some 2, expiretail := some 2 },
          tm := some 22 } (.ratelimit "bob@y.com" "alice@x.com" 13) = .ok (s4, some true)) :=
  ⟨by decide,
   ratelimit_window_contract (fun x => x) 10 "bob@y.com" "alice@x.com"
     [.ratelimit "carol@z.org" "dave@w.net" 0]
     [.ratelimit "erin@v.io" "alice@x.com" 2, .tick 5, .ratelimit "bob@y.com" "alice@x.com" 6]
     [.ratelimit "bob@y.com" "alice@x.com" 8, .tick 11]
     [.ratelimit "erin@v.io" "alice@x.com" 12]
     1 7 13 12 _ _ _ [some true] [some true, some true, none, some false]
     [some true, some false, none, none, some true]
     (by decide) (by decide) (by decide) (by unfold clockMonotone; decide) (by decide)
     (by decide) (by unfold clockMonotone; decide) (by decide) (by decide) (by decide)⟩

/-- Counterexample to C1 as stated: whatever the digest, `Ratelimit("a", "@b")` called for
the first time after `Ratelimit("a@", "b")` is refused, since both pairs are digested from
the same string `a@@@b`; no digest makes both first calls return true. -/
theorem ratelimit_first_call_refused :
    ¬ ∃ (sum256 : String → String) (s : RunState),
      seqRun sum256 (Run.init 86400) [.ratelimit "a@" "b" 0, .ratelimit "a" "@b" 1] =
        .ok (s, [some true, some true]) := by
  rintro ⟨sum256, s, h⟩
  have hkey : ("a" : String) ++ "@@" ++ "@b" = "a@" ++ "@@" ++ "b" := by decide
  simp [seqRun, seqStep, Ratelimit, mapKey, Run.step, Run.init, New, add, trackSet, armTimer,
    hkey] at h
/-! ## Regular expressions: what the expressions of the repository match -/

theorem flatMap_ne_nil {α β : Type} (l : List α) (f : α → List β) :
    l.flatMap f ≠ [] ↔ ∃ x ∈ l, f x ≠ [] := by
  rw [Ne, List.flatMap_eq_nil_iff]
  push_neg
  rfl

theorem run_lit_ne_nil (c : Char) (s : MState) :
    Regexp.run (.lit c) s ≠ [] ↔ [c] <+: s.rest := by
  cases hr : s.rest with
  | nil => simp [Regexp.run, hr]
  | cons x xs =>
    by_cases hx : x = c
    · simp [Regexp.run, hr, hx]
    · simp [Regexp.run, hr, hx]
      intro h; exact hx h.symm

theorem run_str_lit (c : Char) (cs : List Char) :
    ∀ s : MState, ((Regexp.str cs).run s).flatMap (fun s1 => Regexp.run (.lit c) s1) ≠ [] ↔
      cs ++ [c] <+: s.rest := by
  induction cs with
  | nil =>
    intro s
    simp only [Regexp.str, Regexp.run, List.flatMap_cons, List.flatMap_nil, List.append_nil,
      List.nil_append]
    exact run_lit_ne_nil c s
  | cons a cs ih =>
    intro s
    cases hr : s.rest with
    | nil => simp [Regexp.str, Regexp.run, hr]
    | cons x xs =>
      by_cases hx : x = a
      · subst hx
        have := ih { pos := s.pos + 1, rest := xs, caps := s.caps }
        simp only [Regexp.str, Regexp.run, hr, if_true, List.flatMap_cons, List.flatMap_nil,
          List.append_nil, List.cons_append, List.cons_prefix_cons, true_and]
        exact this
      · simp only [Regexp.str, Regexp.run, hr, if_neg hx, List.flatMap_nil, List.cons_append,
          List.cons_prefix_cons]
        simp
        intro h; exact absurd h.symm hx

theorem run_alt (a b : Regexp) (s : MState) : (Regexp.alt a b).run s = a.run s ++ b.run s := by
  rw [Regexp.run]

theorem run_cat (a b : Regexp) (s : MState) :
    (Regexp.cat a b).run s = (a.run s).flatMap (fun s1 => b.run s1) := by
  rw [Regexp.run]

theorem run_group (i : Nat) (a : Regexp) (s : MState) :
    (Regexp.group i a).run s =
      (a.run s).map (fun s1 => { s1 with caps := (i, s.rest.take (s1.pos - s.pos)) :: s1.caps }) := by
  rw [Regexp.run]

theorem run_bol (s : MState) : Regexp.bol.run s = if s.pos = 0 then [s] else [] := by
  rw [Regexp.run]

theorem run_eol (s : MState) : Regexp.eol.run s = if s.rest = [] then [s] else [] := by
  rw [Regexp.run]

theorem mem_run_bol_cat (a : Regexp) (s s1 : MState) :
    s1 ∈ (Regexp.cat .bol a).run s ↔ s.pos = 0 ∧ s1 ∈ a.run s := by
  rw [run_cat, run_bol]
  by_cases h : s.pos = 0 <;> simp [h]

theorem run_denylist (cs1 cs2 cs3 : List Char) (c : Char) (i : Nat) (r : List Char) :
    (Regexp.cat (.group 1 (.alt (.cat .bol (Regexp.str cs1))
        (.alt (Regexp.str cs2) (.cat .bol (Regexp.str cs3))))) (.lit c)).run
      { pos := i, rest := r, caps := [] } ≠ [] ↔
      (i = 0 ∧ cs1 ++ [c] <+: r) ∨ cs2 ++ [c] <+: r ∨ (i = 0 ∧ cs3 ++ [c] <+: r) := by
  have h1 := run_str_lit c cs1 { pos := i, rest := r, caps := [] }
  have h2 := run_str_lit c cs2 { pos := i, rest := r, caps := [] }
  have h3 := run_str_lit c cs3 { pos := i, rest := r, caps := [] }
  simp only [flatMap_ne_nil] at h1 h2 h3
  have hcaps : ∀ (s1 : MState) (caps : List (Nat × List Char)),
      Regexp.run (.lit c) { s1 with caps := caps } ≠ [] ↔ Regexp.run (.lit c) s1 ≠ [] := by
    intro s1 caps
    rw [run_lit_ne_nil, run_lit_ne_nil]
  rw [run_cat, flatMap_ne_nil]
  simp only [run_group, List.mem_map, run_alt, List.mem_append, mem_run_bol_cat]
  constructor
  · rintro ⟨x, ⟨s1, hs1, rfl⟩, hx⟩
    rw [hcaps] at hx
    rcases hs1 with ⟨hi, hs1⟩ | hs1 | ⟨hi, hs1⟩
    · exact Or.inl ⟨hi, h1.1 ⟨s1, hs1, hx⟩⟩
    · exact Or.inr (Or.inl (h2.1 ⟨s1, hs1, hx⟩))
    · exact Or.inr (Or.inr ⟨hi, h3.1 ⟨s1, hs1, hx⟩⟩)
  · rintro (⟨hi, h⟩ | h | ⟨hi, h⟩)
    · obtain ⟨s1, hs1, hx⟩ := h1.2 h
      exact ⟨_, ⟨s1, Or.inl ⟨hi, hs1⟩, rfl⟩, (hcaps s1 _).2 hx⟩
    · obtain ⟨s1, hs1, hx⟩ := h2.2 h
      exact ⟨_, ⟨s1, Or.inr (Or.inl hs1), rfl⟩, (hcaps s1 _).2 hx⟩
    · obtain ⟨s1, hs1, hx⟩ := h3.2 h
      exact ⟨_, ⟨s1, Or.inr (Or.inr ⟨hi, hs1⟩), rfl⟩, (hcaps s1 _).2 hx⟩

theorem run_nonPermittedSenderRe (i : Nat) (r : List Char) :
    nonPermittedSenderRe.run { pos := i, rest := r, caps := [] } ≠ [] ↔
      (i = 0 ∧ "owner-@".data <+: r) ∨ "-service@".data <+: r ∨
        (i = 0 ∧ "MAILER-DAEMON@".data <+: r) :=
  run_denylist "owner-".data "-service".data "MAILER-DAEMON".data '@' i r

theorem matchString_iff (re : Regexp) (s : String) :
    re.MatchString s = true ↔
      ∃ i, i ≤ s.data.length ∧ re.run { pos := i, rest := s.data.drop i, caps := [] } ≠ [] := by
  simp only [Regexp.MatchString, List.any_eq_true, List.mem_range, Regexp.matchAt,
    List.head?_isSome]
  constructor
  · rintro ⟨i, hi, h⟩; exact ⟨i, by omega, h⟩
  · rintro ⟨i, hi, h⟩; exact ⟨i, by omega, h⟩

theorem infix_iff_prefix_drop {α : Type} (l1 l : List α) :
    l1 <:+: l ↔ ∃ i, i ≤ l.length ∧ l1 <+: l.drop i := by
  rw [List.infix_iff_prefix_suffix]
  constructor
  · rintro ⟨t, hp, hs⟩
    refine ⟨l.length - t.length, by omega, ?_⟩
    rw [← List.suffix_iff_eq_drop.1 hs]
    exact hp
  · rintro ⟨i, _, hp⟩
    exact ⟨l.drop i, hp, List.drop_suffix i l⟩

theorem nonPermittedSender_match_iff (frm : String) :
    nonPermittedSenderRe.MatchString frm = true ↔
      "owner-@".data <+: frm.data ∨ "-service@".data <:+: frm.data ∨
        "MAILER-DAEMON@".data <+: frm.data := by
  rw [matchString_iff, infix_iff_prefix_drop]
  simp only [run_nonPermittedSenderRe]
  constructor
  · rintro ⟨i, hi, ⟨rfl, h⟩ | h | ⟨rfl, h⟩⟩
    · exact Or.inl (by simpa using h)
    · exact Or.inr (Or.inl ⟨i, hi, h⟩)
    · exact Or.inr (Or.inr (by simpa using h))
  · rintro (h | ⟨i, hi, h⟩ | h)
    · exact ⟨0, by omega, Or.inl ⟨rfl, by simpa using h⟩⟩
    · exact ⟨i, hi, Or.inr (Or.inl h)⟩
    · exact ⟨0, by omega, Or.inr (Or.inr ⟨rfl, by simpa using h⟩)⟩

theorem run_notChar (c : Char) (s : MState) (x : Char) (xs : List Char) (hr : s.rest = x :: xs) :
    (Regexp.notChar c).run s =
      if x ≠ c then [{ pos := s.pos + 1, rest := xs, caps := s.caps }] else [] := by
  rw [Regexp.run]
  simp only [hr]

theorem run_notChar_nil (c : Char) (s : MState) (hr : s.rest = []) :
    (Regexp.notChar c).run s = [] := by
  rw [Regexp.run]
  simp only [hr]

theorem mem_iterate_notChar (c : Char) (s1 : MState) :
    ∀ (n : Nat) (s : MState), s.rest.length ≤ n →
      (s1 ∈ Regexp.iterate (fun s2 => Regexp.run (.notChar c) s2) n s ↔
        ∃ u v, s.rest = u ++ v ∧ u ≠ [] ∧ c ∉ u ∧
          s1 = { pos := s.pos + u.length, rest := v, caps := s.caps }) := by
  intro n
  induction n with
  | zero =>
    intro s hn
    have hr : s.rest = [] := List.eq_nil_of_length_eq_zero (by omega)
    simp only [Regexp.iterate, run_notChar_nil c s hr, List.not_mem_nil, false_iff, hr]
    rintro ⟨u, v, huv, hu, _⟩
    have := List.append_eq_nil.1 huv.symm
    exact hu this.1
  | succ n ih =>
    intro s hn
    cases hr : s.rest with
    | nil =>
      simp only [Regexp.iterate, run_notChar_nil c s hr, List.flatMap_nil, List.not_mem_nil,
        false_iff]
      rintro ⟨u, v, huv, hu, _⟩
      have := List.append_eq_nil.1 huv.symm
      exact hu this.1
    | cons x xs =>
      by_cases hx : x = c
      · simp only [Regexp.iterate, run_notChar c s x xs hr, hx, ne_eq, not_true_eq_false,
          if_false, List.flatMap_nil, List.not_mem_nil, false_iff]
        rintro ⟨u, v, huv, hu, hc, _⟩
        cases u with
        | nil => exact hu rfl
        | cons y ys =>
          simp only [List.cons_append, List.cons.injEq] at huv
          apply hc
          rw [← huv.1]
          exact List.mem_cons_self _ _
      · have hlen : xs.length ≤ n := by rw [hr] at hn; simp at hn; omega
        have hih := ih { pos := s.pos + 1, rest := xs, caps := s.caps } hlen
        simp only [Regexp.iterate, run_notChar c s x xs hr, ne_eq, hx, not_false_eq_true,
          if_true, List.flatMap_cons, List.flatMap_nil, List.append_nil, hr, List.length_cons,
          Nat.lt_succ_self, List.mem_append, List.mem_singleton, hih]
        constructor
        · rintro (⟨u, v, huv, hu, hc, rfl⟩ | rfl)
          · refine ⟨x :: u, v, by simp [huv], by simp, ?_, ?_⟩
            · simp only [List.mem_cons, not_or]
              exact ⟨fun h => hx h.symm, hc⟩
            · simp only [List.length_cons, MState.mk.injEq, and_true]
              omega
          · exact ⟨[x], xs, rfl, by simp, by simpa using fun h => hx h.symm, rfl⟩
        · rintro ⟨u, v, huv, hu, hc, rfl⟩
          cases u with
          | nil => exact absurd rfl hu
          | cons y ys =>
            simp only [List.cons_append, List.cons.injEq] at huv
            obtain ⟨rfl, hxs⟩ := huv
            cases ys with
            | nil =>
              right
              simp only [List.nil_append] at hxs
              simp [hxs]
            | cons z zs =>
              left
              refine ⟨z :: zs, v, hxs, by simp, ?_, ?_⟩
              · intro h; exact hc (List.mem_cons_of_mem _ h)
              · simp only [List.length_cons, MState.mk.injEq, and_true]
                omega

theorem mem_run_plus_notChar (c : Char) (s s1 : MState) :
    s1 ∈ (Regexp.plus (.notChar c)).run s ↔
      ∃ u v, s.rest = u ++ v ∧ u ≠ [] ∧ c ∉ u ∧
        s1 = { pos := s.pos + u.length, rest := v, caps := s.caps } := by
  rw [Regexp.run]
  exact mem_iterate_notChar c s1 s.rest.length s (Nat.le_refl _)

theorem mem_run_lit (c : Char) (s s1 : MState) :
    s1 ∈ (Regexp.lit c).run s ↔
      ∃ v, s.rest = c :: v ∧ s1 = { pos := s.pos + 1, rest := v, caps := s.caps } := by
  rw [Regexp.run]
  cases hr : s.rest with
  | nil => simp
  | cons x xs =>
    by_cases hx : x = c
    · simp [hx]
    · simp [hx]

theorem mem_run_group_plus (i : Nat) (c : Char) (s s1 : MState) :
    s1 ∈ (Regexp.group i (.plus (.notChar c))).run s ↔
      ∃ u v, s.rest = u ++ v ∧ u ≠ [] ∧ c ∉ u ∧
        s1 = { pos := s.pos + u.length, rest := v, caps := (i, u) :: s.caps } := by
  rw [run_group, List.mem_map]
  constructor
  · rintro ⟨s0, hs0, rfl⟩
    obtain ⟨u, v, huv, hu, hc, rfl⟩ := (mem_run_plus_notChar c s s0).1 hs0
    exact ⟨u, v, huv, hu, hc, by simp [huv]⟩
  · rintro ⟨u, v, huv, hu, hc, rfl⟩
    exact ⟨_, (mem_run_plus_notChar c s _).2 ⟨u, v, huv, hu, hc, rfl⟩, by simp [huv]⟩

theorem mem_run_eol (s s1 : MState) : s1 ∈ Regexp.eol.run s ↔ s.rest = [] ∧ s1 = s := by
  rw [run_eol]
  by_cases h : s.rest = [] <;> simp [h]

theorem mem_run_rcptRe (i : Nat) (t : List Char) (sf : MState) :
    sf ∈ rcptRe.run { pos := i, rest := t, caps := [] } ↔
      i = 0 ∧ ∃ l sub d, t = l ++ '#' :: (sub ++ '@' :: d) ∧ l ≠ [] ∧ '#' ∉ l ∧
        sub ≠ [] ∧ '@' ∉ sub ∧ d ≠ [] ∧ '@' ∉ d ∧
        sf = { pos := t.length, rest := [], caps := [(3, d), (2, sub), (1, l)] } := by
  rw [rcptRe, mem_run_bol_cat]
  simp only [run_cat, List.mem_flatMap, mem_run_group_plus, mem_run_lit, mem_run_eol]
  constructor
  · rintro ⟨hi, s1, ⟨l, v1, h1, hl, hcl, rfl⟩, s2, ⟨v2, h2, rfl⟩, s3,
      ⟨sub, v3, h3, hsub, hcsub, rfl⟩, s4, ⟨v4, h4, rfl⟩, s5, ⟨d, v5, h5, hd, hcd, rfl⟩,
      h6, rfl⟩
    simp only at hi h1 h2 h3 h4 h5 h6
    subst h6
    subst hi
    simp only [List.append_nil] at h5
    subst h5 h4 h3 h2 h1
    refine ⟨rfl, l, sub, v4, rfl, hl, hcl, hsub, hcsub, hd, hcd, ?_⟩
    simp only [MState.mk.injEq, and_true, List.length_append, List.length_cons]
    omega
  · rintro ⟨hi, l, sub, d, ht, hl, hcl, hsub, hcsub, hd, hcd, rfl⟩
    subst hi
    refine ⟨rfl, _, ⟨l, _, ht, hl, hcl, rfl⟩, _, ⟨_, rfl, rfl⟩, _,
      ⟨sub, _, rfl, hsub, hcsub, rfl⟩, _, ⟨_, rfl, rfl⟩, _, ⟨d, [], by simp, hd, hcd, rfl⟩,
      rfl, ?_⟩
    simp only [MState.mk.injEq, and_true, ht, List.length_append, List.length_cons]
    omega

theorem split_unique (c : Char) (u u1 v v1 : List Char) (hu : c ∉ u) (hu1 : c ∉ u1)
    (h : u ++ c :: v = u1 ++ c :: v1) : u = u1 ∧ v = v1 := by
  induction u generalizing u1 with
  | nil =>
    cases u1 with
    | nil => simpa using h
    | cons y ys =>
      simp only [List.nil_append, List.cons_append, List.cons.injEq] at h
      exact absurd (h.1 ▸ List.mem_cons_self _ _) hu1
  | cons x xs ih =>
    cases u1 with
    | nil =>
      simp only [List.nil_append, List.cons_append, List.cons.injEq] at h
      exact absurd (h.1 ▸ List.mem_cons_self _ _) hu
    | cons y ys =>
      simp only [List.cons_append, List.cons.injEq] at h
      obtain ⟨rfl, h⟩ := h
      have := ih ys (fun hm => hu (List.mem_cons_of_mem _ hm))
        (fun hm => hu1 (List.mem_cons_of_mem _ hm)) h
      exact ⟨by rw [this.1], this.2⟩

/-- The shape `l # sub @ d` that `rcptRe` accepts. -/
theorem rcpt_shape_unique (t l sub d l1 sub1 d1 : List Char)
    (h : t = l ++ '#' :: (sub ++ '@' :: d)) (hl : '#' ∉ l) (hsub : '@' ∉ sub)
    (h1 : t = l1 ++ '#' :: (sub1 ++ '@' :: d1)) (hl1 : '#' ∉ l1) (hsub1 : '@' ∉ sub1) :
    l = l1 ∧ sub = sub1 ∧ d = d1 := by
  rw [h] at h1
  obtain ⟨rfl, h2⟩ := split_unique '#' l l1 _ _ hl hl1 h1
  obtain ⟨rfl, rfl⟩ := split_unique '@' sub sub1 _ _ hsub hsub1 h2
  exact ⟨rfl, rfl, rfl⟩

theorem matchAt_rcptRe_succ (t : List Char) (j : Nat) : rcptRe.matchAt t (j + 1) = none := by
  have : rcptRe.run { pos := j + 1, rest := t.drop (j + 1), caps := [] } = [] := by
    rw [List.eq_nil_iff_forall_not_mem]
    intro sf hsf
    have := (mem_run_rcptRe (j + 1) _ sf).1 hsf
    omega
  simp [Regexp.matchAt, this]

theorem matchAt_rcptRe_zero (t l sub d : List Char)
    (h : t = l ++ '#' :: (sub ++ '@' :: d)) (hl : l ≠ []) (hcl : '#' ∉ l) (hsub : sub ≠ [])
    (hcsub : '@' ∉ sub) (hd : d ≠ []) (hcd : '@' ∉ d) :
    rcptRe.matchAt t 0 =
      some { pos := t.length, rest := [], caps := [(3, d), (2, sub), (1, l)] } := by
  have hmem := (mem_run_rcptRe 0 t _).2 ⟨rfl, l, sub, d, h, hl, hcl, hsub, hcsub, hd, hcd, rfl⟩
  simp only [Regexp.matchAt, List.drop_zero]
  cases hrun : rcptRe.run { pos := 0, rest := t, caps := [] } with
  | nil => rw [hrun] at hmem; simp at hmem
  | cons sf rest =>
    have hsf : sf ∈ rcptRe.run { pos := 0, rest := t, caps := [] } := by
      rw [hrun]; exact List.mem_cons_self _ _
    obtain ⟨_, l1, sub1, d1, h1, _, hcl1, _, hcsub1, _, _, rfl⟩ := (mem_run_rcptRe 0 t sf).1 hsf
    obtain ⟨rfl, rfl, rfl⟩ := rcpt_shape_unique t l sub d l1 sub1 d1 h hcl hcsub h1 hcl1 hcsub1
    rfl

theorem matchAt_rcptRe_none (t : List Char)
    (h : ¬ ∃ l sub d, t = l ++ '#' :: (sub ++ '@' :: d) ∧ l ≠ [] ∧ '#' ∉ l ∧ sub ≠ [] ∧
      '@' ∉ sub ∧ d ≠ [] ∧ '@' ∉ d) (i : Nat) : rcptRe.matchAt t i = none := by
  cases i with
  | succ j => exact matchAt_rcptRe_succ t j
  | zero =>
    have : rcptRe.run { pos := 0, rest := t, caps := [] } = [] := by
      rw [List.eq_nil_iff_forall_not_mem]
      intro sf hsf
      obtain ⟨_, l, sub, d, h1, hl, hcl, hsub, hcsub, hd, hcd, _⟩ := (mem_run_rcptRe 0 t sf).1 hsf
      exact h ⟨l, sub, d, h1, hl, hcl, hsub, hcsub, hd, hcd⟩
    simp [Regexp.matchAt, this]

theorem findStringSubmatch_rcptRe_some (to_ : String) (l sub d : List Char)
    (h : to_.data = l ++ '#' :: (sub ++ '@' :: d)) (hl : l ≠ []) (hcl : '#' ∉ l)
    (hsub : sub ≠ []) (hcsub : '@' ∉ sub) (hd : d ≠ []) (hcd : '@' ∉ d) :
    rcptRe.FindStringSubmatch 3 to_ = some [to_, String.mk l, String.mk sub, String.mk d] := by
  have h0 := matchAt_rcptRe_zero to_.data l sub d h hl hcl hsub hcsub hd hcd
  simp only [Regexp.FindStringSubmatch, List.range_succ_eq_map, List.findSome?_cons, h0,
    Option.map_some']
  have htake : (⟨List.take to_.length to_.data⟩ : String) = to_ := by
    rw [show to_.length = to_.data.length from rfl, List.take_length]
  simp [MState.capture, List.lookup, List.range_succ_eq_map, htake]

theorem findStringSubmatch_rcptRe_none (to_ : String)
    (h : ¬ ∃ l sub d, to_.data = l ++ '#' :: (sub ++ '@' :: d) ∧ l ≠ [] ∧ '#' ∉ l ∧ sub ≠ [] ∧
      '@' ∉ sub ∧ d ≠ [] ∧ '@' ∉ d) : rcptRe.FindStringSubmatch 3 to_ = none := by
  have : (List.range (to_.data.length + 1)).findSome?
      (fun i => (rcptRe.matchAt to_.data i).map (fun m => (i, m))) = none := by
    rw [List.findSome?_eq_none_iff]
    intro i _
    rw [matchAt_rcptRe_none to_.data h i]
    rfl
  simp only [Regexp.FindStringSubmatch, this]

/-! ## The session: `Rcpt` and `Reset` -/

theorem lookup_map_assoc {β : Type} (k k1 : String) (v : β) :
    ∀ m : List (String × β),
      (m.map (fun p => if p.1 = k then (k, v) else p)).lookup k1 =
        if k1 = k then (m.lookup k).map (fun _ => v) else m.lookup k1 := by
  intro m
  induction m with
  | nil => simp
  | cons p ps ih =>
    obtain ⟨a, x⟩ := p
    rw [List.map_cons, List.lookup_cons, ih]
    by_cases hak : a = k
    · subst hak
      by_cases hk1 : k1 = a
      · subst hk1
        simp [List.lookup_cons]
      · have hne : (k1 == a) = false := by simpa using hk1
        simp [List.lookup_cons, hne, hk1]
    · by_cases hk1 : k1 = k
      · subst hk1
        have hne : (k1 == a) = false := by
          simpa using fun h => hak h.symm
        simp [List.lookup_cons, hne, hak]
      · simp [List.lookup_cons, hak, hk1]

theorem lookup_append_single {β : Type} (k k1 : String) (v : β) :
    ∀ m : List (String × β), m.lookup k = none →
      (m ++ [(k, v)]).lookup k1 = if k1 = k then some v else m.lookup k1 := by
  intro m
  induction m with
  | nil =>
    intro _
    by_cases hk1 : k1 = k
    · subst hk1; simp [List.lookup_cons]
    · have hne : (k1 == k) = false := by simpa using hk1
      simp [List.lookup_cons, hne, hk1]
  | cons p ps ih =>
    obtain ⟨a, x⟩ := p
    intro hnone
    rw [List.lookup_cons] at hnone
    by_cases hka : k = a
    · subst hka; simp at hnone
    · have hne : (k == a) = false := by simpa using hka
      simp only [hne] at hnone
      have hih := ih hnone
      rw [List.cons_append, List.lookup_cons, hih, List.lookup_cons]
      by_cases hk1a : k1 = a
      · subst hk1a
        have : ¬ k1 = k := fun h => hka h.symm
        simp [this]
      · have hne1 : (k1 == a) = false := by simpa using hk1a
        simp [hne1]

theorem lookup_assocSet {β : Type} (m : List (String × β)) (k k1 : String) (v : β) :
    (assocSet m k v).lookup k1 = if k1 = k then some v else m.lookup k1 := by
  unfold assocSet
  by_cases h : (m.lookup k).isSome = true
  · rw [if_pos h, lookup_map_assoc]
    obtain ⟨x, hx⟩ := Option.isSome_iff_exists.1 h
    simp [hx]
  · rw [if_neg h]
    have hnone : m.lookup k = none := by
      cases hl : m.lookup k with
      | none => rfl
      | some x => simp [hl] at h
    exact lookup_append_single k k1 v m hnone

theorem data_ne_nil_of_ne_empty (s : String) (h : s ≠ "") : s.data ≠ [] := by
  intro hd
  apply h
  cases s
  simp only at hd
  subst hd
  rfl

theorem rcpt_data (to_ l sub d : String) (h : to_ = l ++ "#" ++ sub ++ "@" ++ d) :
    to_.data = l.data ++ '#' :: (sub.data ++ '@' :: d.data) := by
  subst h
  simp [String.data_append]

theorem rcpt_ok {σ : Type} (s : session) (b : backend σ) (to_ l sub d : String)
    (h : to_ = l ++ "#" ++ sub ++ "@" ++ d) (hl : l ≠ "") (hcl : '#' ∉ l.data)
    (hsub : sub ≠ "") (hcsub : '@' ∉ sub.data) (hd : d ≠ "") (hcd : '@' ∉ d.data) :
    s.Rcpt b to_ =
      if d ≠ b.domain then (s, some .errInvalidRcptDomain)
      else ({ s with rcptreal := assocSet s.rcptreal to_ (l ++ "@" ++ sub) }, none) := by
  have hfind := findStringSubmatch_rcptRe_some to_ l.data sub.data d.data (rcpt_data to_ l sub d h)
    (data_ne_nil_of_ne_empty l hl) hcl (data_ne_nil_of_ne_empty sub hsub) hcsub
    (data_ne_nil_of_ne_empty d hd) hcd
  simp only [session.Rcpt, hfind]

theorem rcpt_bad_shape {σ : Type} (s : session) (b : backend σ) (to_ : String)
    (h : ¬ ∃ l sub d : String, to_ = l ++ "#" ++ sub ++ "@" ++ d ∧ l ≠ "" ∧ '#' ∉ l.data ∧
      sub ≠ "" ∧ '@' ∉ sub.data ∧ d ≠ "" ∧ '@' ∉ d.data) :
    s.Rcpt b to_ = (s, some .errInvalidRcpt) := by
  have hfind : rcptRe.FindStringSubmatch 3 to_ = none := by
    apply findStringSubmatch_rcptRe_none
    rintro ⟨l, sub, d, ht, hl, hcl, hsub, hcsub, hd, hcd⟩
    refine h ⟨⟨l⟩, ⟨sub⟩, ⟨d⟩, ?_, ?_, hcl, ?_, hcsub, ?_, hcd⟩
    · apply String.ext
      simp [String.data_append, ht]
    · intro he; exact hl (congrArg String.data he)
    · intro he; exact hsub (congrArg String.data he)
    · intro he; exact hd (congrArg String.data he)
  simp only [session.Rcpt, hfind]

/-- C4: for every configured domain and every recipient string, `Rcpt` succeeds exactly when
the string is `l#s@d` with `l` non-empty without `#`, `s` and `d` non-empty without `@`, and
`d` the configured domain; on success the recipient mapping maps the string to `l@s`, every
other key is mapped as before and the sender (and message) are unchanged; on failure the
session is unchanged. -/
theorem rcpt_contract {σ : Type} (s : session) (b : backend σ) (to_ : String) :
    ((s.Rcpt b to_).2 = none ↔
      ∃ l sub d : String, to_ = l ++ "#" ++ sub ++ "@" ++ d ∧ l ≠ "" ∧ '#' ∉ l.data ∧
        sub ≠ "" ∧ '@' ∉ sub.data ∧ d ≠ "" ∧ '@' ∉ d.data ∧ d = b.domain) ∧
    (∀ l sub d : String, to_ = l ++ "#" ++ sub ++ "@" ++ d → l ≠ "" → '#' ∉ l.data →
        sub ≠ "" → '@' ∉ sub.data → d ≠ "" → '@' ∉ d.data → d = b.domain →
      (s.Rcpt b to_).1.rcptreal.lookup to_ = some (l ++ "@" ++ sub) ∧
      (∀ k, k ≠ to_ → (s.Rcpt b to_).1.rcptreal.lookup k = s.rcptreal.lookup k) ∧
      (s.Rcpt b to_).1.frm = s.frm ∧ (s.Rcpt b to_).1.msg = s.msg) ∧
    ((s.Rcpt b to_).2 ≠ none → (s.Rcpt b to_).1 = s) := by
  refine ⟨⟨?_, ?_⟩, ?_, ?_⟩
  · intro hok
    by_cases hshape : ∃ l sub d : String, to_ = l ++ "#" ++ sub ++ "@" ++ d ∧ l ≠ "" ∧
        '#' ∉ l.data ∧ sub ≠ "" ∧ '@' ∉ sub.data ∧ d ≠ "" ∧ '@' ∉ d.data
    · obtain ⟨l, sub, d, ht, hl, hcl, hsub, hcsub, hd, hcd⟩ := hshape
      rw [rcpt_ok s b to_ l sub d ht hl hcl hsub hcsub hd hcd] at hok
      by_cases hdom : d = b.domain
      · exact ⟨l, sub, d, ht, hl, hcl, hsub, hcsub, hd, hcd, hdom⟩
      · simp [hdom] at hok
    · rw [rcpt_bad_shape s b to_ hshape] at hok
      simp at hok
  · rintro ⟨l, sub, d, ht, hl, hcl, hsub, hcsub, hd, hcd, hdom⟩
    rw [rcpt_ok s b to_ l sub d ht hl hcl hsub hcsub hd hcd]
    simp [hdom]
  · intro l sub d ht hl hcl hsub hcsub hd hcd hdom
    rw [rcpt_ok s b to_ l sub d ht hl hcl hsub hcsub hd hcd]
    rw [if_neg (by simp [hdom])]
    refine ⟨?_, ?_, rfl, rfl⟩
    · show (assocSet s.rcptreal to_ (l ++ "@" ++ sub)).lookup to_ = _
      rw [lookup_assocSet]; simp
    · intro k hk
      show (assocSet s.rcptreal to_ (l ++ "@" ++ sub)).lookup k = _
      rw [lookup_assocSet, if_neg hk]
  · intro herr
    by_cases hshape : ∃ l sub d : String, to_ = l ++ "#" ++ sub ++ "@" ++ d ∧ l ≠ "" ∧
        '#' ∉ l.data ∧ sub ≠ "" ∧ '@' ∉ sub.data ∧ d ≠ "" ∧ '@' ∉ d.data
    · obtain ⟨l, sub, d, ht, hl, hcl, hsub, hcsub, hd, hcd⟩ := hshape
      rw [rcpt_ok s b to_ l sub d ht hl hcl hsub hcsub hd hcd] at herr ⊢
      by_cases hdom : d = b.domain
      · simp [hdom] at herr
      · simp [hdom]
    · rw [rcpt_bad_shape s b to_ hshape]

/-- Witness for C4: with the domain `autoreply.example` the tag `user#box@autoreply.example`
is accepted and mapped to `user@box`. -/
theorem rcpt_contract_witness :
    (NewSession.Rcpt demoBackend
      "user#box@autoreply.example").1.rcptreal.lookup "user#box@autoreply.example" =
      some ("user" ++ "@" ++ "box") :=
  ((rcpt_contract NewSession demoBackend "user#box@autoreply.example").2.1 "user" "box" "autoreply.example" (by decide) (by decide)
      (by decide) (by decide) (by decide) (by decide) (by decide) rfl).1

/-- C3 (the code at the failing input): `Reset` leaves the sender and the recipient mapping
of a session as they are, and an `LMTPData` after the `Reset` still processes the recipient
accepted before it (the rate limiter is asked about it and a status is set for it). -/
theorem reset_keeps_envelope :
    ((NewSession.Mail "alice@x.com").1.Rcpt demoBackend "bob#y.com@autoreply.example").1 =
      demoSession ∧
    demoSession.Reset = demoSession ∧
    demoSession.Reset.frm = "alice@x.com" ∧
    demoSession.Reset.rcptreal = [("bob#y.com@autoreply.example", "bob@y.com")] ∧
    Effect.ratelimit "bob@y.com" "alice@x.com" true ∈
      (demoSession.Reset.LMTPData demoBackend demoEnv
        { ReadMessage := .ok demoMessage, discardBody := none }
        { rl := (), log := [] }).2.2.log ∧
    Effect.status "bob#y.com@autoreply.example" none ∈
      (demoSession.Reset.LMTPData demoBackend demoEnv
        { ReadMessage := .ok demoMessage, discardBody := none }
        { rl := (), log := [] }).2.2.log := by
  refine ⟨by decide, by decide, by decide, by decide, by decide, by decide⟩

/-! ## Loop-prevention checks -/

theorem isPermittedSender_eq_false_iff (frm : String) :
    isPermittedSender frm = false ↔
      frm = "" ∨ "owner-@".data <+: frm.data ∨ "-service@".data <:+: frm.data ∨
        "MAILER-DAEMON@".data <+: frm.data := by
  rw [← nonPermittedSender_match_iff]
  by_cases hm : nonPermittedSenderRe.MatchString frm = true
  · simp [isPermittedSender, hm]
  · by_cases he : frm = ""
    · simp [isPermittedSender, he]
    · simp [isPermittedSender, hm, he]

/-- The code on the sender of the spec's example: `owner-list@example.com` is permitted,
because the expression asks for `owner-` right before the `@`. -/
theorem isPermittedSender_owner_list : isPermittedSender "owner-list@example.com" = true := by
  decide

/-- C2 (as amended): for every sender that does not begin with `owner-`, `isPermittedSender`
is false exactly when the sender is empty, contains `-service@` (its local part ends in
`-service`), or begins with `MAILER-DAEMON@` (its local part is `MAILER-DAEMON`); and
`isPermittedSender("user@example.com")` is true. -/
theorem isPermittedSender_rule (frm : String) (howner : ¬ "owner-".data <+: frm.data) :
    (isPermittedSender frm = false ↔
      frm = "" ∨ "-service@".data <:+: frm.data ∨ "MAILER-DAEMON@".data <+: frm.data) ∧
    isPermittedSender "user@example.com" = true := by
  refine ⟨?_, by decide⟩
  rw [isPermittedSender_eq_false_iff]
  constructor
  · rintro (h | h | h | h)
    · exact Or.inl h
    · exfalso
      apply howner
      obtain ⟨t, ht⟩ := h
      exact ⟨'@' :: t, by rw [← ht]; rfl⟩
    · exact Or.inr (Or.inl h)
    · exact Or.inr (Or.inr h)
  · rintro (h | h | h)
    · exact Or.inl h
    · exact Or.inr (Or.inr (Or.inl h))
    · exact Or.inr (Or.inr (Or.inr h))

/-- Witness for C2: `info-service@example.com` does not begin with `owner-` and is refused. -/
theorem isPermittedSender_rule_witness :
    ¬ "owner-".data <+: "info-service@example.com".data ∧
    isPermittedSender "info-service@example.com" = false :=
  ⟨by decide,
   (isPermittedSender_rule "info-service@example.com" (by decide)).1.2
     (Or.inr (Or.inl ⟨"info".data, "example.com".data, by decide⟩))⟩

/-- Counterexample to C2 as stated: the local part `news-service-team` contains `-service`,
and the sender is permitted. -/
theorem isPermittedSender_service_inside :
    "-service".data <:+: "news-service-team".data ∧
    isPermittedSender "news-service-team@example.com" = true :=
  ⟨⟨"news".data, "-team".data, by decide⟩, by decide⟩

theorem get_eq_iff (h : Header) (key v : String) (hv : v ≠ "") :
    h.Get key = v ↔ ∃ vs, h.fields.lookup (CanonicalMIMEHeaderKey key) = some (v :: vs) := by
  unfold Header.Get
  cases hl : h.fields.lookup (CanonicalMIMEHeaderKey key) with
  | none => simp; exact fun hh => hv hh.symm
  | some l =>
    cases l with
    | nil => simp; exact fun hh => hv hh.symm
    | cons a as => simp

/-- C8 (as amended): `isAutoSubmitted` is true exactly when the first value of the
`Auto-Submitted` field is neither empty nor `no`, or the first value of the
`X-Auto-Response-Suppress` field is exactly `All` or `OOF`. -/
theorem isAutoSubmitted_iff (msg : Message) :
    isAutoSubmitted msg = true ↔
      (∃ v vs, msg.Header.fields.lookup "Auto-Submitted" = some (v :: vs) ∧ v ≠ "" ∧ v ≠ "no") ∨
      (∃ vs, msg.Header.fields.lookup "X-Auto-Response-Suppress" = some ("All" :: vs)) ∨
      (∃ vs, msg.Header.fields.lookup "X-Auto-Response-Suppress" = some ("OOF" :: vs)) := by
  have hc1 : CanonicalMIMEHeaderKey "Auto-Submitted" = "Auto-Submitted" := by decide
  have hc2 : CanonicalMIMEHeaderKey "X-Auto-Response-Suppress" = "X-Auto-Response-Suppress" := by
    decide
  have hall := get_eq_iff msg.Header "X-Auto-Response-Suppress" "All" (by decide)
  have hoof := get_eq_iff msg.Header "X-Auto-Response-Suppress" "OOF" (by decide)
  rw [hc2] at hall hoof
  rw [← hall, ← hoof]
  have hauto : (msg.Header.Get "Auto-Submitted" ≠ "" ∧ msg.Header.Get "Auto-Submitted" ≠ "no") ↔
      ∃ v vs, msg.Header.fields.lookup "Auto-Submitted" = some (v :: vs) ∧ v ≠ "" ∧ v ≠ "no" := by
    unfold Header.Get
    rw [hc1]
    cases hl : msg.Header.fields.lookup "Auto-Submitted" with
    | none => simp
    | some l =>
      cases l with
      | nil => simp
      | cons a as => simp
  rw [← hauto]
  simp only [isAutoSubmitted, autoSubmittedHeader, autoSubmittedHeaderNo,
    xAutoResponseSuppressHeader, xAutoResponseSuppressHeaderAllValue,
    xAutoResponseSuppressHeaderOOFValue]
  by_cases h1 : msg.Header.Get "Auto-Submitted" ≠ "" ∧ msg.Header.Get "Auto-Submitted" ≠ "no"
  · simp [h1]
  · by_cases h2 : msg.Header.Get "X-Auto-Response-Suppress" = "All" ∨
        msg.Header.Get "X-Auto-Response-Suppress" = "OOF"
    · rw [if_neg h1, if_pos h2]
      simp only [true_iff]
      exact Or.inr h2
    · rw [if_neg h1, if_neg h2]
      simp only [Bool.false_eq_true, false_iff]
      rintro (h | h)
      · exact h1 h
      · exact h2 h

/-- Counterexample to C8 as stated: the `Auto-Submitted` field is present, its value (the
empty string) is other than `no`, and `isAutoSubmitted` is false. -/
theorem isAutoSubmitted_empty_value :
    (Header.mk [("Auto-Submitted", [""])]).fields.lookup "Auto-Submitted" = some [""] ∧
    "" ≠ "no" ∧
    isAutoSubmitted { Header := { fields := [("Auto-Submitted", [""])] } } = false := by
  refine ⟨by decide, by decide, by decide⟩

/-! ## The reply skeleton and the vetoes of `handleMail` -/

/-- The value of the `References` header of the reply, if it gets one. -/
theorem skeleton_genHeader (env : Env) (msg : Message) (m0 : Msg) (h0 : m0.genHeader = []) :
    (replySkeleton env msg m0).genHeader =
      [("Date", [env.date]), ("Subject", ["Auto: " ++ msg.Header.Get "Subject"]),
        ("Message-ID", [env.messageID])] ++
      (if msg.Header.Get "Message-ID" ≠ "" then [("In-Reply-To", [msg.Header.Get "Message-ID"])]
        else []) ++
      (if ((if (if msg.Header.Get referencesHeader = "" then msg.Header.Get "In-Reply-To"
              else msg.Header.Get referencesHeader) ≠ ""
            then [if msg.Header.Get referencesHeader = "" then msg.Header.Get "In-Reply-To"
              else msg.Header.Get referencesHeader] else []) ++
          (if msg.Header.Get "Message-ID" ≠ "" then [msg.Header.Get "Message-ID"] else [])).length > 0
        then [(referencesHeader, [" ".intercalate
          ((if (if msg.Header.Get referencesHeader = "" then msg.Header.Get "In-Reply-To"
              else msg.Header.Get referencesHeader) ≠ ""
            then [if msg.Header.Get referencesHeader = "" then msg.Header.Get "In-Reply-To"
              else msg.Header.Get referencesHeader] else []) ++
          (if msg.Header.Get "Message-ID" ≠ "" then [msg.Header.Get "Message-ID"] else []))])]
        else []) ++
      [(autoSubmittedHeader, [autoSubmittedHeaderAutoReplied]),
        (xAutoResponseSuppressHeader, [xAutoResponseSuppressHeaderAllValue])] := by
  simp only [replySkeleton, Msg.SetGenHeader, Msg.Subject, h0]
  split_ifs <;>
    simp [assocSet, List.lookup, referencesHeader, autoSubmittedHeader,
      xAutoResponseSuppressHeader]

theorem skeleton_get (env : Env) (msg : Message) (m0 : Msg) (h0 : m0.genHeader = []) :
    (replySkeleton env msg m0).GetGenHeader autoSubmittedHeader =
        [autoSubmittedHeaderAutoReplied] ∧
      (replySkeleton env msg m0).GetGenHeader xAutoResponseSuppressHeader =
        [xAutoResponseSuppressHeaderAllValue] := by
  simp only [Msg.GetGenHeader, skeleton_genHeader env msg m0 h0]
  constructor <;> split_ifs <;>
    simp [List.lookup, referencesHeader, autoSubmittedHeader, xAutoResponseSuppressHeader]

theorem skeleton_inbound (env : Env) (msg : Message) (m0 : Msg) (h0 : m0.genHeader = []) :
    (replySkeleton env msg m0).asInbound.Header.Get autoSubmittedHeader =
        autoSubmittedHeaderAutoReplied ∧
      (replySkeleton env msg m0).asInbound.Header.Get xAutoResponseSuppressHeader =
        xAutoResponseSuppressHeaderAllValue := by
  have c1 : CanonicalMIMEHeaderKey "Date" = "Date" := by decide
  have c2 : CanonicalMIMEHeaderKey "Subject" = "Subject" := by decide
  have c3 : CanonicalMIMEHeaderKey "Message-ID" = "Message-Id" := by decide
  have c4 : CanonicalMIMEHeaderKey "In-Reply-To" = "In-Reply-To" := by decide
  have c5 : CanonicalMIMEHeaderKey "References" = "References" := by decide
  have c6 : CanonicalMIMEHeaderKey "Auto-Submitted" = "Auto-Submitted" := by decide
  have c7 : CanonicalMIMEHeaderKey "X-Auto-Response-Suppress" = "X-Auto-Response-Suppress" := by
    decide
  simp only [Msg.asInbound, Header.Get, skeleton_genHeader env msg m0 h0]
  constructor <;> split_ifs <;>
    simp [List.lookup, referencesHeader, autoSubmittedHeader, xAutoResponseSuppressHeader,
      autoSubmittedHeaderAutoReplied, xAutoResponseSuppressHeaderAllValue, c1, c2, c3, c4, c5,
      c6, c7, String.intercalate, String.intercalate.go]

theorem from_genHeader (m : Msg) (lib : MailLib) (v : String) :
    (m.From lib v).1.genHeader = m.genHeader := by
  unfold Msg.From
  cases parseAddresses lib [v] <;> rfl

theorem to_genHeader (m : Msg) (lib : MailLib) (vs : List String) :
    (m.To lib vs).1.genHeader = m.genHeader := by
  unfold Msg.To
  cases parseAddresses lib vs <;> rfl

/-- The two ways in which `GenerateReply` returns a reply without an error: no generator is
configured and the reply is the skeleton with the default body, or it is what the generator
made of the skeleton. -/
theorem generateReply_ok {σ : Type} (b : backend σ) (env : Env) (sender recipient : String)
    (msg : Message) (m : Msg) (h : GenerateReply b env sender recipient msg = (some m, none)) :
    ∃ m0 : Msg, m0.genHeader = [] ∧
      ((b.replygenerator = none ∧ m = (replySkeleton env msg m0).SetBodyString "text/plain"
          "Reader of mailbox is out-of-office / on vacation") ∨
       (∃ g, b.replygenerator = some g ∧
          g msg sender recipient (replySkeleton env msg m0) = (some m, none))) := by
  unfold GenerateReply at h
  have hf := from_genHeader NewMsg env.lib
    (extractAddress env.lib msg recipient recipientAddressHeaders)
  cases hfrom : NewMsg.From env.lib (extractAddress env.lib msg recipient recipientAddressHeaders)
    with
  | mk m1 e1 =>
    rw [hfrom] at h hf
    cases e1 with
    | some err => simp at h
    | none =>
      simp only at h hf
      have ht := to_genHeader m1 env.lib [extractAddress env.lib msg sender ["From"]]
      cases hto : m1.To env.lib [extractAddress env.lib msg sender ["From"]] with
      | mk m2 e2 =>
        rw [hto] at h ht
        cases e2 with
        | some err => simp at h
        | none =>
          simp only at h ht
          have h2 : m2.genHeader = [] := by rw [ht, hf]; rfl
          refine ⟨m2, h2, ?_⟩
          cases hg : b.replygenerator with
          | none =>
            rw [hg] at h
            simp only [Prod.mk.injEq, Option.some.injEq, and_true] at h
            exact Or.inl ⟨rfl, h.symm⟩
          | some g =>
            rw [hg] at h
            exact Or.inr ⟨g, rfl, h⟩

/-- C5: when a per-message veto applies (the message is auto-submitted, the sender is not
permitted, or one of the six list headers has a non-empty value), `handleMail` returns nil
and leaves the world as it is: no `Ratelimit`, no reply generation, no status, the state of
the rate limiter unchanged.  For a recipient that is not among the addresses of the
recipient headers, `handleMailSingle` returns nil, and all it does is print a log line. -/
theorem veto_has_no_effect {σ : Type} (b : backend σ) (env : Env) (msg : Message)
    (sender : String) (recipient : List (String × String)) (w : World σ) :
    ((isAutoSubmitted msg = true ∨ isPermittedSender sender = false ∨
        ∃ h ∈ ["List-Help", "List-Unsubscribe", "List-Subscribe", "List-Post", "List-Owner",
          "List-Archive"], msg.Header.Get h ≠ "") →
      handleMail b env msg sender recipient w = (none, w)) ∧
    (∀ rcptreal, isMessageAddressedTo env.lib msg rcptreal = false →
      handleMailSingle b env msg sender rcptreal w =
        (none, { rl := w.rl, log := w.log ++ [.printf ("Not generating reply for message <" ++
          sender ++ "> -> <" ++ rcptreal ++ ">: not addressed to us")] })) := by
  constructor
  · rintro (h | h | ⟨hd, hmem, hne⟩)
    · simp [handleMail, h]
    · simp [handleMail, h]
    · have hr : isResponseAppropriate msg = false := by
        simp only [isResponseAppropriate, Bool.not_eq_false', List.any_eq_true]
        exact ⟨hd, hmem, by simpa using hne⟩
      unfold handleMail
      split_ifs <;> simp_all
  · intro rcptreal h
    simp [handleMailSingle, h, World.emit]

/-- Witness for C5: a message with a `List-Unsubscribe` header, and a recipient the message
is not addressed to. -/
theorem veto_has_no_effect_witness :
    handleMail demoBackend demoEnv
        { Header := { fields := [("To", ["bob@y.com"]), ("List-Unsubscribe", ["<u@l.org>"])] } }
        "alice@x.com" [("bob#y.com@autoreply.example", "bob@y.com")] { rl := (), log := [] } =
      (none, { rl := (), log := [] }) ∧
    handleMailSingle demoBackend demoEnv demoMessage "alice@x.com" "carol@z.org"
        { rl := (), log := [] } =
      (none, { rl := (), log := [] ++ [.printf ("Not generating reply for message <" ++
        "alice@x.com" ++ "> -> <" ++ "carol@z.org" ++ ">: not addressed to us")] }) :=
  ⟨(veto_has_no_effect demoBackend demoEnv _ "alice@x.com" _ _).1
      (Or.inr (Or.inr ⟨"List-Unsubscribe", by decide, by decide⟩)),
   (veto_has_no_effect demoBackend demoEnv demoMessage "alice@x.com" [] _).2 "carol@z.org"
      (by decide)⟩

theorem getGenHeader_set_ne (m : Msg) (k k1 : String) (vs : List String) (h : k1 ≠ k) :
    (m.SetGenHeader k vs).GetGenHeader k1 = m.GetGenHeader k1 := by
  simp only [Msg.GetGenHeader, Msg.SetGenHeader, lookup_assocSet, if_neg h]

theorem getGenHeader_setBody (m : Msg) (a b k : String) :
    (m.SetBodyString a b).GetGenHeader k = m.GetGenHeader k := rfl

theorem asInbound_setBody (m : Msg) (a b : String) :
    (m.SetBodyString a b).asInbound = m.asInbound := rfl

/-- The postfixadmin generator leaves the two loop-suppression headers of the skeleton as
they are. -/
theorem postfixadmin_keeps_headers (query : String → QueryResult) (msg : Message)
    (sender recipient : String) (skel m1 : Msg)
    (h : postfixadminvacation.GenerateReplyBody query msg sender recipient skel =
      (some m1, none)) :
    m1.GetGenHeader autoSubmittedHeader = skel.GetGenHeader autoSubmittedHeader ∧
      m1.GetGenHeader xAutoResponseSuppressHeader =
        skel.GetGenHeader xAutoResponseSuppressHeader := by
  unfold postfixadminvacation.GenerateReplyBody at h
  cases hq : query recipient with
  | errNoRows => rw [hq] at h; simp at h
  | failure err => rw [hq] at h; simp at h
  | row subject body =>
    rw [hq] at h
    simp only [Prod.mk.injEq, Option.some.injEq, and_true] at h
    subst h
    have h1 : autoSubmittedHeader ≠ "Subject" := by decide
    have h2 : xAutoResponseSuppressHeader ≠ "Subject" := by decide
    constructor <;> split_ifs <;>
      simp [Msg.SetBodyString, Msg.Subject, Msg.GetGenHeader, Msg.SetGenHeader,
        lookup_assocSet, h1, h2]

/-- C6 (as amended): a reply that `GenerateReply` returns without error carries
`Auto-Submitted: auto-replied` and `X-Auto-Response-Suppress: All` when no generator is
configured, and when the configured generator returns its reply with these two headers as
the skeleton has them (as the postfixadmin generator does). -/
theorem generateReply_loop_headers {σ : Type} (b : backend σ) (env : Env)
    (sender recipient : String) (msg : Message) (m : Msg)
    (hgen : ∀ g, b.replygenerator = some g → ∀ skel m1,
      g msg sender recipient skel = (some m1, none) →
        m1.GetGenHeader autoSubmittedHeader = skel.GetGenHeader autoSubmittedHeader ∧
        m1.GetGenHeader xAutoResponseSuppressHeader =
          skel.GetGenHeader xAutoResponseSuppressHeader)
    (hret : GenerateReply b env sender recipient msg = (some m, none)) :
    m.GetGenHeader "Auto-Submitted" = ["auto-replied"] ∧
      m.GetGenHeader "X-Auto-Response-Suppress" = ["All"] := by
  obtain ⟨m0, h0, hcase⟩ := generateReply_ok b env sender recipient msg m hret
  have hs := skeleton_get env msg m0 h0
  rcases hcase with ⟨_, rfl⟩ | ⟨g, hg, hgm⟩
  · rw [getGenHeader_setBody, getGenHeader_setBody]
    exact hs
  · have := hgen g hg _ m hgm
    exact ⟨this.1.trans hs.1, this.2.trans hs.2⟩

/-- Witness for C6: the postfixadmin generator with an active vacation record. -/
theorem generateReply_loop_headers_witness :
    GenerateReply (demoBackendWith (postfixadminvacation.GenerateReplyBody
        (fun _ => .row "Away" "I am away"))) demoEnv "alice@x.com" "bob@y.com" demoMessage =
      (some demoVacationReply, none) ∧
    demoVacationReply.GetGenHeader "Auto-Submitted" = ["auto-replied"] ∧
    demoVacationReply.GetGenHeader "X-Auto-Response-Suppress" = ["All"] :=
  ⟨by decide,
   generateReply_loop_headers (demoBackendWith (postfixadminvacation.GenerateReplyBody
        (fun _ => .row "Away" "I am away"))) demoEnv "alice@x.com" "bob@y.com" demoMessage
     demoVacationReply
     (fun g hg skel m1 hm => by
       have hg1 : g = postfixadminvacation.GenerateReplyBody (fun _ => .row "Away" "I am away") :=
         (Option.some.inj hg).symm
       subst hg1
       exact postfixadmin_keeps_headers _ demoMessage "alice@x.com" "bob@y.com" skel m1 hm)
     (by decide)⟩

/-- Counterexample to C6 as stated: a generator that answers with a message of its own makes
`GenerateReply` return, without error, a reply that carries neither header. -/
theorem generateReply_headers_lost :
    GenerateReply (demoBackendWith (fun _ _ _ _ => (some NewMsg, none))) demoEnv "alice@x.com"
        "bob@y.com" demoMessage = (some NewMsg, none) ∧
    NewMsg.GetGenHeader "Auto-Submitted" = [] ∧
    NewMsg.GetGenHeader "X-Auto-Response-Suppress" = [] := by
  refine ⟨by decide, by decide, by decide⟩

/-- C7: when no generator is configured, or the generator returns its reply with the
`Auto-Submitted` and `X-Auto-Response-Suppress` headers of the skeleton as a receiving server
reads them, the reply that `GenerateReply` returns, read as an inbound message, is
auto-submitted, and `handleMail` applied to it returns nil and leaves the world as it is: no
`Ratelimit`, no reply generation, no status. -/
theorem own_reply_is_vetoed {σ τ : Type} (b : backend σ) (env : Env)
    (sender recipient : String) (msg : Message) (m : Msg) (b2 : backend τ) (env2 : Env)
    (sender2 : String) (recipient2 : List (String × String)) (w : World τ)
    (hgen : ∀ g, b.replygenerator = some g → ∀ skel m1,
      g msg sender recipient skel = (some m1, none) →
        m1.asInbound.Header.Get autoSubmittedHeader =
          skel.asInbound.Header.Get autoSubmittedHeader ∧
        m1.asInbound.Header.Get xAutoResponseSuppressHeader =
          skel.asInbound.Header.Get xAutoResponseSuppressHeader)
    (hret : GenerateReply b env sender recipient msg = (some m, none)) :
    isAutoSubmitted m.asInbound = true ∧
      handleMail b2 env2 m.asInbound sender2 recipient2 w = (none, w) := by
  obtain ⟨m0, h0, hcase⟩ := generateReply_ok b env sender recipient msg m hret
  have hs := skeleton_inbound env msg m0 h0
  have hget : m.asInbound.Header.Get autoSubmittedHeader = autoSubmittedHeaderAutoReplied := by
    rcases hcase with ⟨_, rfl⟩ | ⟨g, hg, hgm⟩
    · rw [asInbound_setBody]
      exact hs.1
    · exact (hgen g hg _ m hgm).1.trans hs.1
  have hauto : isAutoSubmitted m.asInbound = true := by
    simp [isAutoSubmitted, hget, autoSubmittedHeaderAutoReplied, autoSubmittedHeaderNo]
  exact ⟨hauto, by simp [handleMail, hauto]⟩

/-- Witness for C7: the reply built without a generator, delivered back to the responder. -/
theorem own_reply_is_vetoed_witness :
    GenerateReply demoBackend demoEnv "alice@x.com" "bob@y.com" demoMessage =
      (some demoReply, none) ∧
    isAutoSubmitted demoReply.asInbound = true ∧
    handleMail demoBackend demoEnv demoReply.asInbound "bob@y.com"
      [("alice#x.com@autoreply.example", "alice@x.com")] { rl := (), log := [] } =
      (none, { rl := (), log := [] }) :=
  ⟨by decide,
   own_reply_is_vetoed demoBackend demoEnv "alice@x.com" "bob@y.com" demoMessage demoReply
     demoBackend demoEnv "bob@y.com" [("alice#x.com@autoreply.example", "alice@x.com")]
     { rl := (), log := [] }
     (fun g hg => by simp [demoBackend] at hg)
     (by decide)⟩

/-! ## Key derivation and the sender check -/

theorem mapKey_eq_keyString (sum256 : String → String) (frm tgt : String) :
    mapKey sum256 frm tgt = sum256 (keyString frm tgt) := rfl

theorem keyString_data (frm tgt : String) :
    (keyString frm tgt).data = frm.data ++ '@' :: '@' :: tgt.data := by
  simp [keyString, String.data_append]

theorem mem_run_fromRe (i : Nat) (t : List Char) (sf : MState) :
    sf ∈ fromRe.run { pos := i, rest := t, caps := [] } ↔
      i = 0 ∧ ∃ x y, t = x ++ '@' :: y ∧ x ≠ [] ∧ '@' ∉ x ∧ y ≠ [] ∧ '@' ∉ y ∧
        sf = { pos := t.length, rest := [], caps := [] } := by
  rw [fromRe, mem_run_bol_cat]
  simp only [run_cat, List.mem_flatMap, mem_run_plus_notChar, mem_run_lit, mem_run_eol]
  constructor
  · rintro ⟨hi, s1, ⟨x, v1, h1, hx, hcx, rfl⟩, s2, ⟨v2, h2, rfl⟩, s3, ⟨y, v3, h3, hy, hcy, rfl⟩,
      h4, rfl⟩
    simp only at hi h1 h2 h3 h4
    subst h4
    subst hi
    simp only [List.append_nil] at h3
    subst h3 h2 h1
    refine ⟨rfl, x, v2, rfl, hx, hcx, hy, hcy, ?_⟩
    simp only [MState.mk.injEq, and_true, List.length_append, List.length_cons]
    omega
  · rintro ⟨hi, x, y, ht, hx, hcx, hy, hcy, rfl⟩
    subst hi
    refine ⟨rfl, _, ⟨x, _, ht, hx, hcx, rfl⟩, _, ⟨_, rfl, rfl⟩, _, ⟨y, [], by simp, hy, hcy, rfl⟩,
      rfl, ?_⟩
    simp only [MState.mk.injEq, and_true, ht, List.length_append, List.length_cons]
    omega

theorem fromRe_match_iff (frm : String) :
    fromRe.MatchString frm = true ↔
      ∃ x y, frm.data = x ++ '@' :: y ∧ x ≠ [] ∧ '@' ∉ x ∧ y ≠ [] ∧ '@' ∉ y := by
  rw [matchString_iff]
  constructor
  · rintro ⟨i, _, hne⟩
    obtain ⟨sf, hsf⟩ := List.exists_mem_of_ne_nil _ hne
    obtain ⟨hi, x, y, ht, hx, hcx, hy, hcy, _⟩ := (mem_run_fromRe i _ sf).1 hsf
    subst hi
    rw [List.drop_zero] at ht
    exact ⟨x, y, ht, hx, hcx, hy, hcy⟩
  · rintro ⟨x, y, ht, hx, hcx, hy, hcy⟩
    refine ⟨0, Nat.zero_le _, ?_⟩
    rw [List.drop_zero]
    exact List.ne_nil_of_mem ((mem_run_fromRe 0 _ _).2 ⟨rfl, x, y, ht, hx, hcx, hy, hcy, rfl⟩)

theorem fromRe_match_iff_string (frm : String) :
    fromRe.MatchString frm = true ↔
      ∃ x y : String, frm = x ++ "@" ++ y ∧ x ≠ "" ∧ '@' ∉ x.data ∧ y ≠ "" ∧ '@' ∉ y.data := by
  rw [fromRe_match_iff]
  constructor
  · rintro ⟨x, y, ht, hx, hcx, hy, hcy⟩
    refine ⟨⟨x⟩, ⟨y⟩, ?_, ?_, hcx, ?_, hcy⟩
    · apply String.ext
      simp [String.data_append, ht]
    · intro he; exact hx (congrArg String.data he)
    · intro he; exact hy (congrArg String.data he)
  · rintro ⟨x, y, ht, hx, hcx, hy, hcy⟩
    refine ⟨x.data, y.data, ?_, data_ne_nil_of_ne_empty x hx, hcx,
      data_ne_nil_of_ne_empty y hy, hcy⟩
    subst ht
    simp [String.data_append]

/-- C11 (as amended): when neither `from` nor `from'` contains two `@` in a row or ends in
`@`, equal strings `from ++ "@@" ++ to` and `from' ++ "@@" ++ to'` come from equal pairs. -/
theorem keyString_injective_of_clean (frm tgt frm1 tgt1 : String)
    (h1 : ¬ "@@".data <:+: frm.data) (h2 : ¬ "@".data <:+ frm.data)
    (h3 : ¬ "@@".data <:+: frm1.data) (h4 : ¬ "@".data <:+ frm1.data)
    (h : keyString frm tgt = keyString frm1 tgt1) : frm = frm1 ∧ tgt = tgt1 := by
  have hd := congrArg String.data h
  rw [keyString_data, keyString_data] at hd
  have key : ∀ (u u1 v v1 : List Char), ¬ ['@', '@'] <:+: u1 → ¬ ['@'] <:+ u1 →
      u ++ '@' :: '@' :: v = u1 ++ '@' :: '@' :: v1 →
      ∀ a, u1 = u ++ a → '@' :: '@' :: v = a ++ '@' :: '@' :: v1 → a = [] := by
    intro u u1 v v1 hi hs _ a hu ha
    cases a with
    | nil => rfl
    | cons c a1 =>
      exfalso
      simp only [List.cons_append, List.cons.injEq] at ha
      obtain ⟨rfl, ha⟩ := ha
      cases a1 with
      | nil => exact hs ⟨u, hu.symm⟩
      | cons c1 a2 =>
        simp only [List.cons_append, List.cons.injEq] at ha
        obtain ⟨rfl, _⟩ := ha
        exact hi ⟨u, a2, by rw [hu]; simp⟩
  rcases List.append_eq_append_iff.1 hd with ⟨a, hu, ha⟩ | ⟨a, hu, ha⟩
  · have := key frm.data frm1.data tgt.data tgt1.data h3 h4 hd a hu ha
    subst this
    simp only [List.append_nil, List.nil_append, List.cons.injEq, true_and] at hu ha
    exact ⟨String.ext hu.symm, String.ext ha⟩
  · have := key frm1.data frm.data tgt1.data tgt.data h1 h2 hd.symm a hu ha
    subst this
    simp only [List.append_nil, List.nil_append, List.cons.injEq, true_and] at hu ha
    exact ⟨String.ext hu, String.ext ha.symm⟩

/-- Witness for C11: the two pairs of the spec's example give different strings. -/
theorem keyString_injective_of_clean_witness :
    keyString "bob@y.com" "alice@x.com" = keyString "bob@y.com" "alice@x.com" ∧
    ("bob@y.com" = "bob@y.com" ∧ "alice@x.com" = "alice@x.com") :=
  ⟨rfl, keyString_injective_of_clean "bob@y.com" "alice@x.com" "bob@y.com" "alice@x.com"
    (by decide) (by decide) (by decide) (by decide) rfl⟩

/-- Counterexample to C11 as stated: the pairs `("a@", "b")` and `("a", "@b")` differ and
are digested from the same string `a@@@b`. -/
theorem keyString_alias :
    keyString "a@" "b" = keyString "a" "@b" ∧ ¬ ("a@" = "a" ∧ "b" = "@b") := by
  refine ⟨by decide, by decide⟩

theorem count_at_of_shape (f x y : List Char) (hf : f = x ++ '@' :: y) (hx : '@' ∉ x)
    (hy : '@' ∉ y) : f.count '@' = 1 := by
  subst hf
  simp [List.count_append, List.count_eq_zero_of_not_mem hx, List.count_eq_zero_of_not_mem hy]

/-- C19: for all recipient addresses `r`, `r'` and all non-empty senders `f`, `f'` that pass
the shape check of `Mail` (one `@`, non-empty on both sides), equal strings
`r ++ "@@" ++ f` and `r' ++ "@@" ++ f'` come from equal pairs. -/
theorem keyString_injective_on_senders (r f r1 f1 : String)
    (hf : fromRe.MatchString f = true) (hf1 : fromRe.MatchString f1 = true)
    (h : keyString r f = keyString r1 f1) : r = r1 ∧ f = f1 := by
  have hd := congrArg String.data h
  rw [keyString_data, keyString_data] at hd
  obtain ⟨x, y, hxy, _, hcx, _, hcy⟩ := (fromRe_match_iff f).1 hf
  obtain ⟨x1, y1, hxy1, _, hcx1, _, hcy1⟩ := (fromRe_match_iff f1).1 hf1
  have hc := count_at_of_shape f.data x y hxy hcx hcy
  have hc1 := count_at_of_shape f1.data x1 y1 hxy1 hcx1 hcy1
  have key : ∀ (v v1 : List Char), v.count '@' = 1 → v1.count '@' = 1 →
      ∀ a, '@' :: '@' :: v = a ++ '@' :: '@' :: v1 → a = [] := by
    intro v v1 hv hv1 a ha
    cases a with
    | nil => rfl
    | cons c a1 =>
      exfalso
      have := congrArg (List.count '@') ha
      simp only [List.cons_append, List.cons.injEq] at ha
      obtain ⟨rfl, _⟩ := ha
      simp [List.count_append, List.count_cons, hv, hv1] at this
  rcases List.append_eq_append_iff.1 hd with ⟨a, hu, ha⟩ | ⟨a, hu, ha⟩
  · have := key f.data f1.data hc hc1 a ha
    subst this
    simp only [List.append_nil, List.nil_append, List.cons.injEq, true_and] at hu ha
    exact ⟨String.ext hu.symm, String.ext ha⟩
  · have := key f1.data f.data hc1 hc a ha
    subst this
    simp only [List.append_nil, List.nil_append, List.cons.injEq, true_and] at hu ha
    exact ⟨String.ext hu, String.ext ha.symm⟩

/-- Witness for C19: two senders that pass the check of `Mail`. -/
theorem keyString_injective_on_senders_witness :
    fromRe.MatchString "alice@x.com" = true ∧
    keyString "bob@y.com" "alice@x.com" = keyString "bob@y.com" "alice@x.com" ∧
    ("bob@y.com" = "bob@y.com" ∧ "alice@x.com" = "alice@x.com") :=
  ⟨by decide, rfl,
   keyString_injective_on_senders "bob@y.com" "alice@x.com" "bob@y.com" "alice@x.com"
     (by decide) (by decide) rfl⟩

/-- C14: `Mail` succeeds exactly when the sender is empty or has one `@` with a non-empty
part before and after it; on success the sender of the session becomes the string and the
recipient mapping is unchanged; on failure `errInvalidFrom` is returned and the session is
unchanged. -/
theorem mail_contract (s : session) (frm : String) :
    ((s.Mail frm).2 = none ↔
      frm = "" ∨ ∃ x y : String, frm = x ++ "@" ++ y ∧ x ≠ "" ∧ '@' ∉ x.data ∧ y ≠ "" ∧
        '@' ∉ y.data) ∧
    ((s.Mail frm).2 = none →
      (s.Mail frm).1.frm = frm ∧ (s.Mail frm).1.rcptreal = s.rcptreal ∧
        (s.Mail frm).1.msg = s.msg) ∧
    ((s.Mail frm).2 ≠ none → (s.Mail frm).2 = some .errInvalidFrom ∧ (s.Mail frm).1 = s) := by
  rw [← fromRe_match_iff_string]
  by_cases he : frm = ""
  · subst he
    simp [session.Mail]
  · by_cases hm : fromRe.MatchString frm = true
    · simp [session.Mail, he, hm]
    · simp [session.Mail, he, hm]

/-! ## Threading headers of the reply -/

theorem skeleton_threading (env : Env) (msg : Message) (m0 : Msg) (h0 : m0.genHeader = []) :
    (replySkeleton env msg m0).genHeader.lookup "In-Reply-To" =
        (specInReplyTo msg).map (fun v => [v]) ∧
      (replySkeleton env msg m0).genHeader.lookup "References" =
        (specReferences msg).map (fun v => [v]) := by
  rw [skeleton_genHeader env msg m0 h0]
  simp only [specInReplyTo, specReferences, specPriorReferences, referencesHeader,
    autoSubmittedHeader, xAutoResponseSuppressHeader]
  constructor
  · by_cases hM : msg.Header.Get "Message-ID" = ""
    · split_ifs <;> simp_all [List.lookup]
    · split_ifs <;> simp_all [List.lookup]
  · by_cases hM : msg.Header.Get "Message-ID" = ""
    · by_cases hR : msg.Header.Get "References" = ""
      · by_cases hI : msg.Header.Get "In-Reply-To" = ""
        · simp [hM, hR, hI, List.lookup]
        · simp [hM, hR, hI, List.lookup]
      · simp [hM, hR, List.lookup]
    · by_cases hR : msg.Header.Get "References" = ""
      · by_cases hI : msg.Header.Get "In-Reply-To" = ""
        · simp [hM, hR, hI, List.lookup]
        · simp [hM, hR, hI, List.lookup]
      · simp [hM, hR, List.lookup]

/-- C13: the skeleton that `GenerateReply` builds (the reply itself when no generator is
configured, the message handed to the generator otherwise) has In-Reply-To set to the
Message-ID `M` of the original exactly when `M` is non-empty, and References set to the
space-separated join of the non-empty items of `[P, M]`, where `P` is the References value
of the original if that is non-empty and its In-Reply-To value otherwise; References is
omitted exactly when `P` and `M` are both empty. -/
theorem reply_threading {σ : Type} (b : backend σ) (env : Env) (sender recipient : String)
    (msg : Message) (m : Msg) (hret : GenerateReply b env sender recipient msg = (some m, none)) :
    ∃ skel : Msg,
      ((b.replygenerator = none ∧ m.genHeader = skel.genHeader) ∨
        (∃ g, b.replygenerator = some g ∧ g msg sender recipient skel = (some m, none))) ∧
      skel.genHeader.lookup "In-Reply-To" =
        (if msg.Header.Get "Message-ID" ≠ "" then some [msg.Header.Get "Message-ID"]
          else none) ∧
      skel.genHeader.lookup "References" =
        (if specPriorReferences msg = "" ∧ msg.Header.Get "Message-ID" = "" then none
          else some [" ".intercalate ([specPriorReferences msg,
            msg.Header.Get "Message-ID"].filter (fun v => v ≠ ""))]) := by
  obtain ⟨m0, h0, hcase⟩ := generateReply_ok b env sender recipient msg m hret
  have hs := skeleton_threading env msg m0 h0
  refine ⟨replySkeleton env msg m0, ?_, ?_, ?_⟩
  · rcases hcase with ⟨hb, rfl⟩ | ⟨g, hg, hgm⟩
    · exact Or.inl ⟨hb, rfl⟩
    · exact Or.inr ⟨g, hg, hgm⟩
  · rw [hs.1, specInReplyTo]
    split_ifs <;> rfl
  · rw [hs.2, specReferences]
    split_ifs <;> rfl

/-- Witness for C13: the original has the Message-ID `<m1@x.com>` and no References or
In-Reply-To; the reply has both headers set to `<m1@x.com>`. -/
theorem reply_threading_witness :
    GenerateReply demoBackend demoEnv "alice@x.com" "bob@y.com" demoMessage =
      (some demoReply, none) ∧
    demoReply.genHeader.lookup "In-Reply-To" = some ["<m1@x.com>"] ∧
    demoReply.genHeader.lookup "References" = some ["<m1@x.com>"] ∧
    ∃ skel : Msg,
      ((demoBackend.replygenerator = none ∧ demoReply.genHeader = skel.genHeader) ∨
        (∃ g, demoBackend.replygenerator = some g ∧
          g demoMessage "alice@x.com" "bob@y.com" skel = (some demoReply, none))) ∧
      skel.genHeader.lookup "In-Reply-To" =
        (if demoMessage.Header.Get "Message-ID" ≠ "" then
          some [demoMessage.Header.Get "Message-ID"] else none) ∧
      skel.genHeader.lookup "References" =
        (if specPriorReferences demoMessage = "" ∧ demoMessage.Header.Get "Message-ID" = ""
          then none
          else some [" ".intercalate ([specPriorReferences demoMessage,
            demoMessage.Header.Get "Message-ID"].filter (fun v => v ≠ ""))]) :=
  ⟨by decide, by decide, by decide,
   reply_threading demoBackend demoEnv "alice@x.com" "bob@y.com" demoMessage demoReply
     (by decide)⟩

/-! ## The recipient loop of `handleMail` -/

theorem statusesOf_append (l1 l2 : List Effect) :
    statusesOf (l1 ++ l2) = statusesOf l1 ++ statusesOf l2 := by
  induction l1 with
  | nil => rfl
  | cons e es ih => cases e <;> simp [statusesOf, ih]

/-- `handleMailSingle` only appends to the log: its outcome and its effects do not depend
on the log so far. -/
theorem handleMailSingle_log {σ : Type} (b : backend σ) (env : Env) (msg : Message)
    (sender rcptreal : String) (w : World σ) :
    handleMailSingle b env msg sender rcptreal w =
      ((handleMailSingle b env msg sender rcptreal { rl := w.rl, log := [] }).1,
        { rl := (handleMailSingle b env msg sender rcptreal { rl := w.rl, log := [] }).2.rl,
          log := w.log ++
            (handleMailSingle b env msg sender rcptreal { rl := w.rl, log := [] }).2.log }) := by
  unfold handleMailSingle
  simp only [World.emit]
  split_ifs
  · simp
  · simp
  · split
    · simp
    · simp
    · split <;> simp

theorem handleMailSingle_no_status {σ : Type} (b : backend σ) (env : Env) (msg : Message)
    (sender rcptreal : String) (rl : σ) :
    statusesOf (handleMailSingle b env msg sender rcptreal { rl := rl, log := [] }).2.log = [] := by
  unfold handleMailSingle
  simp only [World.emit]
  split_ifs
  · simp [statusesOf]
  · simp [statusesOf]
  · split
    · simp [statusesOf]
    · simp [statusesOf]
    · split <;> simp [statusesOf]

theorem handleMailLoop_log {σ : Type} (b : backend σ) (env : Env) (msg : Message)
    (sender : String) (entries : List (String × String)) :
    ∀ w : World σ, (handleMailLoop b env msg sender entries w).log =
      w.log ++ loopTrace b env msg sender entries w.rl := by
  induction entries with
  | nil => intro w; simp [handleMailLoop, loopTrace]
  | cons e rest ih =>
    intro w
    obtain ⟨rcpt, rcptreal⟩ := e
    have hs := handleMailSingle_log b env msg sender rcptreal w
    simp only [handleMailLoop, loopTrace]
    rw [ih]
    rw [hs]
    simp [World.emit]

theorem statusesOf_loopTrace {σ : Type} (b : backend σ) (env : Env) (msg : Message)
    (sender : String) (entries : List (String × String)) :
    ∀ rl : σ, statusesOf (loopTrace b env msg sender entries rl) =
      loopOutcomes b env msg sender entries rl := by
  induction entries with
  | nil => intro rl; rfl
  | cons e rest ih =>
    intro rl
    obtain ⟨rcpt, rcptreal⟩ := e
    simp only [loopTrace, loopOutcomes, statusesOf_append, handleMailSingle_no_status, ih,
      statusesOf, List.nil_append, List.cons_append]

theorem loopOutcomes_tags {σ : Type} (b : backend σ) (env : Env) (msg : Message)
    (sender : String) (entries : List (String × String)) :
    ∀ rl : σ, (loopOutcomes b env msg sender entries rl).map Prod.fst =
      entries.map Prod.fst := by
  induction entries with
  | nil => intro rl; rfl
  | cons e rest ih =>
    intro rl
    obtain ⟨rcpt, rcptreal⟩ := e
    simp only [loopOutcomes, List.map_cons, ih]

theorem handleMail_no_veto {σ : Type} (b : backend σ) (env : Env) (msg : Message)
    (sender : String) (recipient : List (String × String)) (w : World σ)
    (hauto : isAutoSubmitted msg = false) (hsender : isPermittedSender sender = true)
    (hlist : ∀ h ∈ ["List-Help", "List-Unsubscribe", "List-Subscribe", "List-Post",
      "List-Owner", "List-Archive"], msg.Header.Get h = "") :
    handleMail b env msg sender recipient w =
      (none, handleMailLoop b env msg sender (env.rangeOrder recipient) w) := by
  have hr : isResponseAppropriate msg = true := by
    simp only [isResponseAppropriate, Bool.not_eq_true', List.any_eq_false, listHeaders]
    intro h hmem
    simp [hlist h hmem]
  simp [handleMail, hauto, hsender, hr]


/-- C15: when no per-message veto applies, `handleMail` returns nil and reports
statuses as follows: the statuses set are, entry by entry of the recipient map,
the outcome of `handleMailSingle` for the real address of the entry (run one
after the other, errors included); every accepted tag gets exactly one status
and no other tag gets one. -/
theorem handleMail_statuses {σ : Type} (b : backend σ) (env : Env) (msg : Message)
    (sender : String) (recipient : List (String × String)) (w : World σ)
    (hauto : isAutoSubmitted msg = false) (hsender : isPermittedSender sender = true)
    (hlist : ∀ h ∈ ["List-Help", "List-Unsubscribe", "List-Subscribe", "List-Post",
      "List-Owner", "List-Archive"], msg.Header.Get h = "")
    (hperm : (env.rangeOrder recipient).Perm recipient)
    (hkeys : (recipient.map Prod.fst).Nodup) :
    (handleMail b env msg sender recipient w).1 = none ∧
    statusesOf (handleMail b env msg sender recipient w).2.log =
      statusesOf w.log ++ loopOutcomes b env msg sender (env.rangeOrder recipient) w.rl ∧
    (∀ tag ∈ recipient.map Prod.fst,
      ((loopOutcomes b env msg sender (env.rangeOrder recipient) w.rl).map Prod.fst).count tag
        = 1) ∧
    (∀ tag ∈ (loopOutcomes b env msg sender (env.rangeOrder recipient) w.rl).map Prod.fst,
      tag ∈ recipient.map Prod.fst) := by
  rw [handleMail_no_veto b env msg sender recipient w hauto hsender hlist]
  have hpk : ((env.rangeOrder recipient).map Prod.fst).Perm (recipient.map Prod.fst) :=
    hperm.map _
  refine ⟨rfl, ?_, ?_, ?_⟩
  · show statusesOf (handleMailLoop b env msg sender (env.rangeOrder recipient) w).log = _
    rw [handleMailLoop_log, statusesOf_append, statusesOf_loopTrace]
  · intro tag htag
    rw [loopOutcomes_tags, hpk.count_eq]
    exact List.count_eq_one_of_mem hkeys htag
  · intro tag htag
    rw [loopOutcomes_tags] at htag
    exact hpk.subset htag

theorem handleMail_statuses_witness :
    (handleMail demoBackend demoEnvFailing demoMessageTwo "alice@x.com" demoRecipients
      { rl := (), log := [] }).1 = none ∧
    statusesOf (handleMail demoBackend demoEnvFailing demoMessageTwo "alice@x.com"
      demoRecipients { rl := (), log := [] }).2.log =
      [("bob#y.com@autoreply.example", some (.other "connection refused")),
       ("carol#z.org@autoreply.example", none)] := by
  have h := handleMail_statuses demoBackend demoEnvFailing demoMessageTwo "alice@x.com"
    demoRecipients { rl := (), log := [] } (by decide) (by decide) (by decide)
    (List.Perm.refl _) (by decide)
  refine ⟨h.1, ?_⟩
  rw [h.2.1]
  decide

/-- C18 (as the code has it): when no per-message veto applies, `handleMail`
processes the entries of the recipient map one after the other in the order in
which `range` yields them: the effects are those of `handleMailSingle` and the
status of each entry in that order, which is a permutation of the accepted
entries. -/
theorem handleMail_order {σ : Type} (b : backend σ) (env : Env) (msg : Message)
    (sender : String) (recipient : List (String × String)) (w : World σ)
    (hauto : isAutoSubmitted msg = false) (hsender : isPermittedSender sender = true)
    (hlist : ∀ h ∈ ["List-Help", "List-Unsubscribe", "List-Subscribe", "List-Post",
      "List-Owner", "List-Archive"], msg.Header.Get h = "")
    (hperm : (env.rangeOrder recipient).Perm recipient) :
    (handleMail b env msg sender recipient w).2.log =
      w.log ++ loopTrace b env msg sender (env.rangeOrder recipient) w.rl ∧
    (statusesOf (loopTrace b env msg sender (env.rangeOrder recipient) w.rl)).map Prod.fst =
      (env.rangeOrder recipient).map Prod.fst ∧
    ((statusesOf (loopTrace b env msg sender (env.rangeOrder recipient) w.rl)).map
      Prod.fst).Perm (recipient.map Prod.fst) := by
  rw [handleMail_no_veto b env msg sender recipient w hauto hsender hlist]
  have htags : (statusesOf (loopTrace b env msg sender (env.rangeOrder recipient) w.rl)).map
      Prod.fst = (env.rangeOrder recipient).map Prod.fst := by
    rw [statusesOf_loopTrace, loopOutcomes_tags]
  refine ⟨?_, htags, ?_⟩
  · show (handleMailLoop b env msg sender (env.rangeOrder recipient) w).log = _
    rw [handleMailLoop_log]
  · rw [htags]
    exact hperm.map _

theorem handleMail_order_witness :
    (handleMail demoBackend demoEnv demoMessageTwo "alice@x.com" demoRecipients
      { rl := (), log := [] }).2.log =
      [] ++ loopTrace demoBackend demoEnv demoMessageTwo "alice@x.com"
        (demoEnv.rangeOrder demoRecipients) () ∧
    (statusesOf (loopTrace demoBackend demoEnv demoMessageTwo "alice@x.com"
      (demoEnv.rangeOrder demoRecipients) ())).map Prod.fst =
      ["bob#y.com@autoreply.example", "carol#z.org@autoreply.example"] :=
  ⟨(handleMail_order demoBackend demoEnv demoMessageTwo "alice@x.com" demoRecipients
      { rl := (), log := [] } (by decide) (by decide) (by decide) (List.Perm.refl _)).1,
   (handleMail_order demoBackend demoEnv demoMessageTwo "alice@x.com" demoRecipients
      { rl := (), log := [] } (by decide) (by decide) (by decide) (List.Perm.refl _)).2.1⟩

/-- C18 fails as stated: a session accepts `bob#y.com@autoreply.example` and then
`carol#z.org@autoreply.example`; `range` over the map yields the entries in an
order of its own (here the reverse), and `handleMail` asks the rate limiter
about `carol@z.org` first and reports the status of carol before that of bob. -/
theorem handleMail_order_not_acceptance :
    ((NewSession.Rcpt demoBackend "bob#y.com@autoreply.example").1.Rcpt demoBackend
      "carol#z.org@autoreply.example").1.rcptreal = demoRecipients ∧
    (statusesOf (handleMail demoBackend demoEnvReversed demoMessageTwo "alice@x.com"
      demoRecipients { rl := (), log := [] }).2.log).map Prod.fst =
      ["carol#z.org@autoreply.example", "bob#y.com@autoreply.example"] ∧
    (handleMail demoBackend demoEnvReversed demoMessageTwo "alice@x.com"
      demoRecipients { rl := (), log := [] }).2.log.head? =
      some (.ratelimit "carol@z.org" "alice@x.com" true) := by
  decide

/-! ## A generator that returns nothing still has the pair registered -/

theorem seqStep_tracked (sum256 : String → String) (s : RunState) (frm tgt : String)
    (now : Int) (h : mapKey sum256 frm tgt ∈ s.r.track) :
    seqStep sum256 s (.ratelimit frm tgt now) = .ok (s, some false) := by
  simp [seqStep, Ratelimit, h]

theorem seqRun_keeps_window (sum256 : String → String) (K : String) (W : Int)
    (es : List Call) (s s1 : RunState) (c : Int) (os : List (Option Bool))
    (inv : RunInv s c) (hK : (K, W) ∈ entries s.r)
    (hclock : (c :: es.map Call.time).Pairwise (fun a b => a ≤ b))
    (hwin : ∀ ev ∈ es, ev.time ≤ W) (hrun : seqRun sum256 s es = .ok (s1, os)) :
    K ∈ s1.r.track := by
  obtain ⟨c1, inv1, hP, _, _⟩ := seqRun_invariant sum256 (fun s _ => (K, W) ∈ entries s.r)
    (fun ev => ev.time ≤ W)
    (fun s c ev s1 o inv hP hc hA hstep => step_window sum256 K W s s1 c ev o inv hP hc hA hstep)
    es s s1 c os inv hK hclock hwin hrun
  exact (mem_track_iff inv1.good K).2 ⟨W, hP⟩

/-- C16 (as amended): in a sequential execution, in which the owner loop has run
`add` for the key handed off before the limiter is asked again (`seqLimiter`),
a delivery for a recipient the message is addressed to, with the key of
(recipient, sender) not tracked, for which `GenerateReply` returns nil, nil
(the generator found nothing): `handleMailSingle` returns nil after asking the
limiter (which permits), calling the generator and logging "empty response";
nothing is sent.  The key of the pair is tracked afterwards, and after any
steps of the limiter that happen within the window, the same delivery is
logged as rate-limited and returns nil without a call of the generator. -/
theorem generator_none_registers (sum256 : String → String) (b : backend SeqState) (env : Env)
    (msg : Message) (sender recipient : String) (w : World SeqState) (c : Int)
    (mid : List Call) (s2 : RunState) (o2 : List (Option Bool)) (t1 : Int)
    (log2 : List Effect)
    (hb : b.ratelimiter = seqLimiter sum256)
    (inv : RunInv w.rl.run c) (hc : c ≤ w.rl.now)
    (haddr : isMessageAddressedTo env.lib msg recipient = true)
    (hfresh : mapKey sum256 recipient sender ∉ w.rl.run.r.track)
    (hgen : GenerateReply b env sender recipient msg = (none, none))
    (hmid : seqRun sum256 (handleMailSingle b env msg sender recipient w).2.rl.run mid =
      .ok (s2, o2))
    (hclock : (w.rl.now :: mid.map Call.time).Pairwise (fun a b => a ≤ b))
    (hwin : ∀ ev ∈ mid, ev.time ≤ w.rl.now + w.rl.run.r.d) :
    (handleMailSingle b env msg sender recipient w).1 = none ∧
    (handleMailSingle b env msg sender recipient w).2.log = w.log ++
      [.ratelimit recipient sender true, .generate sender recipient,
       .printf ("Not sending reply for message <" ++ sender ++ "> -> <" ++ recipient ++
         ">: empty response from replygenerator")] ∧
    mapKey sum256 recipient sender ∈
      (handleMailSingle b env msg sender recipient w).2.rl.run.r.track ∧
    handleMailSingle b env msg sender recipient { rl := { run := s2, now := t1 }, log := log2 } =
      (none, { rl := { run := s2, now := t1 },
               log := log2 ++ [.ratelimit recipient sender false,
                 .printf ("Not generating reply for message <" ++ sender ++ "> -> <" ++
                   recipient ++ ">: rate-limited")] }) := by
  obtain ⟨s1, hstep, inv1, _, hent⟩ :=
    seqStep_fresh sum256 w.rl.run c recipient sender w.rl.now inv hc hfresh
  have hrl : b.ratelimiter.Ratelimit w.rl recipient sender = (true, { w.rl with run := s1 }) := by
    rw [hb]; simp [seqLimiter, hstep]
  have hfirst : handleMailSingle b env msg sender recipient w =
      (none, { rl := { w.rl with run := s1 },
               log := w.log ++ [.ratelimit recipient sender true, .generate sender recipient,
                 .printf ("Not sending reply for message <" ++ sender ++ "> -> <" ++
                   recipient ++ ">: empty response from replygenerator")] }) := by
    simp [handleMailSingle, haddr, hrl, hgen, World.emit]
  have hreg : (mapKey sum256 recipient sender, w.rl.now + w.rl.run.r.d) ∈ entries s1.r := by
    rw [hent]; simp
  rw [hfirst] at hmid
  have hK2 : mapKey sum256 recipient sender ∈ s2.r.track :=
    seqRun_keeps_window sum256 _ _ mid s1 s2 w.rl.now o2 inv1 hreg hclock hwin hmid
  have hrl2 : b.ratelimiter.Ratelimit { run := s2, now := t1 } recipient sender =
      (false, { run := s2, now := t1 }) := by
    rw [hb]; simp [seqLimiter, seqStep_tracked sum256 s2 recipient sender t1 hK2]
  refine ⟨by rw [hfirst], by rw [hfirst], ?_, ?_⟩
  · rw [hfirst]
    exact (mem_track_iff inv1.good _).2 ⟨_, hreg⟩
  · simp [handleMailSingle, haddr, hrl2, World.emit]

theorem generator_none_registers_witness :
    (handleMailSingle demoSeqBackend demoEnv demoMessage "alice@x.com" "bob@y.com"
      { rl := { run := Run.init 86400, now := 0 }, log := [] }).2.log =
      [] ++ [.ratelimit "bob@y.com" "alice@x.com" true, .generate "alice@x.com" "bob@y.com",
       .printf ("Not sending reply for message <" ++ "alice@x.com" ++ "> -> <" ++ "bob@y.com" ++
         ">: empty response from replygenerator")] ∧
    handleMailSingle demoSeqBackend demoEnv demoMessage "alice@x.com" "bob@y.com"
      { rl := { run := demoRunLater, now := 3600 }, log := [] } =
      (none, { rl := { run := demoRunLater, now := 3600 },
               log := [] ++ [.ratelimit "bob@y.com" "alice@x.com" false,
                 .printf ("Not generating reply for message <" ++ "alice@x.com" ++ "> -> <" ++
                   "bob@y.com" ++ ">: rate-limited")] }) :=
  ⟨(generator_none_registers (fun x => x) demoSeqBackend demoEnv demoMessage "alice@x.com"
      "bob@y.com" { rl := { run := Run.init 86400, now := 0 }, log := [] } 0
      [.ratelimit "carol@z.org" "dave@w.net" 5, .tick 600] demoRunLater [some true, none] 3600 []
      rfl (runInv_init 86400 0) (by decide) (by decide) (by decide) (by decide) (by decide)
      (by decide) (by decide)).2.1,
   (generator_none_registers (fun x => x) demoSeqBackend demoEnv demoMessage "alice@x.com"
      "bob@y.com" { rl := { run := Run.init 86400, now := 0 }, log := [] } 0
      [.ratelimit "carol@z.org" "dave@w.net" 5, .tick 600] demoRunLater [some true, none] 3600 []
      rfl (runInv_init 86400 0) (by decide) (by decide) (by decide) (by decide) (by decide)
      (by decide) (by decide)).2.2.2⟩

/-! ## The timer case of `Run` on an arbitrary nil-terminated queue -/

theorem chainEnds_mono (heap : List expireelem) :
    ∀ (f : Nat) (p : Option Nat), chainEnds heap f p = true → chainEnds heap (f + 1) p = true := by
  intro f
  induction f with
  | zero =>
    intro p h
    cases p with
    | none => simp [chainEnds]
    | some q => simp [chainEnds] at h
  | succ f ih =>
    intro p h
    cases p with
    | none => simp [chainEnds]
    | some q =>
      rw [chainEnds] at h ⊢
      cases hget : heap[q]? with
      | none => rw [hget] at h; simp at h
      | some e =>
        rw [hget] at h
        exact ih _ h

theorem walk_succ_of_chainEnds (heap : List expireelem) :
    ∀ (f : Nat) (p : Option Nat), chainEnds heap f p = true →
      walk heap (f + 1) p = walk heap f p := by
  intro f
  induction f with
  | zero =>
    intro p h
    cases p with
    | none => simp [walk]
    | some q => simp [chainEnds] at h
  | succ f ih =>
    intro p h
    cases p with
    | none => simp [walk]
    | some q =>
      rw [chainEnds] at h
      rw [walk, walk]
      cases hget : heap[q]? with
      | none => rfl
      | some e =>
        rw [hget] at h
        simp only
        rw [ih _ h]

theorem chainEnds_some (heap : List expireelem) (L p : Nat)
    (hc : chainEnds heap L (some p) = true) : ∃ e, heap[p]? = some e := by
  cases L with
  | zero => simp [chainEnds] at hc
  | succ L =>
    rw [chainEnds] at hc
    cases hget : heap[p]? with
    | none => rw [hget] at hc; simp at hc
    | some e => exact ⟨e, rfl⟩

theorem walk_head (heap : List expireelem) (L p : Nat) (e : expireelem)
    (hget : heap[p]? = some e) (hc : chainEnds heap L (some p) = true) :
    walk heap L (some p) = (p, e) :: walk heap L e.next ∧ chainEnds heap L e.next = true := by
  cases L with
  | zero => simp [chainEnds] at hc
  | succ L =>
    rw [chainEnds, hget] at hc
    simp only at hc
    refine ⟨?_, chainEnds_mono heap L _ hc⟩
    rw [walk, hget]
    simp only
    rw [walk_succ_of_chainEnds heap L _ hc]

theorem walk_length_le (heap : List expireelem) :
    ∀ (f : Nat) (p : Option Nat), (walk heap f p).length ≤ f := by
  intro f
  induction f with
  | zero => intro p; simp [walk]
  | succ f ih =>
    intro p
    cases p with
    | none => simp [walk]
    | some q =>
      rw [walk]
      cases hget : heap[q]? with
      | none => simp
      | some e => simp only [List.length_cons]; exact Nat.succ_le_succ (ih _)

theorem queue_length_lt_fuel (r : ratelimiter) : (queue r).length < expireFuel r := by
  have := walk_length_le r.heap r.heap.length r.expirehead
  simp only [queue, List.length_map, expireFuel]
  omega

theorem dropWhile_eq_filter_of_sorted (n : Int) :
    ∀ l : List expireelem, (l.map expireelem.when).Pairwise (fun a b => a ≤ b) →
      l.dropWhile (fun e => decide (e.when < n)) = l.filter (fun e => decide (n ≤ e.when)) := by
  intro l
  induction l with
  | nil => intro _; rfl
  | cons x xs ih =>
    intro h
    rw [List.map_cons, List.pairwise_cons] at h
    by_cases hx : x.when < n
    · have hnx : ¬ n ≤ x.when := by omega
      simp only [List.dropWhile_cons, hx, decide_True, if_true, List.filter_cons, hnx,
        decide_False, Bool.false_eq_true, if_false]
      exact ih h.2
    · have hnx : n ≤ x.when := by omega
      simp only [List.dropWhile_cons, hx, decide_False, Bool.false_eq_true, if_false,
        List.filter_cons, hnx, decide_True, if_true]
      congr 1
      symm
      rw [List.filter_eq_self]
      intro y hy
      have := h.1 y.when (List.mem_map_of_mem _ hy)
      simp only [decide_eq_true_eq]
      omega

/-- The loop of the timer case on a nil-terminated queue whose keys are the
throttle set, each once: it ends, leaves the arena as it is, and drops the
entries at the head that expire before `n` from the queue and the set. -/
theorem expireLoop_chain (n : Int) :
    ∀ (fuel : Nat) (r : ratelimiter),
      chainEnds r.heap r.heap.length r.expirehead = true →
      (∀ k, k ∈ r.track ↔ k ∈ (queue r).map expireelem.key) →
      ((queue r).map expireelem.key).Nodup →
      (queue r).length < fuel →
      ∃ r1, expireLoop n fuel r = .ok r1 ∧ r1.d = r.d ∧ r1.heap = r.heap ∧
        chainEnds r1.heap r1.heap.length r1.expirehead = true ∧
        queue r1 = (queue r).dropWhile (fun e => decide (e.when < n)) ∧
        (∀ k, k ∈ r1.track ↔ k ∈ (queue r1).map expireelem.key) := by
  intro fuel
  induction fuel with
  | zero => intro r _ _ _ hl; omega
  | succ fuel ih =>
    intro r hc ht hn hl
    rw [expireLoop]
    cases hh : r.expirehead with
    | none =>
      have hq : queue r = [] := by simp [queue, hh, walk_none]
      refine ⟨r, rfl, rfl, rfl, hc, ?_, ht⟩
      rw [hq]; rfl
    | some p =>
      rw [hh] at hc
      obtain ⟨e, hget⟩ := chainEnds_some r.heap _ p hc
      obtain ⟨hw, hc1⟩ := walk_head r.heap _ p e hget hc
      have hq : queue r = e :: (walk r.heap r.heap.length e.next).map Prod.snd := by
        simp [queue, hh, hw]
      simp only [hget]
      by_cases hlt : e.when < n
      · have hpop : pop r = .ok { r with
            expirehead := e.next,
            expiretail := if e.next = none then none else r.expiretail,
            track := trackDelete r.track e.key } := by
          simp [pop, hh, hget]
        rw [if_pos hlt, hpop]
        simp only
        rw [hq, List.map_cons, List.nodup_cons] at hn
        have hq1 : queue { r with
            expirehead := e.next,
            expiretail := if e.next = none then none else r.expiretail,
            track := trackDelete r.track e.key } =
            (walk r.heap r.heap.length e.next).map Prod.snd := rfl
        obtain ⟨r1, hrun, hd, hheap, hce, hqe, hte⟩ := ih { r with
            expirehead := e.next,
            expiretail := if e.next = none then none else r.expiretail,
            track := trackDelete r.track e.key } hc1
          (by
            intro k
            rw [hq1]
            show k ∈ trackDelete r.track e.key ↔ _
            rw [mem_trackDelete, ht k, hq, List.map_cons, List.mem_cons]
            constructor
            · rintro ⟨h1 | h1, h2⟩
              · exact absurd h1 h2
              · exact h1
            · intro h1
              refine ⟨Or.inr h1, ?_⟩
              rintro rfl
              exact hn.1 h1)
          (by rw [hq1]; exact hn.2)
          (by rw [hq1]; rw [hq] at hl; simp only [List.length_cons] at hl; omega)
        refine ⟨r1, hrun, hd, hheap, hce, ?_, hte⟩
        rw [hqe, hq1, hq, List.dropWhile_cons]
        simp [hlt]
      · rw [if_neg hlt]
        refine ⟨r, rfl, rfl, rfl, by rw [hh]; exact hc, ?_, ht⟩
        rw [hq, List.dropWhile_cons]
        simp [hlt]

/-- C17: in a state whose queue is a nil-terminated list satisfying the queue
invariant and whose timer is armed, the timer case of `Run` with the clock read
as `n` ends, and afterwards the queue is the old queue without the entries that
expire strictly before `n` (the others in their order), the throttle set is
the set of the keys of the entries kept, every entry removed has an expiration
(registration time plus `d`) strictly before `n`, and the timer is armed for the
head of the queue, or nil when the queue is empty. -/
theorem timer_step_evicts (s : RunState) (n tm : Int)
    (htm : s.tm = some tm)
    (hchain : chainEnds s.r.heap s.r.heap.length s.r.expirehead = true)
    (hinv : QueueInv s.r) :
    ∃ s1, Run.step s (.timer n) = .ok s1 ∧
      queue s1.r = (queue s.r).filter (fun e => decide (n ≤ e.when)) ∧
      (∀ k, k ∈ s1.r.track ↔ ∃ e ∈ queue s.r, e.key = k ∧ n ≤ e.when) ∧
      (∀ e ∈ queue s.r, e ∉ queue s1.r → e.when < n) ∧
      s1.tm = (queue s1.r).head?.map expireelem.when ∧
      (s1.tm ≠ none ↔ queue s1.r ≠ []) := by
  obtain ⟨ht, hn, hs, _, _, _⟩ := hinv
  obtain ⟨r1, hrun, _, _, hc1, hq1, ht1⟩ :=
    expireLoop_chain n (expireFuel s.r) s.r hchain ht hn (queue_length_lt_fuel s.r)
  rw [dropWhile_eq_filter_of_sorted n _ hs] at hq1
  have htrack : ∀ k, k ∈ r1.track ↔ ∃ e ∈ queue s.r, e.key = k ∧ n ≤ e.when := by
    intro k
    rw [ht1 k, hq1, List.mem_map]
    constructor
    · rintro ⟨e, he, rfl⟩
      rw [List.mem_filter] at he
      exact ⟨e, he.1, rfl, by simpa using he.2⟩
    · rintro ⟨e, he, rfl, hle⟩
      exact ⟨e, List.mem_filter.2 ⟨he, by simpa using hle⟩, rfl⟩
  have hrem : ∀ e ∈ queue s.r, e ∉ queue r1 → e.when < n := by
    intro e he hne
    by_contra hge
    exact hne (by rw [hq1]; exact List.mem_filter.2 ⟨he, by simp; omega⟩)
  cases hh : r1.expirehead with
  | none =>
    have hq : queue r1 = [] := by simp [queue, hh, walk_none]
    refine ⟨{ r := r1, tm := none }, ?_, hq1, htrack, hrem, ?_, ?_⟩
    · simp [Run.step, htm, hrun, hh]
    · simp [hq]
    · simp [hq]
  | some p =>
    rw [hh] at hc1
    obtain ⟨e, hget⟩ := chainEnds_some r1.heap _ p hc1
    obtain ⟨hw, _⟩ := walk_head r1.heap _ p e hget hc1
    have hq : queue r1 = e :: (walk r1.heap r1.heap.length e.next).map Prod.snd := by
      simp [queue, hh, hw]
    refine ⟨{ r := r1, tm := some e.when }, ?_, hq1, htrack, hrem, ?_, ?_⟩
    · simp [Run.step, htm, hrun, hh, armTimer, hget]
    · simp [hq]
    · simp [hq]

theorem timer_step_evicts_witness :
    Run.step demoRunArmed (.timer 15) =
      .ok { r := { d := 10, track := ["b"], heap := [⟨20, "b", none⟩, ⟨10, "a", some 0⟩],
                   expirehead := some 0, expiretail := some 0 },
            tm := some 20 } ∧
    ∃ s1, Run.step demoRunArmed (.timer 15) = .ok s1 ∧
      queue s1.r = (queue demoRunArmed.r).filter (fun e => decide (15 ≤ e.when)) ∧
      (∀ k, k ∈ s1.r.track ↔ ∃ e ∈ queue demoRunArmed.r, e.key = k ∧ 15 ≤ e.when) ∧
      (∀ e ∈ queue demoRunArmed.r, e ∉ queue s1.r → e.when < 15) ∧
      s1.tm = (queue s1.r).head?.map expireelem.when ∧
      (s1.tm ≠ none ↔ queue s1.r ≠ []) :=
  ⟨by decide,
   timer_step_evicts demoRunArmed 15 10 rfl (by decide)
    ⟨by
      intro k
      have hq : queue demoRunArmed.r = [⟨10, "a", some 0⟩, ⟨20, "b", none⟩] := by decide
      rw [hq]
      simp [demoRunArmed],
     by decide, by decide, by decide, by decide, by decide⟩⟩

/-! ## The owner loop never reads through a nil head -/

theorem shape_New (d : Int) : Shape (New d) := by
  refine ⟨⟨?_, ?_, ?_, ?_⟩, ?_, ?_⟩ <;> simp [New, live]

theorem shape_add (r : ratelimiter) (key : String) (now : Int) (h : Shape r) :
    Shape (add r key now) := by
  by_cases hk : key ∈ r.track
  · rw [add_tracked r key now hk]; exact h
  · have hkq : key ∉ (r.heap.drop (live r)).map expireelem.key :=
      fun hm => hk ((h.track_iff key).2 hm)
    cases ht : r.expiretail with
    | none =>
      have hh : r.expirehead = none := by
        cases hh : r.expirehead with
        | none => rfl
        | some p => have := h.rep.tail_some p hh; simp [ht] at this
      have hlive : live r = r.heap.length := by simp [live, hh]
      have htr : ∀ k, k ∉ r.track := by
        intro k hkt
        have := (h.track_iff k).1 hkt
        simp [hlive] at this
      have hadd : add r key now =
          { r with track := trackSet r.track key,
                   heap := r.heap ++ [{ when := now + r.d, key := key, next := none }],
                   expirehead := some r.heap.length,
                   expiretail := some r.heap.length } := by
        simp [add, hk, ht]
      rw [hadd]
      refine ⟨⟨?_, ?_, ?_, ?_⟩, ?_, ?_⟩
      · intro p hp; simp at hp; simp; omega
      · intro hp; simp at hp
      · intro p _; simp
      · intro i e hi hget
        simp only [live] at hi
        simp only [List.length_append, List.length_singleton] at hget ⊢
        rw [List.getElem?_append_right hi] at hget
        have hi0 : i - r.heap.length = 0 := by
          by_contra hne
          rw [List.getElem?_eq_none (by simp; omega)] at hget
          simp at hget
        rw [hi0] at hget
        simp at hget
        subst hget
        have : ¬ (i + 1 < r.heap.length + 1) := by omega
        simp [this]
      · intro k
        simp [live, trackSet, hk, htr k]
      · simp [live]
    | some t =>
      obtain ⟨p, hh⟩ : ∃ p, r.expirehead = some p := by
        cases hh : r.expirehead with
        | none => have := h.rep.tail_none hh; simp [ht] at this
        | some p => exact ⟨p, rfl⟩
      have hp := h.rep.head_lt p hh
      have ht1 : t = r.heap.length - 1 := by
        have := h.rep.tail_some p hh; rw [ht] at this; exact Option.some.inj this
      have hlive : live r = p := by simp [live, hh]
      rw [hlive] at hkq
      have hadd : add r key now =
          { r with track := trackSet r.track key,
                   heap := setNext r.heap t (some r.heap.length) ++
                     [{ when := now + r.d, key := key, next := none }],
                   expiretail := some r.heap.length } := by
        simp [add, hk, ht]
      have hdropk : ∀ x, ((setNext r.heap t x ++
            [(⟨now + r.d, key, none⟩ : expireelem)]).drop p).map expireelem.key =
          (r.heap.drop p).map expireelem.key ++ [key] := by
        intro x
        rw [List.drop_append_of_le_length (by rw [setNext_length]; omega)]
        simp only [List.map_append, List.map_drop, setNext_map_key, List.drop_nil,
          List.drop_zero, List.map_cons, List.map_nil]
      have hn := h.nodup
      have hti := h.track_iff
      rw [hlive] at hn hti
      rw [hadd]
      refine ⟨⟨?_, ?_, ?_, ?_⟩, ?_, ?_⟩
      · intro q hq
        simp only [hh] at hq
        simp only [List.length_append, setNext_length, List.length_singleton]
        have := Option.some.inj hq; omega
      · intro hq; simp [hh] at hq
      · intro q _; simp [setNext_length]
      · intro i e hi hget
        simp only [live, hh] at hi
        simp only [List.length_append, setNext_length, List.length_singleton] at hget ⊢
        by_cases hil : i < r.heap.length
        · rw [List.getElem?_append_left (by rw [setNext_length]; exact hil),
            setNext_getElem?] at hget
          by_cases hit : i = t
          · rw [if_pos hit] at hget
            rw [List.getElem?_eq_getElem hil] at hget
            simp at hget
            subst hget
            have : i + 1 < r.heap.length + 1 := by omega
            simp [this]; omega
          · rw [if_neg hit] at hget
            have := h.rep.link i e (by rw [hlive]; exact hi) hget
            have h1 : i + 1 < r.heap.length := by omega
            have h2 : i + 1 < r.heap.length + 1 := by omega
            rw [this, if_pos h1, if_pos h2]
        · rw [List.getElem?_append_right (by rw [setNext_length]; omega), setNext_length] at hget
          have hi0 : i - r.heap.length = 0 := by
            by_contra hne
            rw [List.getElem?_eq_none (by simp; omega)] at hget
            simp at hget
          rw [hi0] at hget
          simp at hget
          subst hget
          have : ¬ (i + 1 < r.heap.length + 1) := by omega
          simp [this]
      · intro k
        simp only [live, hh, hdropk, trackSet, if_neg hk, List.mem_cons, List.mem_append,
          List.mem_singleton]
        rw [hti k]
        simp only [List.mem_nil_iff, or_false]
        constructor
        · rintro (rfl | hkt)
          · exact Or.inr rfl
          · exact Or.inl hkt
        · rintro (hkt | rfl)
          · exact Or.inr hkt
          · exact Or.inl rfl
      · simp only [live, hh, hdropk]
        rw [List.nodup_append]
        refine ⟨hn, by simp, ?_⟩
        intro a ha hb1
        simp at hb1
        subst hb1
        exact hkq ha

theorem shape_pop (r r1 : ratelimiter) (h : Shape r) (hpop : pop r = .ok r1) :
    Shape r1 ∧ r1.heap = r.heap ∧ ∀ p, r.expirehead = some p → live r1 = p + 1 := by
  cases hh : r.expirehead with
  | none => simp [pop, hh] at hpop
  | some p =>
    obtain ⟨e, hget, hdrop, hpop1⟩ := pop_of_head r h.rep p hh
    have hp := h.rep.head_lt p hh
    rw [hpop1] at hpop
    have hr1 := Result.ok.inj hpop
    have hlive : live r = p := by simp [live, hh]
    have hn := h.nodup
    have hti := h.track_iff
    rw [hlive, hdrop] at hn hti
    simp only [List.map_cons, List.nodup_cons, List.mem_cons] at hn hti
    have hlive1 : live r1 = p + 1 := by
      rw [← hr1]
      by_cases hlt : p + 1 < r.heap.length
      · simp [live, hlt]
      · simp [live, hlt]; omega
    have hheap : r1.heap = r.heap := by rw [← hr1]
    have htrack : r1.track = trackDelete r.track e.key := by rw [← hr1]
    refine ⟨⟨⟨?_, ?_, ?_, ?_⟩, ?_, ?_⟩, hheap, ?_⟩
    · intro q hq
      rw [← hr1] at hq ⊢
      by_cases hlt : p + 1 < r.heap.length
      · simp [hlt] at hq; simp; omega
      · simp [hlt] at hq
    · intro hq
      rw [← hr1] at hq ⊢
      by_cases hlt : p + 1 < r.heap.length
      · simp [hlt] at hq
      · simp [hlt]
    · intro q hq
      rw [← hr1] at hq ⊢
      by_cases hlt : p + 1 < r.heap.length
      · simp [hlt]; exact h.rep.tail_some p hh
      · simp [hlt] at hq
    · intro i x hi hx
      rw [hlive1] at hi
      rw [hheap] at hx ⊢
      exact h.rep.link i x (by rw [hlive]; omega) hx
    · intro k
      rw [hlive1, hheap, htrack, mem_trackDelete, hti k]
      constructor
      · rintro ⟨hk | hk, hne⟩
        · exact absurd hk hne
        · exact hk
      · intro hk
        refine ⟨Or.inr hk, ?_⟩
        rintro rfl
        exact hn.1 hk
    · rw [hlive1, hheap]; exact hn.2
    · intro q hq
      rw [← Option.some.inj hq]
      exact hlive1

theorem expireLoop_shape (n : Int) :
    ∀ (fuel : Nat) (r : ratelimiter), Shape r → r.heap.length - live r < fuel →
      ∃ r1, expireLoop n fuel r = .ok r1 ∧ Shape r1 := by
  intro fuel
  induction fuel with
  | zero => intro r _ hl; omega
  | succ fuel ih =>
    intro r h hl
    rw [expireLoop]
    cases hh : r.expirehead with
    | none => exact ⟨r, rfl, h⟩
    | some p =>
      obtain ⟨e, hget, _, hpop⟩ := pop_of_head r h.rep p hh
      have hp := h.rep.head_lt p hh
      simp only [hget]
      by_cases hlt : e.when < n
      · rw [if_pos hlt, hpop]
        simp only
        obtain ⟨h1, hheap, hlive1⟩ := shape_pop r _ h hpop
        have hl1 := hlive1 p hh
        apply ih _ h1
        rw [hl1]
        have hlive : live r = p := by simp [live, hh]
        rw [hlive] at hl
        show r.heap.length - (p + 1) < fuel
        omega
      · rw [if_neg hlt]
        exact ⟨r, rfl, h⟩

theorem armTimer_of_rep {r : ratelimiter} (h : Rep r) (p : Nat)
    (hh : r.expirehead = some p) : ∃ w, armTimer r = .ok (some w) := by
  have hp := h.head_lt p hh
  exact ⟨r.heap[p].when, by simp [armTimer, hh, List.getElem?_eq_getElem hp]⟩

/-- In a state of the right shape with an empty throttle set or a queue that is
not empty, the head is not nil after `add`. -/
theorem add_head_some (r : ratelimiter) (key : String) (now : Int) (h : Shape r)
    (hne : key ∉ r.track ∨ r.expirehead ≠ none) :
    ∃ p, (add r key now).expirehead = some p := by
  by_cases hk : key ∈ r.track
  · rw [add_tracked r key now hk]
    rcases hne with hne | hne
    · exact absurd hk hne
    · cases hh : r.expirehead with
      | none => exact absurd hh hne
      | some p => exact ⟨p, rfl⟩
  · cases ht : r.expiretail with
    | none => exact ⟨r.heap.length, by simp [add, hk, ht]⟩
    | some t =>
      cases hh : r.expirehead with
      | none => have := h.rep.tail_none hh; simp [ht] at this
      | some p => exact ⟨p, by simp [add, hk, ht, hh]⟩

theorem track_nil_of_head_none (r : ratelimiter) (h : Shape r) (hh : r.expirehead = none) :
    r.track = [] := by
  apply List.eq_nil_iff_forall_not_mem.2
  intro k hk
  have := (h.track_iff k).1 hk
  simp [live, hh] at this

theorem runShape_init (d : Int) : RunShape (Run.init d) :=
  ⟨shape_New d, by simp [Run.init, New]⟩

/-- One iteration of the loop of `Run` from a state of the right shape: it ends
normally in such a state, unless the event is the timer while no timer is armed,
which the `select` does not offer. -/
theorem step_runShape (s : RunState) (ev : Event) (h : RunShape s) :
    (∃ s1, Run.step s ev = .ok s1 ∧ RunShape s1) ∨
      (Run.step s ev = .notEnabled ∧ s.tm = none ∧ ∃ n, ev = .timer n) := by
  cases ev with
  | recv key now =>
    left
    have hs1 := shape_add s.r key now h.shape
    cases htm : s.tm with
    | none =>
      have hh := h.timer.1 htm
      have ht := track_nil_of_head_none s.r h.shape hh
      obtain ⟨p, hp⟩ := add_head_some s.r key now h.shape (Or.inl (by rw [ht]; simp))
      obtain ⟨w, hw⟩ := armTimer_of_rep hs1.rep p hp
      exact ⟨{ r := add s.r key now, tm := some w }, by simp [Run.step, htm, hw],
        hs1, by simp [hp]⟩
    | some t =>
      have hh : s.r.expirehead ≠ none := fun hn => by
        have := h.timer.2 hn; simp [htm] at this
      obtain ⟨p, hp⟩ := add_head_some s.r key now h.shape (Or.inr hh)
      exact ⟨{ s with r := add s.r key now }, by simp [Run.step, htm],
        hs1, by simp [htm, hp]⟩
  | timer n =>
    cases htm : s.tm with
    | none => right; exact ⟨by simp [Run.step, htm], rfl, n, rfl⟩
    | some t =>
      left
      obtain ⟨r1, hrun, h1⟩ := expireLoop_shape n (expireFuel s.r) s.r h.shape
        (by simp only [expireFuel]; omega)
      cases hh : r1.expirehead with
      | none =>
        exact ⟨{ r := r1, tm := none }, by simp [Run.step, htm, hrun, hh], h1, by simp [hh]⟩
      | some p =>
        obtain ⟨w, hw⟩ := armTimer_of_rep h1.rep p hh
        exact ⟨{ r := r1, tm := some w }, by simp [Run.step, htm, hrun, hh, hw], h1,
          by simp [hh]⟩

theorem runEvents_runShape (evs : List Event) :
    ∀ s : RunState, RunShape s →
      (∃ s1, runEvents s evs = .ok s1 ∧ RunShape s1) ∨ runEvents s evs = .notEnabled := by
  induction evs with
  | nil => intro s h; exact Or.inl ⟨s, rfl, h⟩
  | cons ev evs ih =>
    intro s h
    rcases step_runShape s ev h with ⟨s1, hstep, h1⟩ | ⟨hstep, _, _⟩
    · simp only [runEvents, hstep]
      exact ih s1 h1
    · right
      simp only [runEvents, hstep]

theorem runShape_unarmed_iff (s : RunState) (h : RunShape s) :
    s.tm = none ↔ queue s.r = [] ∧ s.r.track = [] := by
  rw [h.timer, queue_of_rep s.r h.shape.rep]
  constructor
  · intro hh
    exact ⟨by simp [live, hh], track_nil_of_head_none s.r h.shape hh⟩
  · rintro ⟨hq, _⟩
    cases hh : s.r.expirehead with
    | none => rfl
    | some p =>
      have hp := h.shape.rep.head_lt p hh
      simp only [live, hh, List.drop_eq_nil_iff] at hq
      omega

/-- C20: whatever keys are received and whenever the timer fires (with any
clock readings), the loop of `Run` started on the empty limiter never
dereferences nil and its expiry loop always ends; in every state it reaches,
the timer is nil exactly when the queue and the throttle set are both empty,
`expirehead` is not nil after `add` when the timer is nil (so that its
expiration can be read), the next iteration does not dereference nil either,
and a timer that fires finds a queue that is not empty. -/
theorem run_never_derefs_nil (d : Int) (evs : List Event) :
    runEvents (Run.init d) evs ≠ .nilDeref ∧
    runEvents (Run.init d) evs ≠ .outOfFuel ∧
    ∀ s, runEvents (Run.init d) evs = .ok s →
      (s.tm = none ↔ queue s.r = [] ∧ s.r.track = []) ∧
      (∀ key now, s.tm = none → (add s.r key now).expirehead ≠ none) ∧
      (∀ ev, Run.step s ev ≠ .nilDeref ∧ Run.step s ev ≠ .outOfFuel) ∧
      (∀ n, Run.step s (.timer n) ≠ .notEnabled → queue s.r ≠ []) := by
  rcases runEvents_runShape evs (Run.init d) (runShape_init d) with ⟨s1, hrun, h1⟩ | hrun
  · rw [hrun]
    refine ⟨by simp, by simp, ?_⟩
    intro s hs
    have hs1 : s1 = s := Result.ok.inj hs
    subst hs1
    refine ⟨runShape_unarmed_iff s1 h1, ?_, ?_, ?_⟩
    · intro key now htm
      have ht := track_nil_of_head_none s1.r h1.shape (h1.timer.1 htm)
      obtain ⟨p, hp⟩ := add_head_some s1.r key now h1.shape (Or.inl (by rw [ht]; simp))
      simp [hp]
    · intro ev
      rcases step_runShape s1 ev h1 with ⟨s2, hstep, _⟩ | ⟨hstep, _, _⟩
      · rw [hstep]; simp
      · rw [hstep]; simp
    · intro n hen hq
      have htm : s1.tm = none := (runShape_unarmed_iff s1 h1).2
        ⟨hq, track_nil_of_head_none s1.r h1.shape (by
          have := queue_of_rep s1.r h1.shape.rep
          cases hh : s1.r.expirehead with
          | none => rfl
          | some p =>
            have hp := h1.shape.rep.head_lt p hh
            rw [this] at hq
            simp only [live, hh, List.drop_eq_nil_iff] at hq
            omega)⟩
      exact hen (by simp [Run.step, htm])
  · rw [hrun]
    refine ⟨by simp, by simp, ?_⟩
    intro s hs
    simp at hs

theorem run_never_derefs_nil_witness :
    runEvents (Run.init 10) [.recv "a" 0, .recv "b" 3, .recv "a" 4, .timer 12] =
      .ok { r := { d := 10, track := ["b"],
                   heap := [⟨10, "a", some 1⟩, ⟨13, "b", none⟩],
                   expirehead := some 1, expiretail := some 1 },
            tm := some 13 } ∧
    runEvents (Run.init 10) [.recv "a" 0, .timer 11] =
      .ok { r := { d := 10, track := [], heap := [⟨10, "a", none⟩],
                   expirehead := none, expiretail := none },
            tm := none } ∧
    runEvents (Run.init 10) [.recv "a" 0, .timer 11, .timer 12] ≠ .nilDeref :=
  ⟨by decide, by decide,
   (run_never_derefs_nil 10 [.recv "a" 0, .timer 11, .timer 12]).1⟩

/-! ## Deadlock of `Ratelimit` with the owner loop -/

/-- The two parts of `pop` in the interleaving model make up the `pop` of the
sequential model. -/
theorem pop_eq_unlink_delete (r : ratelimiter) :
    pop r = match popUnlink r with
      | .ok (r1, key) => .ok (popDelete r1 key)
      | .nilDeref => .nilDeref
      | .outOfFuel => .outOfFuel
      | .notEnabled => .notEnabled := by
  cases hh : r.expirehead with
  | none => simp [pop, popUnlink, hh]
  | some h =>
    cases hg : r.heap[h]? with
    | none => simp [pop, popUnlink, hh, hg]
    | some e => simp [pop, popUnlink, popDelete, hh, hg]

/-- With one caller the hand-off goes through: the caller returns true, the lock
is free, and the owner is back in its `select` with the limiter in the state
the sequential model gives. -/
theorem single_caller_completes :
    crun (cinit (fun x => x) 10 [("bob@y.com", "alice@x.com")])
      [.caller 0, .caller 0, .hand 0, .caller 0, .owner 0, .owner 0] =
      some { r := add (New 10) "bob@y.com@@alice@x.com" 0,
             tm := some 10,
             lock := none,
             owner := .select,
             callers := [.done true] } := by
  decide

/-- C12 fails on the code: for every digest, window and two calls of `Ratelimit`,
the schedule "caller 1 locks, checks, hands its key to the owner and returns;
caller 0 locks, checks and sends" reaches a state in which caller 0 holds the
lock blocked in the send on `inch` while the owner is blocked in `add` at
`Lock`, and from which no move is possible. -/
theorem ratelimit_deadlock (sum256 : String → String) (d : Int)
    (frm tgt frm1 tgt1 : String) :
    ∃ st, crun (cinit sum256 d [(frm, tgt), (frm1, tgt1)])
        [.caller 1, .caller 1, .hand 1, .caller 1, .caller 0, .caller 0] = some st ∧
      st.lock = some (.caller 0) ∧
      st.callers = [.sending (mapKey sum256 frm tgt), .done true] ∧
      st.owner = .addWantLock (mapKey sum256 frm1 tgt1) ∧
      ∀ m, cstep st m = none := by
  refine ⟨{ r := New d, tm := none, lock := some (.caller 0),
            owner := .addWantLock (mapKey sum256 frm1 tgt1),
            callers := [.sending (mapKey sum256 frm tgt), .done true] }, ?_, rfl, rfl, rfl, ?_⟩
  · simp [crun, cstep, cinit, New]
  · intro m
    cases m with
    | caller i =>
      match i with
      | 0 => rfl
      | 1 => rfl
      | i + 2 => simp [cstep]
    | hand i =>
      match i with
      | 0 => rfl
      | 1 => rfl
      | i + 2 => simp [cstep]
    | fire n => rfl
    | owner now => simp [cstep]

/-- The same with one caller and the timer: after a first call has been
registered and the timer armed, a caller locks, checks and sends while the
timer fires and the owner, in `pop`, waits for the lock. -/
theorem ratelimit_deadlock_in_pop :
    ∃ st, crun (cinit (fun x => x) 10 [("bob@y.com", "alice@x.com"), ("carol@z.org", "dave@w.net")])
        [.caller 0, .caller 0, .hand 0, .caller 0, .owner 0, .owner 0,
         .caller 1, .caller 1, .fire 11, .owner 11] = some st ∧
      st.lock = some (.caller 1) ∧
      st.callers = [.done true, .sending "carol@z.org@@dave@w.net"] ∧
      st.owner = .popWantLock 11 "bob@y.com@@alice@x.com" ∧
      ∀ m, cstep st m = none := by
  refine ⟨{ r := { d := 10, track := ["bob@y.com@@alice@x.com"],
                   heap := [⟨10, "bob@y.com@@alice@x.com", none⟩],
                   expirehead := none, expiretail := none },
            tm := some 10, lock := some (.caller 1),
            owner := .popWantLock 11 "bob@y.com@@alice@x.com",
            callers := [.done true, .sending "carol@z.org@@dave@w.net"] },
    by decide, rfl, rfl, rfl, ?_⟩
  intro m
  cases m with
  | caller i =>
    match i with
    | 0 => rfl
    | 1 => rfl
    | i + 2 => simp [cstep]
  | hand i =>
    match i with
    | 0 => rfl
    | 1 => rfl
    | i + 2 => simp [cstep]
  | fire n => rfl
  | owner now => simp [cstep]

/-- The step of the sequential system for a call of `Ratelimit` is the schedule of
the interleaving model in which the caller runs to its return and the owner
then runs `add` to its end (and arms the timer) before anything else happens. -/
theorem seqStep_is_schedule (sum256 : String → String) (s s1 : RunState) (frm tgt : String)
    (now : Int) (b : Bool)
    (h : seqStep sum256 s (.ratelimit frm tgt now) = .ok (s1, some b)) :
    crun { r := s.r, tm := s.tm, lock := none, owner := .select,
           callers := [.wantLock (mapKey sum256 frm tgt)] }
      (if b then [.caller 0, .caller 0, .hand 0, .caller 0, .owner now, .owner now]
        else [.caller 0, .caller 0, .caller 0]) =
      some { r := s1.r, tm := s1.tm, lock := none, owner := .select, callers := [.done b] } := by
  by_cases hk : mapKey sum256 frm tgt ∈ s.r.track
  · simp [seqStep, Ratelimit, hk] at h
    obtain ⟨rfl, rfl⟩ := h
    simp [crun, cstep, hk]
  · cases htm : s.tm with
    | none =>
      cases harm : armTimer (add s.r (mapKey sum256 frm tgt) now) with
      | ok tm =>
        simp [seqStep, Ratelimit, hk, Run.step, htm, harm] at h
        obtain ⟨rfl, rfl⟩ := h
        simp [crun, cstep, hk, harm]
      | nilDeref => simp [seqStep, Ratelimit, hk, Run.step, htm, harm] at h
      | outOfFuel => simp [seqStep, Ratelimit, hk, Run.step, htm, harm] at h
      | notEnabled => simp [seqStep, Ratelimit, hk, Run.step, htm, harm] at h
    | some t =>
      simp [seqStep, Ratelimit, hk, Run.step, htm] at h
      obtain ⟨rfl, rfl⟩ := h
      simp [crun, cstep, hk, htm]

/-- `Ratelimit` returns before the pair is registered.  For every digest, window
and pair: when the call for (recipient, sender) has returned true, the key is
not tracked (the owner, in `add`, has not had the lock yet); an identical call
made then is not refused: it passes the check, blocks in the send on `inch`
holding the lock, and no move is possible any more, so it never returns. -/
theorem ratelimit_unregistered_at_return (sum256 : String → String) (d : Int)
    (recipient sender : String) :
    ∃ st, crun (cinit sum256 d [(recipient, sender), (recipient, sender)])
        [.caller 0, .caller 0, .hand 0, .caller 0] = some st ∧
      st.callers[0]? = some (.done true) ∧
      mapKey sum256 recipient sender ∉ st.r.track ∧
      ∃ st2, crun st [.caller 1, .caller 1] = some st2 ∧
        st2.callers[1]? = some (.sending (mapKey sum256 recipient sender)) ∧
        st2.lock = some (.caller 1) ∧
        ∀ m, cstep st2 m = none := by
  refine ⟨{ r := New d, tm := none, lock := none,
            owner := .addWantLock (mapKey sum256 recipient sender),
            callers := [.done true, .wantLock (mapKey sum256 recipient sender)] },
    ?_, rfl, ?_, ?_⟩
  · simp [crun, cstep, cinit, New]
  · simp [New]
  · refine ⟨{ r := New d, tm := none, lock := some (.caller 1),
              owner := .addWantLock (mapKey sum256 recipient sender),
              callers := [.done true, .sending (mapKey sum256 recipient sender)] },
      ?_, rfl, rfl, ?_⟩
    · simp [crun, cstep, New]
    · intro m
      cases m with
      | caller i =>
        match i with
        | 0 => rfl
        | 1 => rfl
        | i + 2 => simp [cstep]
      | hand i =>
        match i with
        | 0 => rfl
        | 1 => rfl
        | i + 2 => simp [cstep]
      | fire n => rfl
      | owner now => simp [cstep]

/-- C16 fails as stated: with the window of `main` (24 hours, in seconds here) and
the identity as digest, the call `Ratelimit("bob@y.com", "alice@x.com")` of a
first delivery has returned true and the key is not tracked yet; the call of an
identical delivery made then is not refused as rate-limited: it passes the
check, blocks in the send on `inch` holding the lock, and never returns. -/
theorem ratelimit_returns_before_registration :
    ∃ st, crun (cinit (fun x => x) 86400
          [("bob@y.com", "alice@x.com"), ("bob@y.com", "alice@x.com")])
        [.caller 0, .caller 0, .hand 0, .caller 0] = some st ∧
      st.callers[0]? = some (.done true) ∧
      mapKey (fun x => x) "bob@y.com" "alice@x.com" ∉ st.r.track ∧
      ∃ st2, crun st [.caller 1, .caller 1] = some st2 ∧
        st2.callers[1]? = some (.sending (mapKey (fun x => x) "bob@y.com" "alice@x.com")) ∧
        st2.lock = some (.caller 1) ∧
        ∀ m, cstep st2 m = none :=
  ratelimit_unregistered_at_return (fun x => x) 86400 "bob@y.com" "alice@x.com"
end Vacationd
